import Mathlib

/-!
# halobase/hr : path trie, route groups, router dispatch and binding

A shallow embedding of `tree.go`, `group.go`, `router.go`, `bind.go` and `types.go`, and
of the struct Ctx of `context.go` with its method WriteHeader.

* A Go string / `[]byte` is a list of bytes, a byte is a natural number below 256.
* A `*node` is an index into the arena (`Heap`) that holds the nodes of one trie;
  the root of a trie is the first cell of its arena.  `nil` is `none`.
* A panic is an explicit result.
-/

namespace Hr

/-! ## Bytes -/

/-- A Go string or byte slice. -/
abbrev Bytes := List Nat

/-- The bytes of an ASCII literal. -/
def bytes (s : String) : Bytes := s.toList.map Char.toNat

/-- The byte of the path separator. -/
def slash : Nat := 47

/-- The constant vardec of tree.go, the byte of the colon. -/
def vardec : Nat := 58

/-! ## group.go : hash and unsafeParse -/

/-- The function hash of group.go: `int(s[1]+s[2]) % 18`.  The sum is a byte sum, so it
wraps modulo 256 before the conversion to int.  Indexing a string shorter than three
bytes panics, which is the result none. -/
def hash (s : Bytes) : Option Nat :=
  match s[1]?, s[2]? with
  | some a, some b => some ((a + b) % 256 % 18)
  | _, _ => none

/-- The nine method names of the registration surface (GET, POST, PUT, PATCH, DELETE, HEAD,
OPTIONS, CONNECT, TRACE), in the order of the shortcut methods of group.go. -/
def methods : List Bytes :=
  [bytes "GET", bytes "POST", bytes "PUT", bytes "PATCH", bytes "DELETE", bytes "HEAD",
   bytes "OPTIONS", bytes "CONNECT", bytes "TRACE"]

/-- The length of the array `trees [12]*node` of a Group. -/
def treesLen : Nat := 12

/-- The Go slice expression `b[i:j]`. -/
def slice (b : Bytes) (i j : Nat) : Bytes := (b.drop i).take (j - i)

/-- The loop of unsafeParse.  The first list argument is `b[j:]`, the bytes still to be
read; `i` is the start of the segment being read and `j` the position of the reader. -/
def unsafeParseLoop (b : Bytes) : List Nat → Nat → Nat → List Bytes → List Bytes
  | [], i, _, c => c ++ [b.drop i]
  | x :: rest, i, j, c =>
    if x = slash then unsafeParseLoop b rest (j + 1) (j + 1) (c ++ [slice b i j])
    else unsafeParseLoop b rest i (j + 1) c

/-- The function unsafeAtobs of group.go: the bytes of a string, without a copy. -/
def unsafeAtobs (s : Bytes) : Bytes := s

/-- The function unsafeParse of group.go: the buffer `*c` after the call. -/
def unsafeParse (s : Bytes) (c : List Bytes) : List Bytes :=
  unsafeParseLoop (unsafeAtobs s) (unsafeAtobs s) 0 0 c

/-- Splitting at every slash, as the words of the specification have it (the semantics of
bytes.Split): the empty string gives one empty segment, every slash closes a segment and
opens the next one, empty segments are kept. -/
def splitSlash : Bytes → List Bytes
  | [] => [[]]
  | x :: xs =>
    if x = slash then [] :: splitSlash xs
    else
      match splitSlash xs with
      | [] => [[x]]
      | seg :: segs => (x :: seg) :: segs

/-- Joining segments with a slash between neighbours. -/
def joinSlash : List Bytes → Bytes
  | [] => []
  | [seg] => seg
  | seg :: rest => seg ++ slash :: joinSlash rest

/-- Prepending bytes to the first segment of a split. -/
def consHead (cur : Bytes) : List Bytes → List Bytes
  | [] => [cur]
  | seg :: segs => (cur ++ seg) :: segs

/-! ## tree.go -/

/-- The type nodeKind of tree.go (a uint8 whose values are the four constants below). -/
abbrev nodeKind := Nat

abbrev nodeUnknown : nodeKind := 0
abbrev nodeStatic : nodeKind := 1
abbrev nodeDynamic : nodeKind := 2
abbrev nodeWildcard : nodeKind := 3

/-- A non-nil `*node`: the index of the node in the arena of its trie. -/
abbrev Ptr := Nat

/-- A value of the interface type Handler; none is the nil handler. -/
abbrev Handler (H : Type) := Option H

/-- The struct node of tree.go.  The zero value is the default of every field. -/
structure node (H : Type) where
  kind : nodeKind := nodeUnknown
  chunk : Bytes := []
  children : List Ptr := []
  wildcard : Option Ptr := none
  handler : Handler H := none
  deriving DecidableEq, Repr

/-- The arena of one trie: cell `p` holds the node that the pointer `p` points to, and
the root of the trie is cell 0.  An allocation appends a cell. -/
abbrev Heap (H : Type) := List (node H)

/-- Reading through a pointer.  Every pointer that the program stores was returned by an
allocation, so the default (the zero node) is only read outside the arena. -/
def deref {H : Type} (hp : Heap H) (p : Ptr) : node H := hp.getD p {}

/-- Writing through a pointer. -/
def store {H : Type} (hp : Heap H) (p : Ptr) (n : node H) : Heap H := hp.set p n

/-- The kind of the node behind a pointer. -/
def kindOf {H : Type} (hp : Heap H) (p : Ptr) : Nat := (deref hp p).kind

/-- The chunk of the node behind a pointer. -/
def chunkOf {H : Type} (hp : Heap H) (p : Ptr) : Bytes := (deref hp p).chunk

/-- The function chunkToKind of tree.go. -/
def chunkToKind (chunk : Bytes) : nodeKind :=
  match chunk with
  | [] => nodeWildcard
  | x :: _ => if x = vardec then nodeDynamic else nodeStatic

/-- The method node.child of tree.go: the first child whose chunk has the bytes of the
argument, or nil. -/
def node.child {H : Type} (hp : Heap H) (n : node H) (chunk : Bytes) : Option Ptr :=
  n.children.find? (fun c => decide (chunkOf hp c = chunk))

/-- The contract of `sort.Sort(n.children)` with the Less of the type nodes: the result
is a rearrangement of the slice in which the kinds ascend.  sort.Sort is not stable, so
nothing more is assumed of the order. -/
def SortsByKind (srt : (Nat → Nat) → List Nat → List Nat) : Prop :=
  ∀ (key : Nat → Nat) (l : List Nat),
    (srt key l).Perm l ∧ (srt key l).Pairwise (fun a b => key a ≤ key b)

/-- The inner loop of an insertion sort on the reversed sorted part of the slice: the
new element moves left while it is less than its left neighbour. -/
def sortShift (key : Nat → Nat) (x : Nat) : List Nat → List Nat
  | [] => [x]
  | y :: ys => if key x < key y then y :: sortShift key x ys else x :: y :: ys

/-- The insertion sort that sort.Sort runs on slices of at most twelve elements. -/
def sortSort (key : Nat → Nat) (l : List Nat) : List Ptr :=
  (l.foldl (fun acc x => sortShift key x acc) []).reverse

/-- The block of node.insert that runs when no child has the chunk: a node is allocated
for the chunk, appended to the children of `n`, the children are sorted, and a wildcard
child is cached on `n`.  Returns the new arena and the new child. -/
def addChild {H : Type} (srt : (Nat → Nat) → List Nat → List Nat)
    (hp : Heap H) (n : Ptr) (chunk : Bytes) : Heap H × Ptr :=
  let child : Ptr := hp.length
  let hp1 : Heap H := hp ++ [{ kind := chunkToKind chunk, chunk := chunk }]
  let n1 : node H :=
    { deref hp1 n with children := srt (kindOf hp1) ((deref hp1 n).children ++ [child]) }
  let n2 : node H :=
    if chunkToKind chunk = nodeWildcard then { n1 with wildcard := some child } else n1
  (store hp1 n n2, child)

/-- The body of node.insert, on the chunks that are still to be consumed
(`chunks[height:]`).  The result is the arena after the call and the panic message, if the
call panicked.  A nil slice of children and an empty one are the same list, so the
statement that replaces a nil slice by `make(nodes, 0)` changes nothing here. -/
def insertFrom {H : Type} (srt : (Nat → Nat) → List Nat → List Nat) :
    Heap H → Ptr → List Bytes → Handler H → Heap H × Option String
  | hp, n, [], handler =>
    if (deref hp n).handler.isSome then (hp, some "redefining route")
    else (store hp n { deref hp n with handler := handler }, none)
  | hp, n, chunk :: rest, handler =>
    match (deref hp n).child hp chunk with
    | some child => insertFrom srt hp child rest handler
    | none =>
      let r := addChild srt hp n chunk
      insertFrom srt r.1 r.2 rest handler

/-- The method node.insert of tree.go.  The recursive call with `height+1` is the call of
insertFrom on the tail of `chunks[height:]`; a height beyond the length of the chunks
indexes them out of range. -/
def node.insert {H : Type} (srt : (Nat → Nat) → List Nat → List Nat)
    (hp : Heap H) (n : Ptr) (chunks : List Bytes) (height : Nat) (handler : Handler H) :
    Heap H × Option String :=
  if height ≤ chunks.length then insertFrom srt hp n (chunks.drop height) handler
  else (hp, some "index out of range")

/-- The struct Var of router.go. -/
structure Var where
  Key : Bytes
  Value : Bytes
  deriving DecidableEq, Repr

/-- A non-nil value of the slice type Vars: its elements and its capacity. -/
structure Vars where
  elems : List Var
  cap : Nat
  deriving DecidableEq, Repr

/-- The outcome of the scan of the children for one chunk. -/
inductive Scan where
  | next (child : Ptr) (vars : Option Vars)
  | miss
  | panic (msg : String)
  deriving DecidableEq, Repr

/-- The inner loop of node.lookup: the children are tried in order.  A static child
matches its own bytes, a dynamic child matches and captures, a wildcard child matches.
The capture extends the slice by one inside its capacity (`vars[:i+1]`), which panics when
the capacity is used up. -/
def scanChildren {H : Type} (hp : Heap H) (alloc : Vars) (chunk : Bytes)
    (vars : Option Vars) : List Ptr → Scan
  | [] => .miss
  | c :: cs =>
    let child := deref hp c
    if child.kind = nodeStatic ∧ chunk = child.chunk then .next c vars
    else if child.kind = nodeDynamic then
      let vs : Vars := match vars with
        | none => alloc
        | some v => v
      if vs.cap < vs.elems.length + 1 then .panic "slice bounds out of range"
      else
        match child.chunk with
        | [] => .panic "slice bounds out of range"
        | _ :: key =>
          .next c (some { vs with elems := vs.elems ++ [{ Key := key, Value := chunk }] })
    else if child.kind = nodeWildcard then .next c vars
    else scanChildren hp alloc chunk vars cs

/-- The outcome of node.lookup. -/
inductive Lookup where
  | ret (node : Option Ptr) (vars : Option Vars)
  | panic (msg : String)
  deriving DecidableEq, Repr

/-- The outer loop of node.lookup and the code after it, with the variables cur, wild and
vars of the source as arguments. -/
def lookupLoop {H : Type} (hp : Heap H) (alloc : Vars) :
    Ptr → Option Ptr → Option Vars → List Bytes → Lookup
  | cur, wild, vars, [] =>
    if (deref hp cur).handler.isNone then .ret wild vars else .ret (some cur) vars
  | cur, wild, vars, chunk :: rest =>
    let wild1 := match (deref hp cur).wildcard with
      | some w => some w
      | none => wild
    match scanChildren hp alloc chunk vars (deref hp cur).children with
    | .next child vars1 => lookupLoop hp alloc child wild1 vars1 rest
    | .miss => .ret wild1 vars
    | .panic msg => .panic msg

/-- The method node.lookup of tree.go.  The receiver is a copy of the node behind `n`;
the pointer to that copy is represented by `n` itself.  The argument alloc is the slice
that the function alloc of the source returns. -/
def node.lookup {H : Type} (hp : Heap H) (n : Ptr) (chunks : List Bytes) (alloc : Vars) :
    Lookup :=
  lookupLoop hp alloc n none none chunks

/-- The trie `new(node)`: one root node with the zero value. -/
def emptyTrie {H : Type} : Heap H := [{}]

/-- Inserting routes one after the other at the root, at height 0, each with a non-nil
handler, as newTestTree of tree_test.go does; stops at the first panic. -/
def insertAll {H : Type} (srt : (Nat → Nat) → List Nat → List Nat) :
    Heap H → List (List Bytes × H) → Heap H × Option String
  | hp, [] => (hp, none)
  | hp, (chunks, h) :: rest =>
    match node.insert srt hp 0 chunks 0 (some h) with
    | (hp1, none) => insertAll srt hp1 rest
    | (hp1, some msg) => (hp1, some msg)

/-- The function testAlloc of tree_test.go: `make(Vars, 0, 10)`. -/
def testAlloc : Vars := { elems := [], cap := 10 }

/-- The node that the descent of node.insert reaches from `p` along the chunks, by
node.child at every step; none when a child is missing. -/
def walk {H : Type} (hp : Heap H) : Ptr → List Bytes → Option Ptr
  | p, [] => some p
  | p, c :: cs =>
    match (deref hp p).child hp c with
    | some q => walk hp q cs
    | none => none

/-- The elements of a possibly nil Vars. -/
def varsList : Option Vars → List Var
  | none => []
  | some vs => vs.elems

/-- The value of the variable wild of node.lookup after a descent from `p` along the
chunks that started with the value `wild`. -/
def wildAlong {H : Type} (hp : Heap H) : Ptr → Option Ptr → List Bytes → Option Ptr
  | _, wild, [] => wild
  | p, wild, c :: cs =>
    let wild1 := match (deref hp p).wildcard with
      | some w => some w
      | none => wild
    match (deref hp p).child hp c with
    | some q => wildAlong hp q wild1 cs
    | none => wild1

/-- A static segment: not empty and not starting with the colon. -/
def isStatic (x : Bytes) : Bool :=
  match x with
  | [] => false
  | b :: _ => b != vardec

/-- A dynamic segment: starting with the colon. -/
def isDynamic (x : Bytes) : Bool :=
  match x with
  | [] => false
  | b :: _ => b == vardec

/-- The pairs that a request captures under a pattern: for every dynamic segment of the
pattern, its name without the colon and the request segment at the same position, from
left to right. -/
def captures : List Bytes → List Bytes → List Var
  | p :: ps, r :: rs =>
    (if isDynamic p then [{ Key := p.drop 1, Value := r }] else []) ++ captures ps rs
  | _, _ => []

/-- A request has the length of the pattern and the bytes of the pattern at every
position that is not dynamic. -/
def agrees : List Bytes → List Bytes → Bool
  | [], [] => true
  | p :: ps, r :: rs => (isDynamic p || decide (p = r)) && agrees ps rs
  | _, _ => false

/-- The variable vars of node.lookup after the given captures, in a run that does not
panic: no capture leaves it as it is, the first capture allocates. -/
def pushVars (alloc : Vars) (vars : Option Vars) (caps : List Var) : Option Vars :=
  match caps with
  | [] => vars
  | _ :: _ =>
    match vars with
    | none => some { alloc with elems := alloc.elems ++ caps }
    | some vs => some { vs with elems := vs.elems ++ caps }

/-- The captures fit into the capacity of the slice that holds them. -/
def fits (alloc : Vars) (vars : Option Vars) (caps : List Var) : Prop :=
  caps = [] ∨
    match vars with
    | none => alloc.elems.length + caps.length ≤ alloc.cap
    | some vs => vs.elems.length + caps.length ≤ vs.cap

/-- The shape of a trie that every insertion keeps: the arena has a root, children come
after their parent in the arena, the kind of a child is the kind of its chunk, the chunks
of the children of a node are distinct, the children ascend by kind, the cached wildcard
is the child with the empty chunk, and a node is the child of one node only. -/
structure WF {H : Type} (hp : Heap H) : Prop where
  nonempty : 0 < hp.length
  child_gt : ∀ (p c : Nat), c ∈ (deref hp p).children → p < c ∧ c < hp.length
  kind_eq : ∀ (p c : Nat), c ∈ (deref hp p).children → kindOf hp c = chunkToKind (chunkOf hp c)
  nodup : ∀ (p : Nat), ((deref hp p).children.map (chunkOf hp)).Nodup
  sorted : ∀ (p : Nat), (deref hp p).children.Pairwise (fun a b => kindOf hp a ≤ kindOf hp b)
  wild : ∀ (p w : Nat), (deref hp p).wildcard = some w ↔
    (w ∈ (deref hp p).children ∧ chunkOf hp w = [])
  parent : ∀ (p q c : Nat), c ∈ (deref hp p).children → c ∈ (deref hp q).children → p = q

/-- What a call of insertFrom that returns leaves behind. -/
structure InsertOk {H : Type} (hp : Heap H) (n : Nat) (rest : List Bytes)
    (handler : Handler H) (hp1 : Heap H) : Prop where
  wf : WF hp1
  len : hp.length ≤ hp1.length
  shape : ∀ (p : Nat), p < hp.length → kindOf hp1 p = kindOf hp p ∧ chunkOf hp1 p = chunkOf hp p
  sub : ∀ (q c : Nat), c ∈ (deref hp q).children → c ∈ (deref hp1 q).children
  fresh : ∀ (e : Nat), walk hp n rest = some e → (deref hp e).handler = none
  attached : ∃ (e : Nat), walk hp1 n rest = some e ∧ (deref hp1 e).handler = handler ∧
    ∀ (p : Nat), p ≠ e → (deref hp1 p).handler = (deref hp p).handler
  frame : ∀ (p : Nat), p < n → deref hp1 p = deref hp p
  kids : ∀ (c : Nat), c ∈ (deref hp1 n).children →
    c ∈ (deref hp n).children ∨ rest.head? = some (chunkOf hp1 c)
  count : ∀ (q : Nat), (deref hp1 q).children.length ≤ (deref hp q).children.length + 1

/-- What holds of the trie built from the empty root by inserting the given routes: it has
the shape above, every route leads from the root to a node carrying its handler, every
handler in the trie is the handler of a route that leads to its node, and every child of
the root has the first chunk of some route. -/
structure Built {H : Type} (hp : Heap H) (routes : List (List Bytes × H)) : Prop where
  wf : WF hp
  attached : ∀ (cs : List Bytes) (h : H), (cs, h) ∈ routes →
    ∃ e : Nat, walk hp 0 cs = some e ∧ (deref hp e).handler = some h
  origin : ∀ (e : Nat) (h : H), (deref hp e).handler = some h →
    ∃ cs : List Bytes, walk hp 0 cs = some e ∧ (cs, h) ∈ routes
  rootKids : ∀ c : Nat, c ∈ (deref hp 0).children →
    ∃ r ∈ routes, r.1.head? = some (chunkOf hp c)

/-! ## The function path.Join of the Go standard library -/

/-- The byte of the dot. -/
def dot : Nat := 46

/-- The backtracking of path.Clean at a dot-dot element: the write index goes down by
one and then further down while it is above dotdot and the byte at the index is not a
slash.  The argument is the index after the first decrement; the result is the final
write index. -/
def cleanBacktrack (out : Bytes) (dotdot : Nat) : Nat → Nat
  | 0 => 0
  | w + 1 => if dotdot < w + 1 ∧ out[w + 1]? ≠ some slash then cleanBacktrack out dotdot w
    else w + 1

/-- The loop of path.Clean.  The arguments are the bytes still to be read (`path[r:]`),
the bytes written so far and the index dotdot; the first argument bounds the number of
rounds and is the length of the path. -/
def cleanLoop (rooted : Bool) : Nat → Bytes → Bytes → Nat → Bytes
  | 0, _, out, _ => out
  | fuel + 1, rest, out, dotdot =>
    match rest with
    | [] => out
    | c :: t =>
      if c = slash then cleanLoop rooted fuel t out dotdot
      else if c = dot ∧ (t = [] ∨ t.head? = some slash) then cleanLoop rooted fuel t out dotdot
      else if c = dot ∧ t.head? = some dot ∧
          (t.drop 1 = [] ∨ (t.drop 1).head? = some slash) then
        if dotdot < out.length then
          cleanLoop rooted fuel (t.drop 1)
            (out.take (cleanBacktrack out dotdot (out.length - 1))) dotdot
        else if rooted = false then
          cleanLoop rooted fuel (t.drop 1)
            ((if 0 < out.length then out ++ [slash] else out) ++ [dot, dot])
            ((if 0 < out.length then out ++ [slash] else out) ++ [dot, dot]).length
        else cleanLoop rooted fuel (t.drop 1) out dotdot
      else
        cleanLoop rooted fuel (rest.dropWhile (fun b => b != slash))
          ((if (rooted = true ∧ out.length ≠ 1) ∨ (rooted = false ∧ out.length ≠ 0)
              then out ++ [slash] else out) ++ rest.takeWhile (fun b => b != slash))
          dotdot

/-- The function path.Clean. -/
def pathClean (path : Bytes) : Bytes :=
  match path with
  | [] => [dot]
  | c :: t =>
    let out :=
      if c = slash then cleanLoop true path.length t [slash] 1
      else cleanLoop false path.length path [] 0
    if out = [] then [dot] else out

/-- The function path.Join on two elements: the non-empty elements are joined with a
slash and the result is cleaned; two empty elements give the empty string. -/
def pathJoin (a b : Bytes) : Bytes :=
  if a.length + b.length = 0 then []
  else if a = [] then pathClean b
  else pathClean (a ++ slash :: b)

/-! ## group.go and router.go -/

/-- The type Plugin of router.go. -/
abbrev Plugin (H : Type) := Handler H → Handler H

/-- The struct Group of group.go, without the trees and the pool: a group whose prev is
nil is a root, any other group was derived by Prefix.  The fields of a group are never
assigned after its creation. -/
inductive Group (H : Type) where
  | root (pfx : Bytes) (plugins : List (Plugin H))
  | sub (prev : Group H) (pfx : Bytes) (plugins : List (Plugin H))

/-- The field prefix of a group. -/
def Group.pfx {H : Type} : Group H → Bytes
  | .root p _ => p
  | .sub _ p _ => p

/-- The field plugins of a group. -/
def Group.plugins {H : Type} : Group H → List (Plugin H)
  | .root _ ps => ps
  | .sub _ _ ps => ps

/-- The method Group.Prefix. -/
def Group.Prefix {H : Type} (g : Group H) (pfx : Bytes) (plugins : List (Plugin H)) :
    Group H :=
  .sub g pfx plugins

/-- The field trees of the root group: twelve tries, each nil or the arena of a trie
whose root is cell 0. -/
abbrev Trees (H : Type) := List (Option (Heap H))

/-- The loops of Group.handle that compose plugins around a handler, from the last plugin
to the first. -/
def compose {H : Type} (ps : List (Plugin H)) (h : Handler H) : Handler H :=
  ps.foldr (fun p acc => p acc) h

/-- The method Group.handle, called on a root group; trees is the field of that group.
The buffer taken from the pool is empty.  The result is the trees after the call and the
panic message, if any. -/
def Group.handle {H : Type} (srt : (Nat → Nat) → List Nat → List Nat) (g : Group H)
    (trees : Trees H) (method route : Bytes) (h : Handler H) (ps : List (Plugin H)) :
    Trees H × Option String :=
  match hash method with
  | none => (trees, some "index out of range")
  | some i =>
    if treesLen ≤ i then (trees, some "index out of range")
    else
      let hp : Heap H := match trees.getD i none with
        | none => emptyTrie
        | some hp0 => hp0
      let route1 := if route.length = 0 then [slash] else route
      let h1 := compose ps h
      let h2 := compose g.plugins h1
      let chunks := unsafeParse (pathJoin g.pfx route1) []
      let r := node.insert srt hp 0 chunks 0 h2
      (trees.set i (some r.1), r.2)

/-- The method Group.Handle. -/
def Group.Handle {H : Type} (srt : (Nat → Nat) → List Nat → List Nat) :
    Group H → Trees H → Bytes → Bytes → Handler H → List (Plugin H) →
    Trees H × Option String
  | .root pfx gps, trees, method, route, handler, plugins =>
    Group.handle srt (.root pfx gps) trees method route handler plugins
  | .sub prev pfx gps, trees, method, route, handler, plugins =>
    let ps := if 0 < plugins.length then gps ++ plugins else plugins
    Group.Handle srt prev trees method (pathJoin pfx route) handler ps

/-- The struct Router of router.go: the embedded root group and its trees.  The pools hand
out empty buffers. -/
structure Router (H : Type) where
  group : Group H
  trees : Trees H

/-- The function New of router.go; nop is the handler NopHandlerFunc. -/
def New {H : Type} (srt : (Nat → Nat) → List Nat → List Nat) (nop : H) (pfx : Bytes)
    (plugins : List (Plugin H)) : Router H :=
  { group := .root pfx plugins
    trees := (Group.handle srt (.root pfx plugins) (List.replicate treesLen none)
      (bytes "OPTIONS") (bytes "/") (some nop) []).1 }

/-- The function Default of router.go. -/
def Default {H : Type} (srt : (Nat → Nat) → List Nat → List Nat) (nop : H)
    (plugins : List (Plugin H)) : Router H :=
  New srt nop [] plugins

/-- The slice that the pool of variables hands out: `make(Vars, 0, 32)`. -/
def routerAlloc : Vars := { elems := [], cap := 32 }

/-- The part of a request that Router.ServeHTTP reads. -/
structure Request where
  RequestURI : Bytes
  Path : Bytes
  Method : Bytes
  protoAtLeast11 : Bool

/-- What Router.ServeHTTP does with a request: the fixed bad-request response (with or
without the Connection header), the not-found response, the call of a handler with the
captured variables, or a panic. -/
inductive Response (H : Type) where
  | badRequest (close : Bool)
  | notFound
  | serve (h : H) (vars : Option Vars)
  | panic (msg : String)
  deriving DecidableEq, Repr

/-- The method Router.ServeHTTP. -/
def Router.ServeHTTP {H : Type} (r : Router H) (req : Request) : Response H :=
  if req.RequestURI = bytes "*" then .badRequest req.protoAtLeast11
  else
    let path := if req.Path.length = 0 then [slash] else req.Path
    match hash req.Method with
    | none => .panic "index out of range"
    | some i =>
      if treesLen ≤ i then .panic "index out of range"
      else
        match r.trees.getD i none with
        | none => .notFound
        | some hp =>
          match node.lookup hp 0 (unsafeParse path []) routerAlloc with
          | .panic msg => .panic msg
          | .ret none _ => .notFound
          | .ret (some p) vars =>
            match (deref hp p).handler with
            | none => .notFound
            | some h => .serve h vars

/-- A registration at the root group: the arguments of a call of Group.Handle. -/
structure Reg (H : Type) where
  method : Bytes
  route : Bytes
  handler : Handler H
  plugins : List (Plugin H)

/-- Registering at the root group of a router, one call of Group.Handle after the other;
stops at the first panic. -/
def registerAll {H : Type} (srt : (Nat → Nat) → List Nat → List Nat) (r : Router H) :
    List (Reg H) → Router H × Option String
  | [] => (r, none)
  | reg :: rest =>
    match Group.Handle srt r.group r.trees reg.method reg.route reg.handler reg.plugins with
    | (trees, none) => registerAll srt { r with trees := trees } rest
    | (trees, some msg) => ({ r with trees := trees }, some msg)

/-- The root of the chain of prev pointers of a group. -/
def Group.rootOf {H : Type} : Group H → Group H
  | .root pfx ps => .root pfx ps
  | .sub prev _ _ => prev.rootOf

/-- The route that a call of Group.Handle on a group hands to its root: the prefixes of
the derived groups are joined in front of the route, the innermost first. -/
def Group.resolve {H : Type} : Group H → Bytes → Bytes
  | .root _ _, route => route
  | .sub prev pfx _, route => prev.resolve (pathJoin pfx route)

/-- The plugins of the derived groups on the chain of a group, from the group below the
root down to the group itself. -/
def Group.chain {H : Type} : Group H → List (Plugin H)
  | .root _ _ => []
  | .sub prev _ ps => prev.chain ++ ps

/-- The path under which Group.handle of the root group inserts a registration. -/
def Reg.resolved {H : Type} (g : Group H) (reg : Reg H) : Bytes :=
  pathJoin g.pfx (if reg.route.length = 0 then [slash] else reg.route)

/-- The chunks under which Group.handle of the root group inserts a registration. -/
def Reg.chunks {H : Type} (g : Group H) (reg : Reg H) : List Bytes :=
  unsafeParse (reg.resolved g) []

/-- The handler that Group.handle of the root group inserts for a registration. -/
def Reg.wrapped {H : Type} (g : Group H) (reg : Reg H) : Handler H :=
  compose g.plugins (compose reg.plugins reg.handler)

/-- The registration that New makes for the method OPTIONS. -/
def newReg {H : Type} (nop : H) : Reg H :=
  { method := bytes "OPTIONS", route := bytes "/", handler := some nop, plugins := [] }

/-- The trie of a bucket of the trees, the empty trie when the entry is nil. -/
def bucketHeap {H : Type} (trees : Trees H) (i : Nat) : Heap H :=
  match trees.getD i none with
  | none => emptyTrie
  | some hp => hp

/-- The routes that registrations with a non-nil wrapped handler put into a bucket. -/
def bucketRoutes {H : Type} (g : Group H) (i : Nat) (regs : List (Reg H)) :
    List (List Bytes × H) :=
  regs.filterMap (fun reg =>
    match reg.wrapped g with
    | some h => if hash reg.method = some i then some (reg.chunks g, h) else none
    | none => none)

/-- The trees of a root group after the given registrations: twelve entries, and every
bucket holds the trie built from the routes registered for it. -/
structure TreesInv {H : Type} (g : Group H) (trees : Trees H) (regs : List (Reg H)) :
    Prop where
  len : trees.length = treesLen
  built : ∀ i : Nat, Built (bucketHeap trees i) (bucketRoutes g i regs)

/-! ## The data of the tests -/

/-- The routes of TestLookup_Static_Wildcard, with the handlers 0, 1, 2. -/
def staticWildcardRoutes : List (List Bytes × Nat) :=
  [(splitSlash (bytes "/foo"), 0), (splitSlash (bytes "/foo/bar"), 1),
   (splitSlash (bytes "/ping/pong/"), 2)]

/-- The routes of TestLookup_Dynamic, with the handlers 0, 1, 2. -/
def dynamicRoutes : List (List Bytes × Nat) :=
  [(splitSlash (bytes "/:foo"), 0), (splitSlash (bytes "/:foo/:bar"), 1),
   (splitSlash (bytes "/ping/pong"), 2)]

/-- The routes of TestLookup_Priority in the order of their insertion: the wildcard with
handler 2, the dynamic route with handler 1, the static route with handler 0. -/
def priorityRoutes : List (List Bytes × Nat) :=
  [(splitSlash (bytes "/"), 2), (splitSlash (bytes "/:foo/:bar"), 1),
   (splitSlash (bytes "/bob/alice"), 0)]

/-- A GET registration without plugins. -/
def getReg (route : String) (h : Nat) : Reg Nat :=
  { method := bytes "GET", route := bytes route, handler := some h, plugins := [] }

/-- The four registrations at the root group in TestRouter. -/
def testRouterRegs : List (Reg Nat) :=
  [getReg "/" 0, getReg "/:foo" 1, getReg "/:foo/:bar" 2, getReg "/ping/pong" 3]

/-- A GET request for a path. -/
def getRequest (path : String) : Request :=
  { RequestURI := bytes path, Path := bytes path, Method := bytes "GET",
    protoAtLeast11 := true }

/-- The function newTestWrapper of router_test.go.  A handler of the Example is
represented by the numbers that it prints when it is called: the wrapper prints its
number, calls the next handler and prints ten times its number. -/
def newTestWrapper (n : Nat) : Plugin (List Nat) :=
  fun next => next.map (fun t => n :: t ++ [n * 10])

/-- The router of the Example: `New("/r", newTestWrapper(1))`. -/
def exampleRouter : Router (List Nat) :=
  New sortSort [] (bytes "/r") [newTestWrapper 1]

/-- The group of the Example: `r.Prefix("/g", newTestWrapper(2))`. -/
def exampleGroup : Group (List Nat) :=
  exampleRouter.group.Prefix (bytes "/g") [newTestWrapper 2]


/-! ## bind.go and types.go -/

/-- A value of the interface type error.  An error made by errors.New or fmt.Errorf is
its message; an error of strconv is a NumError with the name of the function, the text
that was parsed and the cause (out of range, or else invalid syntax); every other error
of a library or of a method Parse is a code. -/
inductive GoError where
  | text (msg : Bytes)
  | num (fn : Bytes) (num : Bytes) (range : Bool)
  | lib (code : Nat)
  deriving DecidableEq, Repr

/-- The kinds of reflect of the types that are neither pointers nor slices, as far as set
tells them apart; other stands for every kind without a case of its own (struct, map,
array, interface and so on). -/
inductive Kind where
  | bool | int | int8 | int16 | int32 | int64
  | uint | uint8 | uint16 | uint32 | uint64
  | float32 | float64 | string | other
  deriving DecidableEq, Repr

/-- A Go value as far as bind reads and writes it.  A float is a code of its value, zero
for 0.0; a nil pointer is `ptr none`, a pointer owns what it points to; a nil slice is
the empty slice; a value of another kind is a code. -/
inductive Val where
  | bool (b : Bool)
  | int (i : Int)
  | uint (n : Nat)
  | float (x : Nat)
  | str (s : Bytes)
  | ptr (v : Option Val)
  | slice (vs : List Val)
  | other (x : Nat)

/-- The method Parse of a type that implements the interface Type, with a pointer
receiver: from the value behind the receiver and the text to the value behind the
receiver after the call and the error that the call returns. -/
abbrev Parse := Val → Bytes → Val × Option GoError

/-- A Go type as far as bind looks at it: a type that is neither a pointer nor a slice,
with its kind, its zero value and its method Parse if it has one; a pointer type (kind
reflect.Pointer); a slice type (kind reflect.Slice) with its method Parse if it is a
defined type that has one. -/
inductive Ty where
  | base (kind : Kind) (zero : Val) (parse : Option Parse)
  | ptr (elem : Ty)
  | slice (elem : Ty) (parse : Option Parse)

/-- The zero value of a type. -/
def Ty.zero : Ty → Val
  | .base _ z _ => z
  | .ptr _ => .ptr none
  | .slice _ _ => .slice []

/-- The method Parse of the pointer to a type, if the pointer implements Type.  A pointer
type has no methods, so the pointer to a pointer never does. -/
def Ty.parse : Ty → Option Parse
  | .base _ _ p => p
  | .ptr _ => none
  | .slice _ p => p

/-- What bind uses of the Go libraries: the size of int in bits (32 or 64), and the parsers
strconv.ParseFloat (text and bit size), time.Parse with the layout RFC3339,
time.ParseDuration (nanoseconds) and net.ParseIP (the bytes, nil when the text is no
address). -/
structure Lib where
  intSize : Nat
  parseFloat : Bytes → Nat → Except GoError Nat
  timeParse : Bytes → Except GoError Nat
  parseDuration : Bytes → Except GoError Int
  parseIP : Bytes → List Nat

/-- The syntax error of strconv. -/
def syntaxError (fn : String) (s : Bytes) : GoError := .num (bytes fn) s false

/-- The range error of strconv. -/
def rangeError (fn : String) (s : Bytes) : GoError := .num (bytes fn) s true

/-- The value of a decimal digit, none for any other byte. -/
def digit (c : Nat) : Option Nat :=
  if 48 ≤ c ∧ c ≤ 57 then some (c - 48) else none

/-- The loop of strconv.ParseUint in base 10: the digits are read from the left, a byte
that is no digit is a syntax error, a value above the maximum is a range error.  The
result is none for the syntax error, some none for the range error. -/
def parseUintLoop (maxVal : Nat) : Bytes → Nat → Option (Option Nat)
  | [], n => some (some n)
  | c :: rest, n =>
    match digit c with
    | none => none
    | some d => if maxVal < n * 10 + d then some none else parseUintLoop maxVal rest (n * 10 + d)

/-- The number of bits that a bit size stands for: the size of int for 0. -/
def bitsOf (lib : Lib) (bitSize : Nat) : Nat :=
  if bitSize = 0 then lib.intSize else bitSize

/-- The function strconv.ParseUint with base 10. -/
def ParseUint (lib : Lib) (s : Bytes) (bitSize : Nat) : Except GoError Nat :=
  if s = [] then .error (syntaxError "ParseUint" s)
  else
    match parseUintLoop (2 ^ bitsOf lib bitSize - 1) s 0 with
    | none => .error (syntaxError "ParseUint" s)
    | some none => .error (rangeError "ParseUint" s)
    | some (some n) => .ok n

/-- The function strconv.ParseInt with base 10: a leading sign is picked off, the rest is
parsed as an unsigned number and checked against the range of the bit size.  After a
range error of ParseUint the number is the maximum of the bit size, which is above the
cutoff, so the range error comes back under the name of ParseInt. -/
def ParseInt (lib : Lib) (s : Bytes) (bitSize : Nat) : Except GoError Int :=
  match s with
  | [] => .error (syntaxError "ParseInt" s)
  | c :: t =>
    let neg := decide (c = 45)
    let s1 := if c = 43 ∨ c = 45 then t else s
    if s1 = [] then .error (syntaxError "ParseInt" s)
    else
      match parseUintLoop (2 ^ bitsOf lib bitSize - 1) s1 0 with
      | none => .error (syntaxError "ParseInt" s)
      | some none => .error (rangeError "ParseInt" s)
      | some (some un) =>
        if neg = false ∧ 2 ^ (bitsOf lib bitSize - 1) ≤ un then .error (rangeError "ParseInt" s)
        else if neg = true ∧ 2 ^ (bitsOf lib bitSize - 1) < un then
          .error (rangeError "ParseInt" s)
        else .ok (if neg then - (un : Int) else (un : Int))

/-- The function strconv.ParseBool. -/
def ParseBool (s : Bytes) : Except GoError Bool :=
  if s = bytes "1" ∨ s = bytes "t" ∨ s = bytes "T" ∨ s = bytes "TRUE" ∨ s = bytes "true"
      ∨ s = bytes "True" then .ok true
  else if s = bytes "0" ∨ s = bytes "f" ∨ s = bytes "F" ∨ s = bytes "FALSE"
      ∨ s = bytes "false" ∨ s = bytes "False" then .ok false
  else .error (syntaxError "ParseBool" s)

/-- The function setInt of bind.go. -/
def setInt (lib : Lib) (s : Bytes) (bits : Nat) (v : Val) : Val × Option GoError :=
  match ParseInt lib (if s.length = 0 then bytes "0" else s) bits with
  | .ok i64 => (.int i64, none)
  | .error err => (v, some err)

/-- The function setUint of bind.go. -/
def setUint (lib : Lib) (s : Bytes) (bits : Nat) (v : Val) : Val × Option GoError :=
  match ParseUint lib (if s.length = 0 then bytes "0" else s) bits with
  | .ok u64 => (.uint u64, none)
  | .error err => (v, some err)

/-- The function setFloat of bind.go. -/
def setFloat (lib : Lib) (s : Bytes) (bits : Nat) (v : Val) : Val × Option GoError :=
  match lib.parseFloat (if s.length = 0 then bytes "0.0" else s) bits with
  | .ok f64 => (.float f64, none)
  | .error err => (v, some err)

/-- The function setBool of bind.go. -/
def setBool (s : Bytes) (v : Val) : Val × Option GoError :=
  match ParseBool (if s.length = 0 then bytes "false" else s) with
  | .ok b => (.bool b, none)
  | .error err => (v, some err)

/-- The function setCustom of bind.go: the pointer to the value implements Type or the
type is bad. -/
def setCustom (ty : Ty) (s : Bytes) (v : Val) : Val × Option GoError :=
  match ty.parse with
  | none => (v, some (.text (bytes "bad type")))
  | some parse => parse v s

/-- The function set of bind.go together with setPtr.  Every call in the source passes
the kind of the value itself, so the kind is read off the type: a pointer type is the
case reflect.Pointer, a slice type has no case and falls to the default.  The result is
the value after the call and the error.  A nil pointer is first set to a new zero value
of the element type. -/
def set (lib : Lib) : Ty → Bytes → Val → Val × Option GoError
  | .ptr elem, s, v =>
    let r := set lib elem s (match v with
      | .ptr (some x) => x
      | _ => elem.zero)
    (.ptr (some r.1), r.2)
  | .base k z p, s, v =>
    match k with
    | .int => setInt lib s 0 v
    | .int8 => setInt lib s 8 v
    | .int16 => setInt lib s 16 v
    | .int32 => setInt lib s 32 v
    | .int64 => setInt lib s 64 v
    | .uint => setUint lib s 0 v
    | .uint8 => setUint lib s 8 v
    | .uint16 => setUint lib s 16 v
    | .uint32 => setUint lib s 32 v
    | .uint64 => setUint lib s 64 v
    | .bool => setBool s v
    | .float32 => setFloat lib s 32 v
    | .float64 => setFloat lib s 64 v
    | .string => (.str s, none)
    | .other => setCustom (.base k z p) s v
  | .slice elem p, s, v => setCustom (.slice elem p) s v

/-- A field of a struct type: its name, whether it is embedded, whether its value can be
set (the field is exported), its tag (from the name of a tag to the key, empty when the
tag is not there) and its type. -/
structure Field where
  name : Bytes
  anonymous : Bool
  canSet : Bool
  tag : Bytes → Bytes
  ty : Ty

/-- A value of the type `map[string][]string`. -/
abbrev Values := Bytes → Option (List Bytes)

/-- How the body of the loop of bind ends when it does not go on to the next field: bind
returns an error, or it panics. -/
inductive Stop where
  | err (e : GoError)
  | panic (msg : String)
  deriving DecidableEq, Repr

/-- The conversion of the values of a slice field: every text is set into a new zero
element, the first error ends the loop. -/
def setElems (lib : Lib) (elem : Ty) : List Bytes → List Val × Option GoError
  | [] => ([], none)
  | s :: rest =>
    match set lib elem s elem.zero with
    | (_, some err) => ([], some err)
    | (x, none) =>
      match setElems lib elem rest with
      | (xs, none) => (x :: xs, none)
      | (_, some err) => ([], some err)

/-- The part of the body of the loop of bind after the key was found with its values:
the method Parse of the type of the field if it has one, then the conversion of a slice,
then set; indexing an empty list of values panics. -/
def bindValue (lib : Lib) (f : Field) (vals : List Bytes) (v : Val) : Val × Option Stop :=
  match f.ty.parse with
  | some parse =>
    match vals with
    | [] => (v, some (.panic "index out of range"))
    | s :: _ =>
      match parse v s with
      | (v1, some err) => (v1, some (.err err))
      | (v1, none) => (v1, none)
  | none =>
    match f.ty, vals with
    | .slice elem _, s :: rest =>
      match setElems lib elem (s :: rest) with
      | (_, some err) => (v, some (.err err))
      | (xs, none) => (.slice xs, none)
    | _, [] => (v, some (.panic "index out of range"))
    | ty, s :: _ =>
      match set lib ty s v with
      | (v1, some err) => (v1, some (.err err))
      | (v1, none) => (v1, none)

/-- The byte of the question mark, the marker of an optional field. -/
def optMark : Nat := 63

/-- Whether the key of a tag ends in the marker of an optional field. -/
def tagOpt (key : Bytes) : Bool := decide (key.getLast? = some optMark)

/-- The key under which bind looks a field up: the key of the tag without the marker. -/
def tagKey (key : Bytes) : Bytes := if tagOpt key then key.dropLast else key

/-- The body of the loop of bind for one field and its value: the value after the body
and how the body ends, none when the loop goes on.  A field that is embedded is treated
like any other, because the value that bind ranges over is a struct and not a pointer. -/
def bindField (lib : Lib) (values : Values) (tag : Bytes) (f : Field) (v : Val) :
    Val × Option Stop :=
  if f.canSet = false then (v, none)
  else if (f.tag tag).length = 0 then (v, none)
  else
    match values (tagKey (f.tag tag)) with
    | none =>
      if tagOpt (f.tag tag) = false then
        (v, some (.err (.text (bytes "missing field: " ++ tagKey (f.tag tag)))))
      else (v, none)
    | some vals => bindValue lib f vals v

/-- The loop of bind over the fields of a struct with their values. -/
def bindFields (lib : Lib) (values : Values) (tag : Bytes) :
    List (Field × Val) → List (Field × Val) × Option Stop
  | [] => ([], none)
  | (f, v) :: rest =>
    match bindField lib values tag f v with
    | (v1, some stop) => ((f, v1) :: rest, some stop)
    | (v1, none) =>
      match bindFields lib values tag rest with
      | (rest1, stop) => ((f, v1) :: rest1, stop)

/-- The argument v of bind: the nil interface, a pointer to a struct with its fields and
their values, a nil pointer to a struct type, a pointer to something that is no struct,
or a value that is no pointer. -/
inductive Dest where
  | nil
  | ptrStruct (fields : List (Field × Val))
  | nilPtrStruct (fields : List Field)
  | ptrOther
  | notPtr

/-- The function bind of bind.go: the destination after the call and how the call ends,
none when it returns nil. -/
def bind (lib : Lib) (v : Dest) (values : Values) (tag : Bytes) : Dest × Option Stop :=
  match v with
  | .nil => (v, none)
  | .notPtr => (v, some (.panic "reflect: Elem of a value that is no pointer"))
  | .ptrOther => (v, some (.err (.text (bytes "binding element must be a struct"))))
  | .nilPtrStruct [] => (v, none)
  | .nilPtrStruct (_ :: _) =>
    (v, some (.panic "reflect: call of reflect.Value.Field on zero Value"))
  | .ptrStruct fields =>
    match bindFields lib values tag fields with
    | (fields1, stop) => (.ptrStruct fields1, stop)

/-- The method Parse of the type Time of types.go. -/
def Time.Parse (lib : Lib) : Parse := fun t s =>
  match lib.timeParse s with
  | .error err => (t, some err)
  | .ok p => (.other p, none)

/-- The method Parse of the type Duration of types.go. -/
def Duration.Parse (lib : Lib) : Parse := fun d s =>
  match lib.parseDuration s with
  | .error err => (d, some err)
  | .ok p => (.int p, none)

/-- The method Parse of the type IP of types.go. -/
def IP.Parse (lib : Lib) : Parse := fun _ s =>
  (.slice ((lib.parseIP s).map Val.uint), none)

/-- The type Time of types.go: a struct with the zero time as its zero value. -/
def tyTime (lib : Lib) : Ty := .base .other (.other 0) (some (Time.Parse lib))

/-- The type Duration of types.go: an int64. -/
def tyDuration (lib : Lib) : Ty := .base .int64 (.int 0) (some (Duration.Parse lib))

/-- The type IP of types.go: a slice of bytes. -/
def tyIP (lib : Lib) : Ty := .slice (.base .uint8 (.uint 0) none) (some (IP.Parse lib))

/-- The types int, int64, string and bool. -/
def tyInt : Ty := .base .int (.int 0) none

def tyInt64 : Ty := .base .int64 (.int 0) none

def tyString : Ty := .base .string (.str []) none

def tyBool : Ty := .base .bool (.bool false) none

/-- A map from a list of keys with their values. -/
def mkValues (l : List (Bytes × List Bytes)) : Values := fun k => l.lookup k

/-- An exported field with one tag. -/
def mkField (name : String) (tagName key : String) (ty : Ty) : Field :=
  { name := bytes name, anonymous := false, canSet := true,
    tag := fun t => if t = bytes tagName then bytes key else [], ty := ty }

/-- The value of a decimal numeral read from the left with the value so far, none when a
byte is no digit. -/
def decimalAcc : Bytes → Nat → Option Nat
  | [], n => some n
  | c :: rest, n =>
    match digit c with
    | none => none
    | some d => decimalAcc rest (n * 10 + d)

/-- The value of decimal text without a sign: one digit or more. -/
def decimalValue (s : Bytes) : Option Nat :=
  if s = [] then none else decimalAcc s 0

/-- The value of decimal text with an optional sign in front. -/
def intValue (s : Bytes) : Option Int :=
  match s with
  | [] => none
  | c :: t =>
    if c = 45 then (decimalValue t).map (fun (n : Nat) => - (n : Int))
    else if c = 43 then (decimalValue t).map (fun (n : Nat) => (n : Int))
    else (decimalValue s).map (fun (n : Nat) => (n : Int))

/-- Valid decimal text in the range of a signed integer of the given number of bits. -/
def validInt (bits : Nat) (s : Bytes) : Prop :=
  ∃ i : Int, intValue s = some i ∧ - (2 ^ (bits - 1) : Int) ≤ i ∧ i < (2 ^ (bits - 1) : Int)

/-- Valid decimal text in the range of an unsigned integer of the given number of bits. -/
def validUint (bits : Nat) (s : Bytes) : Prop :=
  ∃ n : Nat, decimalValue s = some n ∧ n < 2 ^ bits

/-- The kinds of the signed integers with the bit sizes that set passes for them. -/
def signedKinds : List (Kind × Nat) :=
  [(.int, 0), (.int8, 8), (.int16, 16), (.int32, 32), (.int64, 64)]

/-- The kinds of the unsigned integers with the bit sizes that set passes for them. -/
def unsignedKinds : List (Kind × Nat) :=
  [(.uint, 0), (.uint8, 8), (.uint16, 16), (.uint32, 32), (.uint64, 64)]

/-- The texts that strconv.ParseBool accepts: six for true, then six for false. -/
def boolTexts : List Bytes :=
  [bytes "1", bytes "t", bytes "T", bytes "TRUE", bytes "true", bytes "True",
   bytes "0", bytes "f", bytes "F", bytes "FALSE", bytes "false", bytes "False"]

/-- A method Parse whose second call with the same text changes nothing and returns what
the first call returned. -/
def Parse.Idem (p : Parse) : Prop := ∀ (v : Val) (s : Bytes), p (p v s).1 s = p v s

/-- Every method Parse inside a type is idempotent in that sense. -/
def Ty.Idem : Ty → Prop
  | .base _ _ p => ∀ q, p = some q → Parse.Idem q
  | .ptr elem => elem.Idem
  | .slice elem p => elem.Idem ∧ ∀ q, p = some q → Parse.Idem q

/-- The types of all fields of a destination are idempotent in that sense. -/
def Dest.Idem : Dest → Prop
  | .ptrStruct fields => ∀ fv ∈ fields, fv.1.ty.Idem
  | _ => True

/-- The types that a destination of the built-in kinds is made of: the integers, the
booleans, the floats and the strings, the types Time, Duration and IP of types.go, and
pointers to and slices of these. -/
inductive Ty.Builtin (lib : Lib) : Ty → Prop where
  | basic (k : Kind) (z : Val) (h : k ≠ .other) : Ty.Builtin lib (.base k z none)
  | time : Ty.Builtin lib (tyTime lib)
  | duration : Ty.Builtin lib (tyDuration lib)
  | ip : Ty.Builtin lib (tyIP lib)
  | ptr (elem : Ty) (h : Ty.Builtin lib elem) : Ty.Builtin lib (.ptr elem)
  | slice (elem : Ty) (h : Ty.Builtin lib elem) : Ty.Builtin lib (.slice elem none)

/-- A destination of the built-in kinds: every field of the struct has such a type. -/
def Dest.Builtin (lib : Lib) : Dest → Prop
  | .ptrStruct fields => ∀ fv ∈ fields, Ty.Builtin lib fv.1.ty
  | _ => True

/-- A library for the examples: int has 64 bits, and each parser knows the one text of the
examples (0.0 is zero, the time of TestBind, one second, the loopback address). -/
def testLib : Lib :=
  { intSize := 64
    parseFloat := fun s _ => if s = bytes "0.0" then .ok 0 else .error (.lib 1)
    timeParse := fun s =>
      if s = bytes "2023-06-05T21:33:45+08:00" then .ok 1685972025 else .error (.lib 2)
    parseDuration := fun s => if s = bytes "1s" then .ok 1000000000 else .error (.lib 3)
    parseIP := fun s =>
      if s = bytes "127.0.0.1" then [0, 0, 0, 0, 0, 0, 0, 0, 0, 0, 255, 255, 127, 0, 0, 1]
      else [] }

/-- The struct structOptional of bind_test.go with the zero values of its fields. -/
def structOptional : List (Field × Val) :=
  [(mkField "Name" "form" "name" tyString, .str []),
   (mkField "Age" "form" "age?" tyString, .str [])]

/-- A pointer to a struct with the field SliceI64 of structAll of bind_test.go, holding
a slice of one element before bind. -/
def structSliceI64 : Dest :=
  .ptrStruct [(mkField "SliceI64" "query" "slice_i64" (.slice tyInt64 none), .slice [.int 7])]

/-- The entry slice_i64 of valuesAll of bind_test.go. -/
def valuesSliceI64 : Values :=
  mkValues [(bytes "slice_i64", [bytes "142", bytes "242", bytes "342"])]

/-- A pointer to a struct with two required fields of the type int, tagged a and b in
the namespace q. -/
def structTwoInts : Dest :=
  .ptrStruct [(mkField "A" "q" "a" tyInt, .int 0), (mkField "B" "q" "b" tyInt, .int 0)]

/-- A field D with the key d in the namespace query. -/
def fieldD (ty : Ty) : Field := mkField "D" "query" "d" ty

/-- The map with the one value 1s under the key d. -/
def valuesOneSecond : Values := mkValues [(bytes "d", [bytes "1s"])]

/-! ## context.go and the pools of router.go -/

/-- The struct Ctx of context.go.  The embedded context and the field req are pointers
into the request: the context is represented by the request it was taken from.  The
field rw is an interface value: the address of the response writer, nil when it is
none.  The slice vars is nil when it is none. -/
structure Ctx where
  Context : Option Request := none
  req : Option Request := none
  rw : Option Nat := none
  query : Option (List (Bytes × List Bytes)) := none
  vars : Option Vars := none
  wroteHeader : Bool := false

/-- The state of a response writer, as far as the method WriteHeader goes: the status
codes that the writer has received, in the order of the calls. -/
structure ResponseWriter where
  codes : List Nat
  deriving DecidableEq, Repr

/-- The method WriteHeader of the response writer: the writer receives the code. -/
def ResponseWriter.WriteHeader (w : ResponseWriter) (code : Nat) : ResponseWriter :=
  { codes := w.codes ++ [code] }

/-- The method Ctx.WriteHeader; w is the state of the response writer that `c.rw` points
to.  The receiver is a value and no field is assigned, so only the writer can change.
The result is none when the call on a nil writer panics. -/
def Ctx.WriteHeader (c : Ctx) (code : Nat) (w : ResponseWriter) : Option ResponseWriter :=
  if c.wroteHeader = false then
    match c.rw with
    | none => none
    | some _ => some (w.WriteHeader code)
  else some w

/-- A sequence of calls of Ctx.WriteHeader on the same context, one code after the
other. -/
def Ctx.writeHeaders (c : Ctx) : List Nat → ResponseWriter → Option ResponseWriter
  | [], w => some w
  | code :: rest, w =>
    match c.WriteHeader code w with
    | none => none
    | some w1 => c.writeHeaders rest w1

/-- The three pools of a router: the objects that were put and not yet handed out again,
the one put last first.  A segment buffer is its elements; sync.Pool hands out any pooled
object, the model hands out the one put last. -/
structure Pools where
  chunks : List (List Bytes)
  context : List Ctx
  vars : List Vars

/-- The pools of a new router: nothing has been put. -/
def Pools.empty : Pools := { chunks := [], context := [], vars := [] }

/-- The call `r.chunks.Get()`: a pooled buffer, or `make([][]byte, 0)`. -/
def Pools.getChunks (p : Pools) : List Bytes × Pools :=
  match p.chunks with
  | [] => ([], p)
  | b :: rest => (b, { p with chunks := rest })

/-- The call `r.context.Get()`: a pooled object, or `new(Ctx)`. -/
def Pools.getContext (p : Pools) : Ctx × Pools :=
  match p.context with
  | [] => ({}, p)
  | c :: rest => (c, { p with context := rest })

/-- The call `r.vars.Get()`: a pooled slice, or `make(Vars, 0, 32)`. -/
def Pools.getVars (p : Pools) : Vars × Pools :=
  match p.vars with
  | [] => (routerAlloc, p)
  | v :: rest => (v, { p with vars := rest })

/-- How a call of a handler ends: it returns nil, it returns an error, or it panics. -/
inductive Outcome where
  | ok
  | error (code : Nat) (detail : Bytes)
  | panic (msg : String)
  deriving DecidableEq, Repr

/-- The end of Router.ServeHTTP: the segment buffer is cut to length zero and put, and
the slice of variables, unless it is nil, is cut to length zero and put. -/
def putBuffers (p : Pools) (vars : Option Vars) : Pools :=
  match vars with
  | none => { p with chunks := [] :: p.chunks }
  | some v => { p with chunks := [] :: p.chunks, vars := { v with elems := [] } :: p.vars }

/-- The four assignments of Router.ServeHTTP to the context object that the pool handed
out; the other fields keep what the object held. -/
def Ctx.assign (c : Ctx) (req : Request) (w : Nat) (vars : Option Vars) : Ctx :=
  { c with Context := some req, req := some req, rw := some w, vars := vars }

/-- The method Router.ServeHTTP with the pools of the router as state.  The handlers are
code of the caller: run says how the call of a handler on the context object ends and
what the object holds after it; w is the address of the response writer.  The function
alloc is called by node.lookup at most once, at the first dynamic child, and the slice
it returns is never nil, so it was called when lookup panics or returns a slice.  What
the handler and the error write to the response writer is not part of the result. -/
def Router.ServeHTTPPools {H : Type} (r : Router H) (run : H → Ctx → Ctx × Outcome)
    (pools : Pools) (w : Nat) (req : Request) : Pools × Response H :=
  if req.RequestURI = bytes "*" then (pools, .badRequest req.protoAtLeast11)
  else
    let path := if req.Path.length = 0 then [slash] else req.Path
    match hash req.Method with
    | none => (pools, .panic "index out of range")
    | some i =>
      if treesLen ≤ i then (pools, .panic "index out of range")
      else
        match r.trees.getD i none with
        | none => (pools, .notFound)
        | some hp =>
          let p1 := pools.getChunks
          let chunks := unsafeParse path p1.1
          match node.lookup hp 0 chunks p1.2.getVars.1 with
          | .panic msg => (p1.2.getVars.2, .panic msg)
          | .ret node vars =>
            let p2 := if vars.isSome then p1.2.getVars.2 else p1.2
            match node.bind (fun p => (deref hp p).handler) with
            | some h =>
              let p3 := p2.getContext
              match run h (p3.1.assign req w vars) with
              | (_, .panic msg) => (p3.2, .panic msg)
              | (ctx1, _) =>
                (putBuffers { p3.2 with context := ctx1 :: p3.2.context } vars, .serve h vars)
            | none => (putBuffers p2 vars, .notFound)

/-- A handler that returns nil and leaves the context object as it is. -/
def runOk {H : Type} : H → Ctx → Ctx × Outcome := fun _ c => (c, .ok)

/-- A handler that panics. -/
def runPanic {H : Type} : H → Ctx → Ctx × Outcome := fun _ c => (c, .panic "handler")

/-- The router of TestRouter: `Default()` with the four routes of the test. -/
def testRouter : Router Nat :=
  (registerAll sortSort (Default sortSort 99 []) testRouterRegs).1

/-- The pools after one request with a captured variable has been served: one buffer,
one context object and one slice of variables. -/
def pooledOnce : Pools :=
  { chunks := [[]], context := [{}], vars := [{ elems := [], cap := 32 }] }

/-! ## The function path.Join on any number of elements -/

/-- The loop of path.Join over its elements: an element is appended when the buffer is
not empty or the element is not empty, behind a slash when the buffer is not empty. -/
def joinBuf : List Bytes → Bytes → Bytes
  | [], buf => buf
  | e :: rest, buf =>
    if 0 < buf.length ∨ e ≠ [] then
      joinBuf rest ((if 0 < buf.length then buf ++ [slash] else buf) ++ e)
    else joinBuf rest buf

/-- The function path.Join of the Go standard library on a list of elements: the empty
string when all elements are empty, else the cleaned buffer of the loop. -/
def pathJoinAll (elem : List Bytes) : Bytes :=
  if (elem.map List.length).sum = 0 then [] else pathClean (joinBuf elem [])

/-- The prefixes on the chain of a group, from the root down to the group itself. -/
def Group.prefixes {H : Type} : Group H → List Bytes
  | .root pfx _ => [pfx]
  | .sub prev pfx _ => prev.prefixes ++ [pfx]

/-- The router of TestRouter after all its registrations: the four routes at the root,
`/foo` with handler 10 on `r.Prefix("/g1")` and `/foo` with handler 20 on
`r.Prefix("/g2")`. -/
def testRouterGroups : Router Nat :=
  let r := testRouter
  let t1 := (Group.Handle sortSort (r.group.Prefix (bytes "/g1") []) r.trees (bytes "GET")
    (bytes "/foo") (some 10) []).1
  let t2 := (Group.Handle sortSort (r.group.Prefix (bytes "/g2") []) t1 (bytes "GET")
    (bytes "/foo") (some 20) []).1
  { r with trees := t2 }

/-- A router with the prefix `/r` and its group with the prefix `/..`, on which the route
`/x` is registered with handler 5. -/
def dotdotRouter : Router Nat :=
  let r : Router Nat := New sortSort 99 (bytes "/r") []
  { r with trees := (Group.Handle sortSort (r.group.Prefix (bytes "/..") []) r.trees
      (bytes "GET") (bytes "/x") (some 5) []).1 }

/-- The buffer of path.Clean in front of a new element: a slash is written first unless
the buffer holds nothing but the root slash or, for a path that is not rooted, nothing
at all. -/
def cleanSep (rooted : Bool) (out : Bytes) : Bytes :=
  if (rooted = true ∧ out.length ≠ 1) ∨ (rooted = false ∧ out.length ≠ 0) then out ++ [slash]
  else out

/-- What path.Clean does with the segments of a path that has no dot-dot element, written
on the segments: an empty segment and a dot are dropped, any other segment is appended
to the buffer behind the separator. -/
def cleanSegs (rooted : Bool) : List Bytes → Bytes → Bytes
  | [], out => out
  | seg :: rest, out =>
    if seg = [] ∨ seg = [dot] then cleanSegs rooted rest out
    else cleanSegs rooted rest (cleanSep rooted out ++ seg)

/-- Whether path.Clean keeps a segment: it is neither empty nor a dot. -/
def keepSeg (seg : Bytes) : Bool := decide (seg ≠ [] ∧ seg ≠ [dot])

/-- The elements of a path: its segments that are neither empty nor a dot. -/
def pathElems (s : Bytes) : List Bytes := (splitSlash s).filter keepSeg

/-- A path without a dot-dot element. -/
def NoDotDot (s : Bytes) : Prop := [dot, dot] ∉ splitSlash s

/-- The path made of elements: the elements joined by slashes, behind a slash when the
path is rooted; a dot when there is no element and the path is not rooted. -/
def renderPath (rooted : Bool) (es : List Bytes) : Bytes :=
  if rooted then slash :: joinSlash es
  else if es = [] then [dot]
  else joinSlash es

/-- The route that Group.handle joins to the prefix of the root: a slash for the empty
route. -/
def orSlash (route : Bytes) : Bytes := if route.length = 0 then [slash] else route

instance instDecidableNoDotDot (s : Bytes) : Decidable (NoDotDot s) :=
  inferInstanceAs (Decidable ([dot, dot] ∉ splitSlash s))

/-- The group `r.Prefix("/g1")` of TestRouter. -/
def testGroup1 : Group Nat := testRouter.group.Prefix (bytes "/g1") []

/-- The group with the prefix `/..` on the router with the prefix `/r`. -/
def dotdotGroup : Group Nat :=
  (New sortSort 99 (bytes "/r") ([] : List (Plugin Nat))).group.Prefix (bytes "/..") []


/-! ## Runs of node.lookup -/

/-- The nodes that the loop of node.lookup enters for a run of chunks each of which finds
a child, from the first to the last, with the value of the variable vars after the run;
none when a chunk of the run finds no child or its capture panics. -/
def visit {H : Type} (hp : Heap H) (alloc : Vars) :
    Ptr → Option Vars → List Bytes → Option (List Ptr × Option Vars)
  | _, vars, [] => some ([], vars)
  | cur, vars, chunk :: rest =>
    match scanChildren hp alloc chunk vars (deref hp cur).children with
    | .next child vars1 =>
      match visit hp alloc child vars1 rest with
      | some (nodes, vars2) => some (child :: nodes, vars2)
      | none => none
    | _ => none

/-- The variable wild of node.lookup after the loop has started an iteration at each of
the nodes, in their order: the field wildcard of the last of them that has one, else the
value that the variable had before. -/
def wildOf {H : Type} (hp : Heap H) (wild : Option Ptr) : List Ptr → Option Ptr
  | [] => wild
  | p :: ps =>
    wildOf hp (match (deref hp p).wildcard with
      | some w => some w
      | none => wild) ps

/-- The node at which a run that started at a node and entered the given nodes has
arrived: the last node entered, the start when none was entered. -/
def lastNode : Ptr → List Ptr → Ptr
  | cur, [] => cur
  | _, p :: ps => lastNode p ps

/-- The nodes that a run has left behind: the start and the nodes entered, without the
node at which it has arrived. -/
def leftNodes : Ptr → List Ptr → List Ptr
  | _, [] => []
  | cur, p :: ps => cur :: leftNodes p ps

/-- The pairs that a run captures: for every node of the kind dynamic that the run
enters, the chunk of the node without the colon and the chunk of the request that
entered it. -/
def capturedAt {H : Type} (hp : Heap H) : List Ptr → List Bytes → List Var
  | p :: ps, c :: cs =>
    (if kindOf hp p = nodeDynamic then [{ Key := (chunkOf hp p).drop 1, Value := c }] else [])
      ++ capturedAt hp ps cs
  | _, _ => []

/-- A child matches a chunk in the scan of node.lookup: it is static with the bytes of
the chunk, or dynamic, or a wildcard. -/
def matchesChunk {H : Type} (hp : Heap H) (c : Ptr) (chunk : Bytes) : Prop :=
  (kindOf hp c = nodeStatic ∧ chunk = chunkOf hp c) ∨ kindOf hp c = nodeDynamic
    ∨ kindOf hp c = nodeWildcard

/-- The routes `/a/b` and `/:x/c`, with the handlers 0 and 1. -/
def deadEndRoutes : List (List Bytes × Nat) :=
  [(splitSlash (bytes "/a/b"), 0), (splitSlash (bytes "/:x/c"), 1)]

/-- The routes `/` and `/:foo` of TestRouter, with the handlers 0 and 1. -/
def slashAndFoo : List (List Bytes × Nat) :=
  [(splitSlash (bytes "/"), 0), (splitSlash (bytes "/:foo"), 1)]

/-- The same routes inserted in the other order. -/
def fooAndSlash : List (List Bytes × Nat) :=
  [(splitSlash (bytes "/:foo"), 1), (splitSlash (bytes "/"), 0)]

/-- Two routes behind the leading empty segment: eleven dynamic segments, with the
handler 0, and ten dynamic segments followed by an empty segment, with the handler 1.
The node of the tenth dynamic segment has a dynamic child and a wildcard child. -/
def elevenDynamic : List (List Bytes × Nat) :=
  [([] :: List.replicate 11 (bytes ":a"), 0),
   ([] :: List.replicate 10 (bytes ":a") ++ [[]], 1)]

/-! ## Tries reachable by inserts -/

/-- The tries that calls of node.insert at the root build from the empty root: the empty
root itself, and the trie that a call of node.insert at the root of such a trie leaves
when it returns. -/
inductive Reachable {H : Type} (srt : (Nat → Nat) → List Nat → List Nat) : Heap H → Prop where
  | empty : Reachable srt emptyTrie
  | insert {hp hp1 : Heap H} (chunks : List Bytes) (height : Nat) (handler : Handler H) :
      Reachable srt hp → node.insert srt hp 0 chunks height handler = (hp1, none) →
      Reachable srt hp1

/-- The kind of every node but the root is the classification of its chunk. -/
def Classified {H : Type} (hp : Heap H) : Prop :=
  ∀ p : Nat, 0 < p → p < hp.length → kindOf hp p = chunkToKind (chunkOf hp p)

/-- The children of a node that have a given kind, in their order. -/
def childrenOfKind {H : Type} (hp : Heap H) (p : Ptr) (k : nodeKind) : List Ptr :=
  (deref hp p).children.filter (fun c => decide (kindOf hp c = k))
/-! ## Routers for the trailing slash -/

/-- A router made by Default on which the route `/ping/pong/` is registered for GET with
the handler 2. -/
def trailingSlashRouter : Router Nat :=
  (registerAll sortSort (Default sortSort 99 []) [getReg "/ping/pong/" 2]).1

/-- An OPTIONS request for a path. -/
def optionsRequest (path : String) : Request :=
  { RequestURI := bytes path, Path := bytes path, Method := bytes "OPTIONS",
    protoAtLeast11 := true }

/-! ## Theorems -/

/-! ### The method hash (C7, C8) -/

/-- C7 (the code at the failing input): the hash of CONNECT is 13, which is not an index of
the twelve-entry trees table, while the eight other methods hash below 12. -/
theorem hash_connect_out_of_range :
    hash (bytes "CONNECT") = some 13 ∧ ¬ (13 < treesLen) ∧
    methods.map (fun m => (hash m).map (fun i => decide (i < treesLen)))
      = [some true, some true, some true, some true, some true, some true, some true,
         some false, some true] := by
  decide

/-- C8: the hash is perfect on the nine method names: it is defined on each of them, no
two of them share a bucket, and on every string of at least three bytes it is the sum of
the second and third byte taken modulo 256 and then reduced modulo 18. -/
theorem hash_injective_on_methods :
    List.Pairwise (fun m₁ m₂ => hash m₁ ≠ hash m₂) methods ∧
    methods.map hash
      = [some 9, some 0, some 7, some 5, some 1, some 8, some 2, some 13, some 3] ∧
    (∀ (x a b : Nat) (rest : Bytes),
      hash (x :: a :: b :: rest) = some ((a + b) % 256 % 18)) := by
  refine ⟨by decide, by decide, ?_⟩
  intro x a b rest
  simp [hash]

/-! ### unsafeParse (C9, C10) -/

theorem splitSlash_slash (xs : Bytes) : splitSlash (slash :: xs) = [] :: splitSlash xs := by
  simp [splitSlash]

theorem splitSlash_cons (x : Nat) (xs : Bytes) (hx : x ≠ slash) :
    splitSlash (x :: xs) = consHead [x] (splitSlash xs) := by
  rw [splitSlash, if_neg hx]
  cases splitSlash xs <;> simp [consHead]

theorem splitSlash_ne_nil (s : Bytes) : splitSlash s ≠ [] := by
  cases s with
  | nil => simp [splitSlash]
  | cons x xs =>
    by_cases hx : x = slash
    · subst hx; rw [splitSlash_slash]; simp
    · rw [splitSlash_cons x xs hx]
      cases splitSlash xs <;> simp [consHead]

theorem consHead_nil {segs : List Bytes} (h : segs ≠ []) : consHead [] segs = segs := by
  cases segs with
  | nil => exact absurd rfl h
  | cons a t => simp [consHead]

theorem consHead_append (u v : Bytes) {segs : List Bytes} (h : segs ≠ []) :
    consHead (u ++ v) segs = consHead u (consHead v segs) := by
  cases segs with
  | nil => exact absurd rfl h
  | cons a t => simp [consHead]

theorem slice_succ (b : Bytes) (i j x : Nat) (rest : List Nat) (hij : i ≤ j)
    (hd : b.drop j = x :: rest) : slice b i (j + 1) = slice b i j ++ [x] := by
  unfold slice
  have h2 : (b.drop i).drop (j - i) = x :: rest := by
    rw [List.drop_drop]
    have : i + (j - i) = j := by omega
    rw [this]; exact hd
  have h4 : j + 1 - i = (j - i) + 1 := by omega
  rw [h4, List.take_succ]
  congr 1
  have : (b.drop i)[j - i]? = some x := by
    rw [← List.head?_drop, h2]; rfl
  simp [this]

theorem unsafeParseLoop_eq (b : Bytes) (rest : List Nat) :
    ∀ (i j : Nat) (c : List Bytes), i ≤ j → b.drop j = rest →
      unsafeParseLoop b rest i j c = c ++ consHead (slice b i j) (splitSlash rest) := by
  induction rest with
  | nil =>
    intro i j c hij hd
    have hlen : b.length ≤ j := by
      simpa using List.drop_eq_nil_iff.mp hd
    have : slice b i j = b.drop i := by
      unfold slice
      apply List.take_of_length_le
      simp; omega
    simp [unsafeParseLoop, splitSlash, consHead, this]
  | cons x rest ih =>
    intro i j c hij hd
    have hd1 : b.drop (j + 1) = rest := by
      have := congrArg (List.drop 1) hd
      simpa [List.drop_drop, Nat.add_comm] using this
    by_cases hx : x = slash
    · rw [unsafeParseLoop, if_pos hx, ih (j + 1) (j + 1) _ (Nat.le_refl _) hd1]
      have h0 : slice b (j + 1) (j + 1) = [] := by simp [slice]
      rw [h0, consHead_nil (splitSlash_ne_nil rest), hx, splitSlash_slash]
      simp [consHead]
    · rw [unsafeParseLoop, if_neg hx, ih i (j + 1) c (by omega) hd1,
        slice_succ b i j x rest hij hd, splitSlash_cons x rest hx,
        consHead_append _ _ (splitSlash_ne_nil rest)]

theorem unsafeParse_eq (s : Bytes) (c : List Bytes) :
    unsafeParse s c = c ++ splitSlash s := by
  unfold unsafeParse unsafeAtobs
  rw [unsafeParseLoop_eq s s 0 0 c (Nat.le_refl _) rfl]
  simp [slice, consHead_nil (splitSlash_ne_nil s)]

theorem joinSlash_consHead (x : Nat) {segs : List Bytes} (h : segs ≠ []) :
    joinSlash (consHead [x] segs) = x :: joinSlash segs := by
  cases segs with
  | nil => exact absurd rfl h
  | cons a t => cases t <;> simp [consHead, joinSlash]

theorem joinSlash_splitSlash (s : Bytes) : joinSlash (splitSlash s) = s := by
  induction s with
  | nil => rfl
  | cons x xs ih =>
    by_cases hx : x = slash
    · subst hx
      rw [splitSlash_slash]
      cases hs : splitSlash xs with
      | nil => exact absurd hs (splitSlash_ne_nil xs)
      | cons seg segs =>
        rw [hs] at ih
        simp [joinSlash, ih]
    · rw [splitSlash_cons x xs hx, joinSlash_consHead x (splitSlash_ne_nil xs), ih]

theorem length_consHead (u : Bytes) {segs : List Bytes} (h : segs ≠ []) :
    (consHead u segs).length = segs.length := by
  cases segs with
  | nil => exact absurd rfl h
  | cons a t => simp [consHead]

theorem length_splitSlash (s : Bytes) : (splitSlash s).length = s.count slash + 1 := by
  induction s with
  | nil => rfl
  | cons x xs ih =>
    by_cases hx : x = slash
    · subst hx
      rw [splitSlash_slash]
      simp [ih]
    · rw [splitSlash_cons x xs hx, length_consHead _ (splitSlash_ne_nil xs), ih,
        List.count_cons_of_ne (fun h => hx h.symm)]

theorem slash_not_mem_splitSlash (s : Bytes) : ∀ seg ∈ splitSlash s, slash ∉ seg := by
  induction s with
  | nil => simp [splitSlash]
  | cons x xs ih =>
    by_cases hx : x = slash
    · subst hx
      rw [splitSlash_slash]
      intro seg hseg
      rcases List.mem_cons.mp hseg with h | h
      · simp [h]
      · exact ih seg h
    · rw [splitSlash_cons x xs hx]
      cases hs : splitSlash xs with
      | nil => exact absurd hs (splitSlash_ne_nil xs)
      | cons seg segs =>
        rw [hs] at ih
        intro sg hsg
        simp only [consHead] at hsg
        rcases List.mem_cons.mp hsg with h | h
        · subst h
          intro hmem
          rcases List.mem_cons.mp hmem with h1 | h1
          · exact hx h1.symm
          · exact ih seg (List.mem_cons_self _ _) h1
        · exact ih sg (List.mem_cons_of_mem _ h)

/-- C9 (counterexample): parsing the path /a/b/c into an empty buffer does not give the
three segments a, b, c: the buffer has four segments, the first one being empty. -/
theorem unsafeParse_abc_ne :
    unsafeParse (bytes "/a/b/c") [] ≠ [bytes "a", bytes "b", bytes "c"] := by
  decide

/-- C9 (amended): parsing into an empty buffer keeps the empty segment in front of the
leading slash: /a/b/c gives four segments (empty, a, b, c), the path / gives two empty
segments, and /a/b/ gives four segments (empty, a, b, empty). -/
theorem unsafeParse_examples :
    unsafeParse (bytes "/a/b/c") [] = [[], bytes "a", bytes "b", bytes "c"] ∧
    unsafeParse (bytes "/") [] = [[], []] ∧
    unsafeParse (bytes "/a/b/") [] = [[], bytes "a", bytes "b", []] := by
  decide

/-- C10: for every string and every initial buffer, unsafeParse leaves the old contents
of the buffer followed by the split of the string at every slash; the split has one more
segment than the string has slashes (so the empty string gives one empty segment), no
segment contains a slash, and joining the appended segments with slashes gives the string
back. -/
theorem unsafeParse_eq_split (s : Bytes) (c : List Bytes) :
    unsafeParse s c = c ++ splitSlash s ∧
    (splitSlash s).length = s.count slash + 1 ∧
    (∀ seg ∈ splitSlash s, slash ∉ seg) ∧
    splitSlash [] = [[]] ∧
    joinSlash (splitSlash s) = s ∧
    joinSlash ((unsafeParse s c).drop c.length) = s :=
  ⟨unsafeParse_eq s c, length_splitSlash s, slash_not_mem_splitSlash s, rfl,
    joinSlash_splitSlash s, by rw [unsafeParse_eq, List.drop_left]; exact joinSlash_splitSlash s⟩


/-! ### The arena -/

section Heap
variable {H : Type}

theorem deref_append_lt (hp : Heap H) (x : node H) {p : Nat} (h : p < hp.length) :
    deref (hp ++ [x]) p = deref hp p := by
  simp [deref, List.getD_eq_getElem?_getD, List.getElem?_append_left h]

theorem deref_append_len (hp : Heap H) (x : node H) :
    deref (hp ++ [x]) hp.length = x := by
  simp [deref, List.getD_eq_getElem?_getD]

theorem deref_ge (hp : Heap H) {p : Nat} (h : hp.length ≤ p) : deref hp p = {} := by
  simp [deref, List.getD_eq_getElem?_getD, List.getElem?_eq_none h]

theorem deref_store_same (hp : Heap H) {p : Nat} (h : p < hp.length) (x : node H) :
    deref (store hp p x) p = x := by
  simp [deref, store, List.getD_eq_getElem?_getD, h]

theorem deref_store_ne (hp : Heap H) {p q : Nat} (h : q ≠ p) (x : node H) :
    deref (store hp p x) q = deref hp q := by
  simp [deref, store, List.getD_eq_getElem?_getD, List.getElem?_set_ne (Ne.symm h)]

theorem length_store (hp : Heap H) (p : Nat) (x : node H) :
    (store hp p x).length = hp.length := by
  simp [store]

end Heap

/-! ### Kinds of chunks and descents by node.child -/

section Kinds

theorem chunkToKind_nil : chunkToKind [] = nodeWildcard := rfl

theorem chunkToKind_eq_wildcard {c : Bytes} : chunkToKind c = nodeWildcard ↔ c = [] := by
  cases c with
  | nil => simp [chunkToKind]
  | cons x t =>
    by_cases hx : x = vardec <;> simp [chunkToKind, hx]

theorem chunkToKind_pos (c : Bytes) : nodeStatic ≤ chunkToKind c := by
  cases c with
  | nil => simp [chunkToKind]
  | cons x t =>
    by_cases hx : x = vardec <;> simp [chunkToKind, hx]

theorem chunkToKind_eq_dynamic {c : Bytes} :
    chunkToKind c = nodeDynamic ↔ ∃ t, c = vardec :: t := by
  cases c with
  | nil => simp [chunkToKind]
  | cons x t =>
    by_cases hx : x = vardec <;> simp [chunkToKind, hx]

theorem chunkToKind_eq_static {c : Bytes} :
    chunkToKind c = nodeStatic ↔ ∃ x t, c = x :: t ∧ x ≠ vardec := by
  cases c with
  | nil => simp [chunkToKind]
  | cons x t =>
    by_cases hx : x = vardec <;> simp [chunkToKind, hx]

end Kinds

section Walk
variable {H : Type}

theorem find_of_nodup {α β : Type} [DecidableEq β] (f : α → β) (c : β) :
    ∀ (l : List α) (x : α), (l.map f).Nodup → x ∈ l → f x = c →
      l.find? (fun y => decide (f y = c)) = some x := by
  intro l
  induction l with
  | nil => intro x _ hx; cases hx
  | cons a t ih =>
    intro x hnd hx hfx
    rw [List.map_cons, List.nodup_cons] at hnd
    rcases List.mem_cons.mp hx with h | h
    · subst h
      simp [List.find?, hfx]
    · have hne : f a ≠ c := by
        intro hac
        apply hnd.1
        rw [hac, ← hfx]
        exact List.mem_map_of_mem f h
      simp only [List.find?, hne, decide_False]
      exact ih x hnd.2 h hfx

theorem child_some {hp : Heap H} {n : node H} {c : Bytes} {x : Nat}
    (h : n.child hp c = some x) : x ∈ n.children ∧ chunkOf hp x = c := by
  unfold node.child at h
  refine ⟨List.mem_of_find?_eq_some h, ?_⟩
  simpa using List.find?_some h

theorem child_none {hp : Heap H} {n : node H} {c : Bytes}
    (h : n.child hp c = none) : ∀ x ∈ n.children, chunkOf hp x ≠ c := by
  unfold node.child at h
  intro x hx
  simpa using (List.find?_eq_none.mp h) x hx

theorem child_of_mem {hp : Heap H} (hwf : WF hp) {p x : Nat}
    (hx : x ∈ (deref hp p).children) :
    (deref hp p).child hp (chunkOf hp x) = some x :=
  find_of_nodup (chunkOf hp) (chunkOf hp x) _ x (hwf.nodup p) hx rfl

theorem walk_nil (hp : Heap H) (p : Nat) : walk hp p [] = some p := rfl

theorem walk_cons_some {hp : Heap H} {p q : Nat} {c : Bytes} (cs : List Bytes)
    (h : (deref hp p).child hp c = some q) : walk hp p (c :: cs) = walk hp q cs := by
  simp [walk, h]

theorem walk_cons_none {hp : Heap H} {p : Nat} {c : Bytes} (cs : List Bytes)
    (h : (deref hp p).child hp c = none) : walk hp p (c :: cs) = none := by
  simp [walk, h]

theorem walk_cons_inv {hp : Heap H} {p e : Nat} {c : Bytes} {cs : List Bytes}
    (h : walk hp p (c :: cs) = some e) :
    ∃ q, (deref hp p).child hp c = some q ∧ walk hp q cs = some e := by
  cases hc : (deref hp p).child hp c with
  | none => rw [walk_cons_none cs hc] at h; cases h
  | some q => exact ⟨q, rfl, by rw [walk_cons_some cs hc] at h; exact h⟩

theorem walk_append {hp : Heap H} (cs₁ cs₂ : List Bytes) :
    ∀ (p q : Nat), walk hp p cs₁ = some q → walk hp p (cs₁ ++ cs₂) = walk hp q cs₂ := by
  induction cs₁ with
  | nil => intro p q h; simp [walk] at h; subst h; rfl
  | cons c cs ih =>
    intro p q h
    obtain ⟨r, hr, hw⟩ := walk_cons_inv h
    rw [List.cons_append, walk_cons_some _ hr]
    exact ih r q hw

theorem walk_append_inv {hp : Heap H} (cs₁ cs₂ : List Bytes) :
    ∀ (p e : Nat), walk hp p (cs₁ ++ cs₂) = some e →
      ∃ q, walk hp p cs₁ = some q ∧ walk hp q cs₂ = some e := by
  induction cs₁ with
  | nil => intro p e h; exact ⟨p, rfl, h⟩
  | cons c cs ih =>
    intro p e h
    rw [List.cons_append] at h
    obtain ⟨r, hr, hw⟩ := walk_cons_inv h
    obtain ⟨q, hq, hq2⟩ := ih r e hw
    exact ⟨q, by rw [walk_cons_some _ hr]; exact hq, hq2⟩

theorem walk_le {hp : Heap H} (hwf : WF hp) (cs : List Bytes) :
    ∀ (p e : Nat), walk hp p cs = some e → p ≤ e ∧ (cs ≠ [] → p < e) := by
  induction cs with
  | nil => intro p e h; simp [walk] at h; subst h; simp
  | cons c cs ih =>
    intro p e h
    obtain ⟨r, hr, hw⟩ := walk_cons_inv h
    have h1 := (hwf.child_gt p r (child_some hr).1).1
    have h2 := (ih r e hw).1
    exact ⟨by omega, fun _ => by omega⟩

theorem walk_lt_length {hp : Heap H} (hwf : WF hp) (cs : List Bytes) :
    ∀ (p e : Nat), p < hp.length → walk hp p cs = some e → e < hp.length := by
  induction cs with
  | nil => intro p e hp h; simp [walk] at h; subst h; exact hp
  | cons c cs ih =>
    intro p e _ h
    obtain ⟨r, hr, hw⟩ := walk_cons_inv h
    exact ih r e (hwf.child_gt p r (child_some hr).1).2 hw

/-- Two descents from the same node that end in the same node follow the same chunks. -/
theorem walk_inj {hp : Heap H} (hwf : WF hp) (a : Nat) (cs₁ : List Bytes) :
    ∀ (cs₂ : List Bytes) (e : Nat), walk hp a cs₁ = some e → walk hp a cs₂ = some e →
      cs₁ = cs₂ := by
  induction cs₁ using List.reverseRecOn with
  | nil =>
    intro cs₂ e h1 h2
    simp [walk] at h1
    subst h1
    by_contra hne
    have := (walk_le hwf cs₂ a a h2).2 (fun h => hne h.symm)
    omega
  | append_singleton cs x ih =>
    intro cs₂ e h1 h2
    obtain ⟨q, hq, hq2⟩ := walk_append_inv cs [x] a e h1
    obtain ⟨r, hr, hr2⟩ := walk_cons_inv hq2
    simp [walk] at hr2
    subst hr2
    induction cs₂ using List.reverseRecOn with
    | nil =>
      simp [walk] at h2
      subst h2
      have := (walk_le hwf (cs ++ [x]) a a h1).2 (by simp)
      omega
    | append_singleton ds y _ =>
      obtain ⟨q', hq', hq2'⟩ := walk_append_inv ds [y] a r h2
      obtain ⟨r', hr', hr2'⟩ := walk_cons_inv hq2'
      simp [walk] at hr2'
      subst hr2'
      have hpar := hwf.parent q q' r' (child_some hr).1 (child_some hr').1
      subst hpar
      have hxy : x = y := by rw [← (child_some hr).2, ← (child_some hr').2]
      subst hxy
      rw [ih ds q hq hq']

end Walk

/-! ### The new child of node.insert -/

section AddChild
variable {H : Type} (srt : (Nat → Nat) → List Nat → List Nat)

theorem addChild_snd (hp : Heap H) (n : Nat) (chunk : Bytes) :
    (addChild srt hp n chunk).2 = hp.length := rfl

theorem length_addChild (hp : Heap H) (n : Nat) (chunk : Bytes) :
    (addChild srt hp n chunk).1.length = hp.length + 1 := by
  simp [addChild, length_store]

theorem deref_addChild_other (hp : Heap H) (n : Nat) (chunk : Bytes) {p : Nat}
    (h1 : p ≠ n) (h2 : p ≠ hp.length) :
    deref (addChild srt hp n chunk).1 p = deref hp p := by
  unfold addChild
  simp only
  rw [deref_store_ne _ h1]
  by_cases hlt : p < hp.length
  · exact deref_append_lt hp _ hlt
  · rw [deref_ge hp (by omega), deref_ge _ (by simp; omega)]

theorem deref_addChild_new (hp : Heap H) {n : Nat} (chunk : Bytes) (hn : n < hp.length) :
    deref (addChild srt hp n chunk).1 hp.length
      = { kind := chunkToKind chunk, chunk := chunk } := by
  unfold addChild
  simp only
  rw [deref_store_ne _ (by omega), deref_append_len]

theorem deref_addChild_self (hp : Heap H) {n : Nat} (chunk : Bytes) (hn : n < hp.length) :
    deref (addChild srt hp n chunk).1 n =
      { deref hp n with
        children := srt (kindOf (hp ++ [{ kind := chunkToKind chunk, chunk := chunk }]))
          ((deref hp n).children ++ [hp.length])
        wildcard := if chunkToKind chunk = nodeWildcard then some hp.length
          else (deref hp n).wildcard } := by
  unfold addChild
  simp only
  rw [deref_store_same _ (by simp; omega), deref_append_lt hp _ hn]
  split <;> rfl

theorem addChild_kind (hp : Heap H) {n : Nat} (chunk : Bytes) (hn : n < hp.length)
    {p : Nat} (hp2 : p ≠ hp.length) :
    kindOf (addChild srt hp n chunk).1 p = kindOf hp p := by
  unfold kindOf
  by_cases h : p = n
  · subst h; rw [deref_addChild_self srt hp chunk hn]
  · rw [deref_addChild_other srt hp n chunk h hp2]

theorem addChild_chunk (hp : Heap H) {n : Nat} (chunk : Bytes) (hn : n < hp.length)
    {p : Nat} (hp2 : p ≠ hp.length) :
    chunkOf (addChild srt hp n chunk).1 p = chunkOf hp p := by
  unfold chunkOf
  by_cases h : p = n
  · subst h; rw [deref_addChild_self srt hp chunk hn]
  · rw [deref_addChild_other srt hp n chunk h hp2]

theorem addChild_kind_new (hp : Heap H) {n : Nat} (chunk : Bytes) (hn : n < hp.length) :
    kindOf (addChild srt hp n chunk).1 hp.length = chunkToKind chunk := by
  unfold kindOf; rw [deref_addChild_new srt hp chunk hn]

theorem addChild_chunk_new (hp : Heap H) {n : Nat} (chunk : Bytes) (hn : n < hp.length) :
    chunkOf (addChild srt hp n chunk).1 hp.length = chunk := by
  unfold chunkOf; rw [deref_addChild_new srt hp chunk hn]

theorem addChild_handler (hp : Heap H) {n : Nat} (chunk : Bytes) (hn : n < hp.length)
    (p : Nat) :
    (deref (addChild srt hp n chunk).1 p).handler = (deref hp p).handler := by
  by_cases h : p = n
  · subst h; rw [deref_addChild_self srt hp chunk hn]
  · by_cases h2 : p = hp.length
    · subst h2
      rw [deref_addChild_new srt hp chunk hn, deref_ge hp (Nat.le_refl _)]
    · rw [deref_addChild_other srt hp n chunk h h2]

theorem addChild_children_other (hp : Heap H) {n : Nat} (chunk : Bytes) (hn : n < hp.length)
    {p : Nat} (h : p ≠ n) :
    (deref (addChild srt hp n chunk).1 p).children = (deref hp p).children := by
  by_cases h2 : p = hp.length
  · subst h2
    rw [deref_addChild_new srt hp chunk hn, deref_ge hp (Nat.le_refl _)]
  · rw [deref_addChild_other srt hp n chunk h h2]

theorem addChild_wildcard_other (hp : Heap H) {n : Nat} (chunk : Bytes) (hn : n < hp.length)
    {p : Nat} (h : p ≠ n) :
    (deref (addChild srt hp n chunk).1 p).wildcard = (deref hp p).wildcard := by
  by_cases h2 : p = hp.length
  · subst h2
    rw [deref_addChild_new srt hp chunk hn, deref_ge hp (Nat.le_refl _)]
  · rw [deref_addChild_other srt hp n chunk h h2]

theorem addChild_children_self (hsrt : SortsByKind srt) (hp : Heap H) {n : Nat}
    (chunk : Bytes) (hn : n < hp.length) :
    ((deref (addChild srt hp n chunk).1 n).children).Perm
        ((deref hp n).children ++ [hp.length]) ∧
    ((deref (addChild srt hp n chunk).1 n).children).Pairwise
        (fun a b => kindOf (addChild srt hp n chunk).1 a
          ≤ kindOf (addChild srt hp n chunk).1 b) := by
  rw [deref_addChild_self srt hp chunk hn]
  simp only
  refine ⟨(hsrt _ _).1, ?_⟩
  have hk : ∀ p : Nat, kindOf (hp ++ [{ kind := chunkToKind chunk, chunk := chunk }]) p
      = kindOf (addChild srt hp n chunk).1 p := by
    intro p
    by_cases h2 : p = hp.length
    · subst h2
      rw [addChild_kind_new srt hp chunk hn]
      unfold kindOf; rw [deref_append_len]
    · rw [addChild_kind srt hp chunk hn h2]
      unfold kindOf
      by_cases hlt : p < hp.length
      · rw [deref_append_lt hp _ hlt]
      · rw [deref_ge hp (by omega), deref_ge _ (by simp; omega)]
  have := (hsrt (kindOf (hp ++ [{ kind := chunkToKind chunk, chunk := chunk }]))
    ((deref hp n).children ++ [hp.length])).2
  refine this.imp ?_
  intro a b hab
  rw [← hk a, ← hk b]; exact hab

theorem addChild_wildcard_self (hp : Heap H) {n : Nat} (chunk : Bytes) (hn : n < hp.length) :
    (deref (addChild srt hp n chunk).1 n).wildcard =
      if chunk = [] then some hp.length else (deref hp n).wildcard := by
  rw [deref_addChild_self srt hp chunk hn]
  simp only [chunkToKind_eq_wildcard]

theorem mem_addChild_children (hsrt : SortsByKind srt) (hp : Heap H) {n : Nat}
    (chunk : Bytes) (hn : n < hp.length) (p c : Nat) :
    c ∈ (deref (addChild srt hp n chunk).1 p).children ↔
      (c ∈ (deref hp p).children ∨ (p = n ∧ c = hp.length)) := by
  by_cases h : p = n
  · subst h
    rw [(addChild_children_self srt hsrt hp chunk hn).1.mem_iff]
    simp
  · rw [addChild_children_other srt hp chunk hn h]
    simp [h]

end AddChild

/-! ### The shape of the trie is kept -/

section WFPreserve
variable {H : Type} (srt : (Nat → Nat) → List Nat → List Nat)

theorem WF.congr {hp hp1 : Heap H} (hwf : WF hp) (hlen : hp1.length = hp.length)
    (hk : ∀ p : Nat, (deref hp1 p).kind = (deref hp p).kind)
    (hc : ∀ p : Nat, (deref hp1 p).chunk = (deref hp p).chunk)
    (hch : ∀ p : Nat, (deref hp1 p).children = (deref hp p).children)
    (hw : ∀ p : Nat, (deref hp1 p).wildcard = (deref hp p).wildcard) : WF hp1 := by
  have hkind : kindOf hp1 = kindOf hp := by funext p; exact hk p
  have hchunk : chunkOf hp1 = chunkOf hp := by funext p; exact hc p
  constructor
  · rw [hlen]; exact hwf.nonempty
  · intro p c h; rw [hch] at h; rw [hlen]; exact hwf.child_gt p c h
  · intro p c h; rw [hch] at h; rw [hkind, hchunk]; exact hwf.kind_eq p c h
  · intro p; rw [hch, hchunk]; exact hwf.nodup p
  · intro p; rw [hch, hkind]; exact hwf.sorted p
  · intro p w; rw [hch, hw, hchunk]; exact hwf.wild p w
  · intro p q c h1 h2; rw [hch] at h1 h2; exact hwf.parent p q c h1 h2

theorem deref_store_handler (hp : Heap H) {n : Nat} (hn : n < hp.length) (h : Handler H)
    (p : Nat) :
    deref (store hp n { deref hp n with handler := h }) p
      = if p = n then { deref hp n with handler := h } else deref hp p := by
  by_cases hpn : p = n
  · subst hpn; simp [deref_store_same hp hn]
  · simp [hpn, deref_store_ne hp hpn]

theorem store_handler_wf {hp : Heap H} (hwf : WF hp) {n : Nat} (hn : n < hp.length)
    (h : Handler H) : WF (store hp n { deref hp n with handler := h }) := by
  apply hwf.congr (length_store _ _ _) <;> intro p <;>
    rw [deref_store_handler hp hn] <;> split <;> simp_all

theorem addChild_wf (hsrt : SortsByKind srt) {hp : Heap H} (hwf : WF hp) {n : Nat}
    (hn : n < hp.length) {chunk : Bytes} (hnone : (deref hp n).child hp chunk = none) :
    WF (addChild srt hp n chunk).1 := by
  have hmem := mem_addChild_children srt hsrt hp chunk hn
  have hold : ∀ p c : Nat, c ∈ (deref hp p).children → c ≠ hp.length := by
    intro p c h
    have := (hwf.child_gt p c h).2
    omega
  have hkind : ∀ p c : Nat, c ∈ (deref hp p).children →
      kindOf (addChild srt hp n chunk).1 c = kindOf hp c :=
    fun p c h => addChild_kind srt hp chunk hn (hold p c h)
  have hchunk : ∀ p c : Nat, c ∈ (deref hp p).children →
      chunkOf (addChild srt hp n chunk).1 c = chunkOf hp c :=
    fun p c h => addChild_chunk srt hp chunk hn (hold p c h)
  have hnone1 := child_none hnone
  constructor
  · rw [length_addChild]; omega
  · intro p c h
    rw [length_addChild]
    rcases (hmem p c).mp h with h1 | ⟨h1, h2⟩
    · have := hwf.child_gt p c h1; omega
    · omega
  · intro p c h
    rcases (hmem p c).mp h with h1 | ⟨_, h2⟩
    · rw [hkind p c h1, hchunk p c h1]; exact hwf.kind_eq p c h1
    · subst h2
      rw [addChild_kind_new srt hp chunk hn, addChild_chunk_new srt hp chunk hn]
  · intro p
    by_cases hpn : p = n
    · subst hpn
      rw [((addChild_children_self srt hsrt hp chunk hn).1.map _).nodup_iff]
      rw [List.map_append, List.map_singleton, addChild_chunk_new srt hp chunk hn]
      have e : (deref hp p).children.map (chunkOf (addChild srt hp p chunk).1)
          = (deref hp p).children.map (chunkOf hp) :=
        List.map_congr_left (fun c hc => hchunk p c hc)
      rw [e]
      apply List.Nodup.append (hwf.nodup p) (List.nodup_singleton _)
      intro x hx1 hx2
      rw [List.mem_singleton] at hx2
      subst hx2
      obtain ⟨c, hc, hcx⟩ := List.mem_map.mp hx1
      exact hnone1 c hc hcx
    · rw [addChild_children_other srt hp chunk hn hpn]
      have e : (deref hp p).children.map (chunkOf (addChild srt hp n chunk).1)
          = (deref hp p).children.map (chunkOf hp) :=
        List.map_congr_left (fun c hc => hchunk p c hc)
      rw [e]; exact hwf.nodup p
  · intro p
    by_cases hpn : p = n
    · subst hpn
      exact (addChild_children_self srt hsrt hp chunk hn).2
    · rw [addChild_children_other srt hp chunk hn hpn]
      refine (hwf.sorted p).imp_of_mem ?_
      intro a b ha hb hab
      rw [hkind p a ha, hkind p b hb]; exact hab
  · intro p w
    by_cases hpn : p = n
    · subst hpn
      rw [addChild_wildcard_self srt hp chunk hn, hmem]
      by_cases hce : chunk = []
      · simp only [hce, if_true]
        constructor
        · intro h
          have hw : w = hp.length := by simpa using h.symm
          subst hw
          refine ⟨Or.inr (by simp), ?_⟩
          rw [addChild_chunk_new srt hp _ hn]
        · rintro ⟨h1 | ⟨_, h1⟩, h2⟩
          · exfalso
            rw [addChild_chunk srt hp _ hn (hold p w h1)] at h2
            exact hnone1 w h1 (by rw [h2, hce])
          · rw [h1]
      · simp only [hce, if_false]
        constructor
        · intro h
          have := (hwf.wild p w).mp h
          exact ⟨Or.inl this.1, by rw [hchunk p w this.1]; exact this.2⟩
        · rintro ⟨h1 | ⟨_, h1⟩, h2⟩
          · rw [hchunk p w h1] at h2
            exact (hwf.wild p w).mpr ⟨h1, h2⟩
          · subst h1
            rw [addChild_chunk_new srt hp chunk hn] at h2
            exact absurd h2 hce
    · rw [addChild_wildcard_other srt hp chunk hn hpn,
        addChild_children_other srt hp chunk hn hpn]
      constructor
      · intro h
        have := (hwf.wild p w).mp h
        exact ⟨this.1, by rw [hchunk p w this.1]; exact this.2⟩
      · rintro ⟨h1, h2⟩
        rw [hchunk p w h1] at h2
        exact (hwf.wild p w).mpr ⟨h1, h2⟩
  · intro p q c h1 h2
    rcases (hmem p c).mp h1 with a | ⟨a1, a2⟩
    · rcases (hmem q c).mp h2 with b | ⟨_, b2⟩
      · exact hwf.parent p q c a b
      · exact absurd b2 (hold p c a)
    · rcases (hmem q c).mp h2 with b | ⟨b1, _⟩
      · exact absurd a2 (hold q c b)
      · rw [a1, b1]

end WFPreserve

/-! ### What node.insert does -/

section InsertSpec
variable {H : Type} (srt : (Nat → Nat) → List Nat → List Nat)

theorem walk_mono {hp hp1 : Heap H} (hwf1 : WF hp1) (hwf : WF hp)
    (hsub : ∀ q c : Nat, c ∈ (deref hp q).children → c ∈ (deref hp1 q).children)
    (hchunk : ∀ p : Nat, p < hp.length → chunkOf hp1 p = chunkOf hp p) (cs : List Bytes) :
    ∀ (q e : Nat), walk hp q cs = some e → walk hp1 q cs = some e := by
  induction cs with
  | nil => intro q e h; exact h
  | cons c cs ih =>
    intro q e h
    obtain ⟨r, hr, hw⟩ := walk_cons_inv h
    have hr1 := child_some hr
    have hlt := (hwf.child_gt q r hr1.1).2
    have hc1 : (deref hp1 q).child hp1 c = some r := by
      have := child_of_mem hwf1 (hsub q r hr1.1)
      rw [hchunk r hlt, hr1.2] at this
      exact this
    rw [walk_cons_some _ hc1]
    exact ih r e hw

theorem InsertOk.walks_kept {hp hp1 : Heap H} {n : Nat} {rest : List Bytes}
    {handler : Handler H} (ok : InsertOk hp n rest handler hp1) (hwf : WF hp)
    (cs : List Bytes) (q e : Nat) (h : walk hp q cs = some e) : walk hp1 q cs = some e :=
  walk_mono ok.wf hwf ok.sub (fun p hp => (ok.shape p hp).2) cs q e h

theorem walk_leaf {hp : Heap H} {c : Nat} (hleaf : (deref hp c).children = [])
    {rest : List Bytes} {e : Nat} (h : walk hp c rest = some e) : rest = [] ∧ e = c := by
  cases rest with
  | nil => simp [walk] at h; exact ⟨rfl, h.symm⟩
  | cons x xs =>
    obtain ⟨r, hr, _⟩ := walk_cons_inv h
    have := (child_some hr).1
    rw [hleaf] at this
    cases this

theorem insertFrom_spec (hsrt : SortsByKind srt) (rest : List Bytes) :
    ∀ (hp : Heap H) (n : Nat) (handler : Handler H) (hp1 : Heap H) (r : Option String),
      WF hp → n < hp.length → insertFrom srt hp n rest handler = (hp1, r) →
      (∀ msg, r = some msg → msg = "redefining route" ∧ hp1 = hp ∧
        ∃ e, walk hp n rest = some e ∧ (deref hp e).handler.isSome = true) ∧
      (r = none → InsertOk hp n rest handler hp1) := by
  induction rest with
  | nil =>
    intro hp n handler hp1 r hwf hn heq
    unfold insertFrom at heq
    by_cases hs : (deref hp n).handler.isSome = true
    · rw [if_pos hs] at heq
      cases heq
      refine ⟨fun msg hm => ?_, fun h => by cases h⟩
      cases hm
      exact ⟨rfl, rfl, n, rfl, hs⟩
    · rw [if_neg hs] at heq
      cases heq
      refine ⟨fun msg hm => (by cases hm), fun _ => ?_⟩
      have hd := deref_store_handler hp hn handler
      have hnone : (deref hp n).handler = none := by
        cases hh : (deref hp n).handler with
        | none => rfl
        | some x => rw [hh] at hs; simp at hs
      constructor
      · exact store_handler_wf hwf hn handler
      · rw [length_store]
      · intro p _
        unfold kindOf chunkOf
        rw [hd]; split <;> simp_all
      · intro q c h
        rw [hd]; split <;> simp_all
      · intro e he
        simp [walk] at he
        subst he; exact hnone
      · refine ⟨n, rfl, ?_, ?_⟩
        · rw [hd]; simp
        · intro p hpn; rw [hd]; simp [hpn]
      · intro p hpn
        rw [hd]; rw [if_neg (by omega)]
      · intro c h
        left
        rw [hd] at h; simpa using h
      · intro q
        rw [hd]; split <;> simp_all
  | cons chunk rest ih =>
    intro hp n handler hp1 r hwf hn heq
    unfold insertFrom at heq
    cases hc : (deref hp n).child hp chunk with
    | some c =>
      rw [hc] at heq
      simp only at heq
      have hc1 := child_some hc
      have hcgt := hwf.child_gt n c hc1.1
      obtain ⟨ih1, ih2⟩ := ih hp c handler hp1 r hwf hcgt.2 heq
      refine ⟨fun msg hm => ?_, fun hr => ?_⟩
      · obtain ⟨h1, h2, e, he, hh⟩ := ih1 msg hm
        exact ⟨h1, h2, e, by rw [walk_cons_some _ hc]; exact he, hh⟩
      · have ok := ih2 hr
        have hn1 : deref hp1 n = deref hp n := ok.frame n hcgt.1
        constructor
        · exact ok.wf
        · exact ok.len
        · exact ok.shape
        · exact ok.sub
        · intro e he
          rw [walk_cons_some _ hc] at he
          exact ok.fresh e he
        · obtain ⟨e, he, hh, hf⟩ := ok.attached
          refine ⟨e, ?_, hh, hf⟩
          have hc2 : (deref hp1 n).child hp1 chunk = some c := by
            have := child_of_mem ok.wf (ok.sub n c hc1.1)
            rw [(ok.shape c hcgt.2).2, hc1.2] at this
            exact this
          rw [walk_cons_some _ hc2]; exact he
        · intro p hpn
          exact ok.frame p (by omega)
        · intro c1 h
          left
          rw [hn1] at h; exact h
        · exact ok.count
    | none =>
      rw [hc] at heq
      simp only at heq
      rw [addChild_snd] at heq
      have hwf2 := addChild_wf srt hsrt hwf hn hc
      have hlen2 := length_addChild srt hp n chunk
      have hmem := mem_addChild_children srt hsrt hp chunk hn
      have hnew := deref_addChild_new srt hp chunk hn
      obtain ⟨ih1, ih2⟩ := ih (addChild srt hp n chunk).1 hp.length handler hp1 r hwf2
        (by rw [hlen2]; omega) heq
      refine ⟨fun msg hm => ?_, fun hr => ?_⟩
      · exfalso
        obtain ⟨_, _, e, he, hh⟩ := ih1 msg hm
        have hleaf : (deref (addChild srt hp n chunk).1 hp.length).children = [] := by
          rw [hnew]
        obtain ⟨_, h2⟩ := walk_leaf hleaf he
        subst h2
        rw [hnew] at hh
        simp at hh
      · have ok := ih2 hr
        have hfr : ∀ p : Nat, p < hp.length →
            deref hp1 p = deref (addChild srt hp n chunk).1 p := fun p h => ok.frame p h
        constructor
        · exact ok.wf
        · have := ok.len; omega
        · intro p hlt
          have h1 := ok.shape p (by omega)
          rw [h1.1, h1.2, addChild_kind srt hp chunk hn (by omega),
            addChild_chunk srt hp chunk hn (by omega)]
          exact ⟨rfl, rfl⟩
        · intro q c h
          exact ok.sub q c ((hmem q c).mpr (Or.inl h))
        · intro e he
          rw [walk_cons_none _ hc] at he
          cases he
        · obtain ⟨e, he, hh, hf⟩ := ok.attached
          refine ⟨e, ?_, hh, ?_⟩
          · have hc2 : (deref hp1 n).child hp1 chunk = some hp.length := by
              have := child_of_mem ok.wf
                (ok.sub n hp.length ((hmem n hp.length).mpr (Or.inr ⟨rfl, rfl⟩)))
              rw [(ok.shape hp.length (by omega)).2,
                addChild_chunk_new srt hp chunk hn] at this
              exact this
            rw [walk_cons_some _ hc2]; exact he
          · intro p hpe
            rw [hf p hpe, addChild_handler srt hp chunk hn]
        · intro p hpn
          rw [hfr p (by omega), deref_addChild_other srt hp n chunk (by omega) (by omega)]
        · intro c1 h
          rw [hfr n hn] at h
          rcases (hmem n c1).mp h with h1 | ⟨_, h1⟩
          · exact Or.inl h1
          · right
            subst h1
            rw [(ok.shape hp.length (by omega)).2, addChild_chunk_new srt hp chunk hn]
            rfl
        · intro q
          by_cases hq : q < hp.length
          · rw [hfr q hq]
            by_cases hqn : q = n
            · subst hqn
              rw [(addChild_children_self srt hsrt hp chunk hn).1.length_eq]
              simp
            · rw [addChild_children_other srt hp chunk hn hqn]
              omega
          · have h0 : (deref (addChild srt hp n chunk).1 q).children = [] := by
              rw [addChild_children_other srt hp chunk hn (by omega),
                deref_ge hp (by omega)]
            have := ok.count q
            rw [h0] at this
            simp at this
            omega

end InsertSpec

/-! ### node.insert in the form of the source -/

section SourceForm
variable {H : Type} (srt : (Nat → Nat) → List Nat → List Nat)

/-- The first branch of node.insert in the form of the source: at `height == len(chunks)`
the handler is attached, or the call panics when the node has one. -/
theorem node_insert_end (hp : Heap H) (n : Nat) (chunks : List Bytes) (handler : Handler H) :
    node.insert srt hp n chunks chunks.length handler =
      if (deref hp n).handler.isSome then (hp, some "redefining route")
      else (store hp n { deref hp n with handler := handler }, none) := by
  simp [node.insert, insertFrom]

/-- The rest of node.insert in the form of the source: below the length of the chunks the
call descends into the child for `chunks[height]`, which is created when it is missing,
with `height+1`. -/
theorem node_insert_step (hp : Heap H) (n : Nat) (chunks : List Bytes) (height : Nat)
    (handler : Handler H) (chunk : Bytes) (hc : chunks[height]? = some chunk) :
    node.insert srt hp n chunks height handler =
      match (deref hp n).child hp chunk with
      | some child => node.insert srt hp child chunks (height + 1) handler
      | none =>
        node.insert srt (addChild srt hp n chunk).1 (addChild srt hp n chunk).2 chunks
          (height + 1) handler := by
  obtain ⟨hlt, hget⟩ := List.getElem?_eq_some_iff.mp hc
  have hdrop : chunks.drop height = chunk :: chunks.drop (height + 1) := by
    rw [← hget]
    exact List.drop_eq_getElem_cons hlt
  have h1 : height ≤ chunks.length := by omega
  have h2 : height + 1 ≤ chunks.length := by omega
  simp only [node.insert, if_pos h1, if_pos h2, hdrop, insertFrom]

end SourceForm

/-! ### Tries built from the empty root -/

section BuiltInv
variable {H : Type} (srt : (Nat → Nat) → List Nat → List Nat)

theorem node_insert_zero (hp : Heap H) (n : Nat) (chunks : List Bytes) (handler : Handler H) :
    node.insert srt hp n chunks 0 handler = insertFrom srt hp n chunks handler := by
  simp [node.insert]

theorem emptyTrie_wf : WF (emptyTrie : Heap H) := by
  have hd : ∀ p : Nat, deref (emptyTrie : Heap H) p = {} := by
    intro p
    cases p with
    | zero => rfl
    | succ k => exact deref_ge _ (by simp [emptyTrie])
  constructor
  · simp [emptyTrie]
  · intro p c h; rw [hd] at h; cases h
  · intro p c h; rw [hd] at h; cases h
  · intro p; rw [hd]; exact List.nodup_nil
  · intro p; rw [hd]; exact List.Pairwise.nil
  · intro p w; rw [hd]; simp
  · intro p q c h; rw [hd] at h; cases h

theorem emptyTrie_built : Built (emptyTrie : Heap H) [] := by
  have hd : ∀ p : Nat, deref (emptyTrie : Heap H) p = {} := by
    intro p
    cases p with
    | zero => rfl
    | succ k => exact deref_ge _ (by simp [emptyTrie])
  constructor
  · exact emptyTrie_wf
  · intro cs h hm; cases hm
  · intro e h hh; rw [hd] at hh; cases hh
  · intro c hc; rw [hd] at hc; cases hc

theorem Built.insert_ok {hp hp1 : Heap H} {routes : List (List Bytes × H)}
    (hb : Built hp routes) {cs : List Bytes} {h : H}
    (ok : InsertOk hp 0 cs (some h) hp1) : Built hp1 (routes ++ [(cs, h)]) := by
  obtain ⟨e0, he0, hh0, hf0⟩ := ok.attached
  constructor
  · exact ok.wf
  · intro cs1 h1 hm
    rcases List.mem_append.mp hm with hm | hm
    · obtain ⟨e, he, hh⟩ := hb.attached cs1 h1 hm
      have he1 := ok.walks_kept hb.wf cs1 0 e he
      refine ⟨e, he1, ?_⟩
      by_cases hee : e = e0
      · exfalso
        subst hee
        have hcs : cs1 = cs := walk_inj ok.wf 0 cs1 cs e he1 he0
        subst hcs
        rw [ok.fresh e he] at hh
        cases hh
      · rw [hf0 e hee]; exact hh
    · simp at hm
      obtain ⟨h1a, h1b⟩ := hm
      subst h1a; subst h1b
      exact ⟨e0, he0, hh0⟩
  · intro e h1 hh
    by_cases hee : e = e0
    · subst hee
      rw [hh0] at hh
      cases hh
      exact ⟨cs, he0, by simp⟩
    · rw [hf0 e hee] at hh
      obtain ⟨cs1, hw, hm⟩ := hb.origin e h1 hh
      exact ⟨cs1, ok.walks_kept hb.wf cs1 0 e hw, List.mem_append_left _ hm⟩
  · intro c hc
    rcases ok.kids c hc with h1 | h1
    · obtain ⟨r, hr, hhead⟩ := hb.rootKids c h1
      refine ⟨r, List.mem_append_left _ hr, ?_⟩
      rw [(ok.shape c (hb.wf.child_gt 0 c h1).2).2]; exact hhead
    · exact ⟨(cs, h), by simp, h1⟩

/-- A route can be inserted into a built trie exactly when it was not inserted before, and
a failing insertion panics with the message of the source and changes nothing. -/
theorem Built.insert_cases (hsrt : SortsByKind srt) {hp : Heap H}
    {routes : List (List Bytes × H)} (hb : Built hp routes) (cs : List Bytes)
    (handler : Handler H) :
    (cs ∈ routes.map Prod.fst ∧
      node.insert srt hp 0 cs 0 handler = (hp, some "redefining route")) ∨
    (cs ∉ routes.map Prod.fst ∧ ∃ hp1, node.insert srt hp 0 cs 0 handler = (hp1, none) ∧
      InsertOk hp 0 cs handler hp1) := by
  rw [node_insert_zero]
  obtain ⟨s1, s2⟩ := insertFrom_spec srt hsrt cs hp 0 handler
    (insertFrom srt hp 0 cs handler).1 (insertFrom srt hp 0 cs handler).2 hb.wf
    hb.wf.nonempty rfl
  cases hr : (insertFrom srt hp 0 cs handler).2 with
  | some msg =>
    left
    obtain ⟨h1, h2, e, he, hh⟩ := s1 msg hr
    constructor
    · cases hx : (deref hp e).handler with
      | none => rw [hx] at hh; simp at hh
      | some x =>
        obtain ⟨cs1, hw, hm⟩ := hb.origin e x hx
        have : cs1 = cs := walk_inj hb.wf 0 cs1 cs e hw he
        subst this
        exact List.mem_map.mpr ⟨(cs1, x), hm, rfl⟩
    · subst h1
      exact Prod.ext h2 hr
  | none =>
    right
    have ok := s2 hr
    constructor
    · intro hm
      obtain ⟨⟨cs1, x⟩, hm1, hm2⟩ := List.mem_map.mp hm
      simp at hm2
      subst hm2
      obtain ⟨e, he, hh⟩ := hb.attached cs1 x hm1
      rw [ok.fresh e he] at hh
      cases hh
    · exact ⟨(insertFrom srt hp 0 cs handler).1, Prod.ext rfl hr, ok⟩

theorem insertAll_built (hsrt : SortsByKind srt) (routes : List (List Bytes × H)) :
    ∀ (routes0 : List (List Bytes × H)) (hp hp1 : Heap H), Built hp routes0 →
      insertAll srt hp routes = (hp1, none) → Built hp1 (routes0 ++ routes) := by
  induction routes with
  | nil =>
    intro routes0 hp hp1 hb h
    simp [insertAll] at h
    subst h
    simpa using hb
  | cons r rest ih =>
    intro routes0 hp hp1 hb h
    obtain ⟨cs, x⟩ := r
    unfold insertAll at h
    rcases hb.insert_cases srt hsrt cs (some x) with ⟨_, h1⟩ | ⟨_, hp2, h1, ok⟩
    · rw [h1] at h; simp at h
    · rw [h1] at h
      simp only at h
      have := ih (routes0 ++ [(cs, x)]) hp2 hp1 (hb.insert_ok ok) h
      simpa using this

theorem insertAll_ok (hsrt : SortsByKind srt) (routes : List (List Bytes × H)) :
    ∀ (routes0 : List (List Bytes × H)) (hp : Heap H), Built hp routes0 →
      ((routes0 ++ routes).map Prod.fst).Nodup →
      ∃ hp1, insertAll srt hp routes = (hp1, none) := by
  induction routes with
  | nil => intro routes0 hp _ _; exact ⟨hp, rfl⟩
  | cons r rest ih =>
    intro routes0 hp hb hnd
    obtain ⟨cs, x⟩ := r
    unfold insertAll
    rcases hb.insert_cases srt hsrt cs (some x) with ⟨hin, _⟩ | ⟨_, hp2, h1, ok⟩
    · exfalso
      rw [List.map_append, List.map_cons] at hnd
      have := (List.nodup_append.mp hnd).2.2
      exact this hin (List.mem_cons_self _ _)
    · rw [h1]
      simp only
      apply ih (routes0 ++ [(cs, x)]) hp2 (hb.insert_ok ok)
      simpa using hnd

/-- The trie built from the empty root by distinct routes: no insertion panics. -/
theorem build_ok (hsrt : SortsByKind srt) (routes : List (List Bytes × H))
    (hnd : (routes.map Prod.fst).Nodup) :
    (insertAll srt emptyTrie routes).2 = none ∧
    Built (insertAll srt emptyTrie routes).1 routes := by
  obtain ⟨hp1, h⟩ := insertAll_ok srt hsrt routes [] emptyTrie emptyTrie_built
    (by simpa using hnd)
  have := insertAll_built srt hsrt routes [] emptyTrie hp1 emptyTrie_built h
  rw [h]
  exact ⟨rfl, by simpa using this⟩

end BuiltInv

/-! ### The scan and the loop of node.lookup -/

section LookupLemmas
variable {H : Type}

theorem isStatic_iff {x : Bytes} : isStatic x = true ↔ chunkToKind x = nodeStatic := by
  cases x with
  | nil => simp [isStatic, chunkToKind]
  | cons b t => by_cases hb : b = vardec <;> simp [isStatic, chunkToKind, hb]

theorem isDynamic_iff {x : Bytes} : isDynamic x = true ↔ chunkToKind x = nodeDynamic := by
  cases x with
  | nil => simp [isDynamic, chunkToKind]
  | cons b t => by_cases hb : b = vardec <;> simp [isDynamic, chunkToKind, hb]

theorem scanChildren_cons (hp : Heap H) (alloc : Vars) (chunk : Bytes) (vars : Option Vars)
    (c : Nat) (cs : List Nat) :
    scanChildren hp alloc chunk vars (c :: cs) =
      if (deref hp c).kind = nodeStatic ∧ chunk = (deref hp c).chunk then .next c vars
      else if (deref hp c).kind = nodeDynamic then
        if (match vars with | none => alloc | some v => v).cap
            < (match vars with | none => alloc | some v => v).elems.length + 1 then
          .panic "slice bounds out of range"
        else
          match (deref hp c).chunk with
          | [] => .panic "slice bounds out of range"
          | _ :: key =>
            .next c (some { (match vars with | none => alloc | some v => v) with
              elems := (match vars with | none => alloc | some v => v).elems
                ++ [{ Key := key, Value := chunk }] })
      else if (deref hp c).kind = nodeWildcard then .next c vars
      else scanChildren hp alloc chunk vars cs := rfl

theorem lookupLoop_cons (hp : Heap H) (alloc : Vars) (cur : Nat) (wild : Option Ptr)
    (vars : Option Vars) (chunk : Bytes) (rest : List Bytes) :
    lookupLoop hp alloc cur wild vars (chunk :: rest) =
      match scanChildren hp alloc chunk vars (deref hp cur).children with
      | .next child vars1 =>
        lookupLoop hp alloc child
          (match (deref hp cur).wildcard with
            | some w => some w
            | none => wild) vars1 rest
      | .miss => .ret (match (deref hp cur).wildcard with
            | some w => some w
            | none => wild) vars
      | .panic msg => .panic msg := rfl

theorem lookupLoop_nil (hp : Heap H) (alloc : Vars) (cur : Nat) (wild : Option Ptr)
    (vars : Option Vars) :
    lookupLoop hp alloc cur wild vars [] =
      if (deref hp cur).handler.isNone then .ret wild vars else .ret (some cur) vars := rfl

/-- The scan finds the static child with the bytes of the chunk, whatever dynamic and
wildcard children the node has: the static children come first. -/
theorem scan_static_list (hp : Heap H) (alloc : Vars) (x : Bytes) (vars : Option Vars)
    (hx : chunkToKind x = nodeStatic) (c : Nat) :
    ∀ (l : List Nat), (∀ a ∈ l, kindOf hp a = chunkToKind (chunkOf hp a)) →
      l.Pairwise (fun a b => kindOf hp a ≤ kindOf hp b) →
      l.find? (fun a => decide (chunkOf hp a = x)) = some c →
      scanChildren hp alloc x vars l = .next c vars := by
  intro l
  induction l with
  | nil => intro _ _ h; cases h
  | cons a t ih =>
    intro hk hs hf
    by_cases hax : chunkOf hp a = x
    · have hac : a = c := by simpa [List.find?, hax] using hf
      subst hac
      have hka : (deref hp a).kind = nodeStatic := by
        have := hk a (List.mem_cons_self _ _)
        rw [hax, hx] at this; exact this
      have hca : (deref hp a).chunk = x := hax
      rw [scanChildren_cons]; simp [hka, hca]
    · have hf1 : t.find? (fun a => decide (chunkOf hp a = x)) = some c := by
        simpa [List.find?, hax] using hf
      have hct : c ∈ t := List.mem_of_find?_eq_some hf1
      have hcx : chunkOf hp c = x := by simpa using List.find?_some hf1
      have hkc : kindOf hp c = nodeStatic := by
        rw [hk c (List.mem_cons_of_mem _ hct), hcx, hx]
      have hle : kindOf hp a ≤ kindOf hp c := (List.pairwise_cons.mp hs).1 c hct
      have hge : nodeStatic ≤ kindOf hp a := by
        rw [hk a (List.mem_cons_self _ _)]; exact chunkToKind_pos _
      have hka : (deref hp a).kind = 1 := by
        have h1 : kindOf hp a ≤ 1 := by rw [hkc] at hle; exact hle
        have h2 : 1 ≤ kindOf hp a := hge
        exact Nat.le_antisymm h1 h2
      have hne : ¬ x = (deref hp a).chunk := fun h => hax h.symm
      rw [scanChildren_cons]
      simp only [hka, hne, and_false, if_false]
      simp only [show ¬ ((1 : Nat) = nodeDynamic) by decide,
        show ¬ ((1 : Nat) = nodeWildcard) by decide, if_false]
      exact ih (fun b hb => hk b (List.mem_cons_of_mem _ hb)) (List.pairwise_cons.mp hs).2 hf1

theorem scan_static {hp : Heap H} (hwf : WF hp) (alloc : Vars) {x : Bytes}
    (vars : Option Vars) (hx : chunkToKind x = nodeStatic) {p c : Nat}
    (hc : (deref hp p).child hp x = some c) :
    scanChildren hp alloc x vars (deref hp p).children = .next c vars :=
  scan_static_list hp alloc x vars hx c _ (fun a ha => hwf.kind_eq p a ha) (hwf.sorted p) hc

/-- Without a dynamic child and without a static child for the chunk, the scan ends in
the wildcard child. -/
theorem scan_wildcard_list (hp : Heap H) (alloc : Vars) (x : Bytes) (vars : Option Vars)
    (w : Nat) (hw : chunkOf hp w = []) :
    ∀ (l : List Nat), (∀ a ∈ l, kindOf hp a = chunkToKind (chunkOf hp a)) →
      (l.map (chunkOf hp)).Nodup → w ∈ l →
      (∀ a ∈ l, kindOf hp a ≠ nodeDynamic) →
      (∀ a ∈ l, kindOf hp a = nodeStatic → chunkOf hp a ≠ x) →
      scanChildren hp alloc x vars l = .next w vars := by
  intro l
  induction l with
  | nil => intro _ _ h; cases h
  | cons a t ih =>
    intro hk hnd hmem hdyn hst
    have hka := hk a (List.mem_cons_self _ _)
    have hda := hdyn a (List.mem_cons_self _ _)
    by_cases hs : kindOf hp a = nodeStatic
    · have hne : ¬ x = (deref hp a).chunk :=
        fun h => hst a (List.mem_cons_self _ _) hs h.symm
      have haw : a ≠ w := by
        intro h; subst h
        rw [hka, hw] at hs
        simp [chunkToKind] at hs
      have hwt : w ∈ t := by
        rcases List.mem_cons.mp hmem with h | h
        · exact absurd h.symm haw
        · exact h
      have hs1 : (deref hp a).kind = 1 := hs
      rw [scanChildren_cons]
      simp only [hs1, hne, and_false, if_false]
      simp only [show ¬ ((1 : Nat) = nodeDynamic) by decide,
        show ¬ ((1 : Nat) = nodeWildcard) by decide, if_false]
      rw [List.map_cons, List.nodup_cons] at hnd
      exact ih (fun b hb => hk b (List.mem_cons_of_mem _ hb)) hnd.2 hwt
        (fun b hb => hdyn b (List.mem_cons_of_mem _ hb))
        (fun b hb => hst b (List.mem_cons_of_mem _ hb))
    · have hwk : kindOf hp a = nodeWildcard := by
        have h1 := chunkToKind_pos (chunkOf hp a)
        rw [← hka] at h1
        cases hc : chunkOf hp a with
        | nil => rw [hka, hc]; rfl
        | cons b u =>
          exfalso
          rw [hka, hc] at hs hda
          by_cases hb : b = vardec <;> simp [chunkToKind, hb] at hs hda
      have hce : chunkOf hp a = [] := by
        rw [hka] at hwk; exact chunkToKind_eq_wildcard.mp hwk
      have haw : a = w :=
        List.inj_on_of_nodup_map hnd (List.mem_cons_self _ _) hmem (by rw [hce, hw])
      subst haw
      have hk3 : (deref hp a).kind = 3 := hwk
      rw [scanChildren_cons]
      simp only [hk3]
      simp [show ¬ ((3 : Nat) = nodeStatic) by decide,
        show ¬ ((3 : Nat) = nodeDynamic) by decide]

theorem scan_wildcard {hp : Heap H} (hwf : WF hp) (alloc : Vars) (x : Bytes)
    (vars : Option Vars) {p w : Nat} (hw : (deref hp p).wildcard = some w)
    (hdyn : ∀ a ∈ (deref hp p).children, kindOf hp a ≠ nodeDynamic)
    (hst : ∀ a ∈ (deref hp p).children, kindOf hp a = nodeStatic → chunkOf hp a ≠ x) :
    scanChildren hp alloc x vars (deref hp p).children = .next w vars := by
  have h := (hwf.wild p w).mp hw
  exact scan_wildcard_list hp alloc x vars w h.2 _ (fun a ha => hwf.kind_eq p a ha)
    (hwf.nodup p) h.1 hdyn hst

/-- The lookup follows a run of static chunks to the node that the descent reaches. -/
theorem lookupLoop_static {hp : Heap H} (hwf : WF hp) (alloc : Vars) (cs : List Bytes) :
    ∀ (cur e : Nat) (wild : Option Ptr) (vars : Option Vars) (rest : List Bytes),
      (∀ x ∈ cs, isStatic x = true) → walk hp cur cs = some e →
      lookupLoop hp alloc cur wild vars (cs ++ rest)
        = lookupLoop hp alloc e (wildAlong hp cur wild cs) vars rest := by
  induction cs with
  | nil =>
    intro cur e wild vars rest _ hw
    simp [walk] at hw
    subst hw
    rfl
  | cons c cs ih =>
    intro cur e wild vars rest hst hw
    obtain ⟨r, hr, hw1⟩ := walk_cons_inv hw
    have hc : chunkToKind c = nodeStatic := isStatic_iff.mp (hst c (List.mem_cons_self _ _))
    rw [List.cons_append, lookupLoop_cons, scan_static hwf alloc vars hc hr]
    simp only
    rw [ih r e _ vars rest (fun x hx => hst x (List.mem_cons_of_mem _ hx)) hw1]
    simp [wildAlong, hr]

theorem wildAlong_mem {hp : Heap H} (hwf : WF hp) (cs : List Bytes) :
    ∀ (cur e : Nat) (wild : Option Ptr) (x : Nat), walk hp cur cs = some e →
      wildAlong hp cur wild cs = some x →
      wild = some x ∨ ∃ q : Nat, q < e ∧ x ∈ (deref hp q).children := by
  induction cs with
  | nil => intro cur e wild x _ h; left; exact h
  | cons c cs ih =>
    intro cur e wild x hw h
    obtain ⟨r, hr, hw1⟩ := walk_cons_inv hw
    simp only [wildAlong, hr] at h
    have hlt : cur < e := by
      have h1 := (hwf.child_gt cur r (child_some hr).1).1
      have h2 := (walk_le hwf cs r e hw1).1
      omega
    rcases ih r e _ x hw1 h with h1 | h1
    · cases hwc : (deref hp cur).wildcard with
      | none => rw [hwc] at h1; left; exact h1
      | some w =>
        rw [hwc] at h1
        simp only [Option.some.injEq] at h1
        subst h1
        right
        exact ⟨cur, hlt, ((hwf.wild cur w).mp hwc).1⟩
    · right; exact h1

end LookupLemmas

/-! ### The insertion sort and the lookup of static routes -/

section SortModel

theorem pair_of_snd {α β : Type} {p : α × β} {b : β} (h : p.2 = b) : p = (p.1, b) := by
  cases p
  cases h
  rfl

theorem sortShift_perm (key : Nat → Nat) (x : Nat) :
    ∀ l : List Nat, (sortShift key x l).Perm (x :: l) := by
  intro l
  induction l with
  | nil => exact List.Perm.refl _
  | cons y ys ih =>
    unfold sortShift
    split
    · exact ((List.Perm.cons y ih).trans (List.Perm.swap x y ys))
    · exact List.Perm.refl _

theorem sortShift_desc (key : Nat → Nat) (x : Nat) :
    ∀ l : List Nat, l.Pairwise (fun a b => key b ≤ key a) →
      (sortShift key x l).Pairwise (fun a b => key b ≤ key a) := by
  intro l
  induction l with
  | nil => intro _; simp [sortShift]
  | cons y ys ih =>
    intro h
    have h1 := List.pairwise_cons.mp h
    unfold sortShift
    split
    · rename_i hlt
      refine List.pairwise_cons.mpr ⟨?_, ih h1.2⟩
      intro b hb
      rcases List.mem_cons.mp ((sortShift_perm key x ys).mem_iff.mp hb) with hbx | hby
      · subst hbx; omega
      · exact h1.1 b hby
    · rename_i hge
      refine List.pairwise_cons.mpr ⟨?_, h⟩
      intro b hb
      rcases List.mem_cons.mp hb with hby | hby
      · subst hby; omega
      · have := h1.1 b hby; omega

theorem sortFold (key : Nat → Nat) :
    ∀ (l acc : List Nat), acc.Pairwise (fun a b => key b ≤ key a) →
      (l.foldl (fun acc x => sortShift key x acc) acc).Perm (l.reverse ++ acc) ∧
      (l.foldl (fun acc x => sortShift key x acc) acc).Pairwise (fun a b => key b ≤ key a) := by
  intro l
  induction l with
  | nil => intro acc h; exact ⟨by simp, h⟩
  | cons x xs ih =>
    intro acc h
    have h1 := ih (sortShift key x acc) (sortShift_desc key x acc h)
    refine ⟨?_, h1.2⟩
    rw [List.foldl_cons, List.reverse_cons, List.append_assoc]
    exact h1.1.trans (List.Perm.append_left _ (sortShift_perm key x acc))

/-- The insertion sort meets the contract of sort.Sort. -/
theorem sortSort_sorts : SortsByKind sortSort := by
  intro key l
  obtain ⟨h1, h2⟩ := sortFold key l [] List.Pairwise.nil
  unfold sortSort
  constructor
  · refine (List.reverse_perm _).trans (h1.trans ?_)
    rw [List.append_nil]
    exact List.reverse_perm l
  · rw [List.pairwise_reverse]
    exact h2

end SortModel

section Claims
variable {H : Type}

/-- One step of the lookup into the wildcard child. -/
theorem lookupLoop_wildcard {hp : Heap H} (hwf : WF hp) (alloc : Vars) (x : Bytes)
    {p w : Nat} (wild : Option Ptr) (vars : Option Vars) (rest : List Bytes)
    (hw : (deref hp p).wildcard = some w)
    (hdyn : ∀ a ∈ (deref hp p).children, kindOf hp a ≠ nodeDynamic)
    (hst : ∀ a ∈ (deref hp p).children, kindOf hp a = nodeStatic → chunkOf hp a ≠ x) :
    lookupLoop hp alloc p wild vars (x :: rest) = lookupLoop hp alloc w (some w) vars rest := by
  rw [lookupLoop_cons, scan_wildcard hwf alloc x vars hw hdyn hst, hw]

theorem static_chunk_ne_nil {hp : Heap H} (hwf : WF hp) {p a : Nat}
    (ha : a ∈ (deref hp p).children) (hk : kindOf hp a = nodeStatic) : chunkOf hp a ≠ [] := by
  intro h
  rw [hwf.kind_eq p a ha, h] at hk
  simp [chunkToKind] at hk

theorem wildcard_of_child_nil {hp : Heap H} (hwf : WF hp) {p c : Nat}
    (hc : (deref hp p).child hp [] = some c) : (deref hp p).wildcard = some c :=
  (hwf.wild p c).mpr (child_some hc)

/-- The lookup of a route with static segments after the leading empty segment, in a trie
whose root has no dynamic child. -/
theorem lookup_static_route {hp : Heap H} (hwf : WF hp) (alloc : Vars)
    (hroot : ∀ a ∈ (deref hp 0).children, kindOf hp a ≠ nodeDynamic)
    (statics : List Bytes) (hstat : ∀ x ∈ statics, isStatic x = true)
    {e : Nat} (he : walk hp 0 ([] :: statics) = some e) (rest : List Bytes) :
    ∃ c0 : Nat, (deref hp 0).child hp [] = some c0 ∧ walk hp c0 statics = some e ∧
      lookupLoop hp alloc 0 none none ([] :: statics ++ rest)
        = lookupLoop hp alloc e (wildAlong hp c0 (some c0) statics) none rest := by
  obtain ⟨c0, hc0, hw⟩ := walk_cons_inv he
  refine ⟨c0, hc0, hw, ?_⟩
  rw [List.cons_append, lookupLoop_wildcard hwf alloc [] none none _
    (wildcard_of_child_nil hwf hc0) hroot
    (fun a ha hk => static_chunk_ne_nil hwf ha hk)]
  exact lookupLoop_static hwf alloc statics c0 e _ none rest hstat hw

theorem Built.root_no_dynamic {hp : Heap H} {routes : List (List Bytes × H)}
    (hb : Built hp routes) (hlead : ∀ r ∈ routes, r.1.head? = some []) :
    ∀ a ∈ (deref hp 0).children, kindOf hp a ≠ nodeDynamic := by
  intro a ha
  obtain ⟨r, hr, hh⟩ := hb.rootKids a ha
  rw [hlead r hr] at hh
  have : chunkOf hp a = [] := by simpa using hh.symm
  rw [hb.wf.kind_eq 0 a ha, this]
  simp [chunkToKind]

end Claims

/-! ### Leaves and kept handlers -/

section Claims2
variable {H : Type}

/-- At a node without children that carries a handler, with wild pointing at the node
itself, the lookup returns the node whatever chunks are left. -/
theorem lookupLoop_leaf {hp : Heap H} (hwf : WF hp) (alloc : Vars) {w : Nat}
    (hleaf : (deref hp w).children = []) {h : H} (hh : (deref hp w).handler = some h)
    (vars : Option Vars) (xs : List Bytes) :
    lookupLoop hp alloc w (some w) vars xs = .ret (some w) vars := by
  cases xs with
  | nil => rw [lookupLoop_nil, hh]; rfl
  | cons y ys =>
    have hwc : (deref hp w).wildcard = none := by
      cases hc : (deref hp w).wildcard with
      | none => rfl
      | some v =>
        have := ((hwf.wild w v).mp hc).1
        rw [hleaf] at this
        cases this
    rw [lookupLoop_cons, hleaf, hwc]
    rfl

theorem insertAll_built_empty (srt : (Nat → Nat) → List Nat → List Nat)
    (hsrt : SortsByKind srt) {routes : List (List Bytes × H)} {hp : Heap H}
    (h : insertAll srt emptyTrie routes = (hp, none)) : Built hp routes := by
  have := insertAll_built srt hsrt routes [] emptyTrie hp emptyTrie_built h
  simpa using this

/-- A handler that is attached stays attached to the same chunks by a later insertion. -/
theorem InsertOk.keeps {hp hp1 : Heap H} {segs : List Bytes} {handler : Handler H}
    (ok : InsertOk hp 0 segs handler hp1) (hwf : WF hp) {cs : List Bytes} {e : Nat} {h0 : H}
    (hw : walk hp 0 cs = some e) (hh : (deref hp e).handler = some h0) :
    walk hp1 0 cs = some e ∧ (deref hp1 e).handler = some h0 := by
  have hw1 := ok.walks_kept hwf cs 0 e hw
  refine ⟨hw1, ?_⟩
  obtain ⟨e0, he0, _, hf0⟩ := ok.attached
  by_cases hee : e = e0
  · exfalso
    subst hee
    have hcs : cs = segs := walk_inj ok.wf 0 cs segs e hw1 he0
    subst hcs
    rw [ok.fresh e hw] at hh
    cases hh
  · rw [hf0 e hee]; exact hh

end Claims2

/-! ### Lookup along a single pattern -/

section Chain
variable {H : Type}

theorem pushVars_cons (alloc : Vars) (vars : Option Vars) (v : Var) (caps : List Var) :
    pushVars alloc
      (some { (match vars with | none => alloc | some u => u) with
        elems := (match vars with | none => alloc | some u => u).elems ++ [v] }) caps
      = pushVars alloc vars (v :: caps) := by
  cases caps <;> cases vars <;> simp [pushVars]

theorem fits_cons {alloc : Vars} {vars : Option Vars} {v : Var} {caps : List Var}
    (h : fits alloc vars (v :: caps)) :
    ¬ ((match vars with | none => alloc | some u => u).cap
        < (match vars with | none => alloc | some u => u).elems.length + 1) ∧
    fits alloc
      (some { (match vars with | none => alloc | some u => u) with
        elems := (match vars with | none => alloc | some u => u).elems ++ [v] }) caps := by
  rcases h with h | h
  · cases h
  · cases vars with
    | none =>
      simp only [List.length_cons] at h
      refine ⟨by simp only; omega, Or.inr ?_⟩
      simp only [List.length_append, List.length_singleton]
      omega
    | some u =>
      simp only [List.length_cons] at h
      refine ⟨by simp only; omega, Or.inr ?_⟩
      simp only [List.length_append, List.length_singleton]
      omega

theorem eq_singleton_of_mem {l : List Nat} {c : Nat} (hc : c ∈ l) (hl : l.length ≤ 1) :
    l = [c] := by
  cases l with
  | nil => cases hc
  | cons a t =>
    cases t with
    | nil => simp at hc; rw [hc]
    | cons b u => simp at hl

/-- In a trie whose nodes have at most one child, the lookup of a request that agrees with
a pattern follows the pattern and captures at its dynamic segments, as long as the
captures fit into the capacity. -/
theorem lookupLoop_chain {hp : Heap H} (hwf : WF hp)
    (hone : ∀ q : Nat, (deref hp q).children.length ≤ 1) (alloc : Vars) (pat : List Bytes) :
    ∀ (reqs : List Bytes) (cur e : Nat) (wild : Option Ptr) (vars : Option Vars),
      agrees pat reqs = true → walk hp cur pat = some e →
      (deref hp e).handler.isSome = true → fits alloc vars (captures pat reqs) →
      lookupLoop hp alloc cur wild vars reqs
        = .ret (some e) (pushVars alloc vars (captures pat reqs)) := by
  induction pat with
  | nil =>
    intro reqs cur e wild vars hag hw hh _
    cases reqs with
    | cons r rs => simp [agrees] at hag
    | nil =>
      simp [walk] at hw
      subst hw
      rw [lookupLoop_nil]
      cases hx : (deref hp cur).handler with
      | none => rw [hx] at hh; simp at hh
      | some x => simp [captures, pushVars]
  | cons p ps ih =>
    intro reqs cur e wild vars hag hw hh hfit
    cases reqs with
    | nil => simp [agrees] at hag
    | cons r rs =>
      obtain ⟨c, hc, hw1⟩ := walk_cons_inv hw
      have hc1 := child_some hc
      have hkids : (deref hp cur).children = [c] := eq_singleton_of_mem hc1.1 (hone cur)
      have hkind : (deref hp c).kind = chunkToKind p := by
        have := hwf.kind_eq cur c hc1.1
        rw [hc1.2] at this; exact this
      have hchunk : (deref hp c).chunk = p := hc1.2
      simp only [agrees, Bool.and_eq_true, Bool.or_eq_true, decide_eq_true_eq] at hag
      obtain ⟨hag1, hag2⟩ := hag
      rw [lookupLoop_cons, hkids, scanChildren_cons, hkind, hchunk]
      cases p with
      | nil =>
        have hcap : captures ([] :: ps) (r :: rs) = captures ps rs := by
          simp [captures, isDynamic]
        rw [hcap] at hfit ⊢
        simp only [chunkToKind]
        simp only [show ¬ (nodeWildcard = nodeStatic) by decide,
          show ¬ (nodeWildcard = nodeDynamic) by decide, false_and, if_false, if_true]
        exact ih rs c e _ vars hag2 hw1 hh hfit
      | cons b key =>
        by_cases hb : b = vardec
        · subst hb
          have hcap : captures ((vardec :: key) :: ps) (r :: rs)
              = { Key := key, Value := r } :: captures ps rs := by
            simp [captures, isDynamic]
          rw [hcap] at hfit ⊢
          obtain ⟨hf1, hf2⟩ := fits_cons hfit
          simp only [chunkToKind, if_true]
          simp only [show ¬ (nodeDynamic = nodeStatic) by decide, false_and, if_false,
            if_true, hf1]
          rw [ih rs c e _ _ hag2 hw1 hh hf2, pushVars_cons]
        · have hcap : captures ((b :: key) :: ps) (r :: rs) = captures ps rs := by
            simp [captures, isDynamic, hb]
          rw [hcap] at hfit ⊢
          have hpr : r = b :: key := by
            rcases hag1 with h1 | h1
            · simp [isDynamic, hb] at h1
            · exact h1.symm
          simp only [chunkToKind, hb, if_false, hpr, and_self, if_true]
          exact ih rs c e _ vars hag2 hw1 hh hfit

end Chain

/-! ### Registration at the root group -/

section RouterLemmas
variable {H : Type} (srt : (Nat → Nat) → List Nat → List Nat)

theorem Handle_eq_handle (g : Group H) :
    ∀ (trees : Trees H) (m route : Bytes) (h : Handler H) (ps : List (Plugin H)),
      Group.Handle srt g trees m route h ps =
        Group.handle srt g.rootOf trees m (g.resolve route) h
          (if ps.isEmpty then [] else g.chain ++ ps) := by
  induction g with
  | root pfx gps =>
    intro trees m route h ps
    cases ps <;> simp [Group.Handle, Group.rootOf, Group.resolve, Group.chain]
  | sub prev pfx gps ih =>
    intro trees m route h ps
    cases ps with
    | nil => simp [Group.Handle, Group.rootOf, Group.resolve, ih]
    | cons p rest =>
      simp [Group.Handle, Group.rootOf, Group.resolve, Group.chain, ih]

theorem pathClean_ne_nil (p : Bytes) : pathClean p ≠ [] := by
  cases p with
  | nil => simp [pathClean]
  | cons c t =>
    simp only [pathClean]
    split <;> split <;> simp_all

theorem Reg.resolved_ne_nil (g : Group H) (reg : Reg H) : reg.resolved g ≠ [] := by
  unfold Reg.resolved pathJoin
  have hne : (if reg.route.length = 0 then [slash] else reg.route) ≠ [] := by
    split
    · simp
    · rename_i h; intro h2; rw [h2] at h; simp at h
  have hlen : ¬ (g.pfx.length + (if reg.route.length = 0 then [slash] else reg.route).length
      = 0) := by
    have := List.length_pos.mpr hne
    omega
  rw [if_neg hlen]
  split <;> exact pathClean_ne_nil _

theorem bucketHeap_set_same (trees : Trees H) {i : Nat} (hi : i < trees.length)
    (hp : Heap H) : bucketHeap (trees.set i (some hp)) i = hp := by
  simp [bucketHeap, List.getD_eq_getElem?_getD, hi]

theorem bucketHeap_set_ne (trees : Trees H) {i j : Nat} (hij : j ≠ i) (hp : Heap H) :
    bucketHeap (trees.set i (some hp)) j = bucketHeap trees j := by
  simp [bucketHeap, List.getD_eq_getElem?_getD, List.getElem?_set_ne (Ne.symm hij)]

theorem bucketRoutes_append (g : Group H) (i : Nat) (regs : List (Reg H)) (reg : Reg H) :
    bucketRoutes g i (regs ++ [reg]) =
      bucketRoutes g i regs ++
        (match reg.wrapped g with
          | some h => if hash reg.method = some i then [(reg.chunks g, h)] else []
          | none => []) := by
  unfold bucketRoutes
  rw [List.filterMap_append]
  congr 1
  cases hw : reg.wrapped g with
  | none => simp [List.filterMap, hw]
  | some h => by_cases hh : hash reg.method = some i <;> simp [List.filterMap, hh, hw]

/-- One registration at the root group keeps the invariant of the trees, when it returns
and its wrapped handler is not nil. -/
theorem handle_inv (hsrt : SortsByKind srt) {g : Group H} {trees trees1 : Trees H}
    {regs : List (Reg H)} (hinv : TreesInv g trees regs) (reg : Reg H) {h1 : H}
    (hw : reg.wrapped g = some h1)
    (hres : Group.handle srt g trees reg.method reg.route reg.handler reg.plugins
      = (trees1, none)) :
    TreesInv g trees1 (regs ++ [reg]) ∧
      ∃ i : Nat, hash reg.method = some i ∧ i < treesLen := by
  unfold Group.handle at hres
  cases hh : hash reg.method with
  | none => rw [hh] at hres; simp at hres
  | some i =>
    rw [hh] at hres
    simp only at hres
    by_cases hi : treesLen ≤ i
    · rw [if_pos hi] at hres; simp at hres
    · rw [if_neg hi] at hres
      have hw1 : compose g.plugins (compose reg.plugins reg.handler) = some h1 := hw
      rw [hw1] at hres
      have hb := hinv.built i
      rcases hb.insert_cases srt hsrt (reg.chunks g) (some h1) with ⟨_, h2⟩ | ⟨_, hp1, h2, ok⟩
      · have h3 : (node.insert srt (bucketHeap trees i) 0 (reg.chunks g) 0 (some h1)).2
            = some "redefining route" := by rw [h2]
        have h4 := congrArg Prod.snd hres
        simp only [bucketHeap, Reg.chunks, Reg.resolved] at h3
        simp only at h4
        rw [h3] at h4
        cases h4
      · have h3 : (node.insert srt (bucketHeap trees i) 0 (reg.chunks g) 0 (some h1)).1
            = hp1 := by rw [h2]
        have h4 := congrArg Prod.fst hres
        simp only [bucketHeap, Reg.chunks, Reg.resolved] at h3
        simp only at h4
        rw [h3] at h4
        subst h4
        have hlt : i < trees.length := by rw [hinv.len]; omega
        refine ⟨?_, i, rfl, by omega⟩
        constructor
        · simp [hinv.len]
        · intro j
          rw [bucketRoutes_append, hw]
          by_cases hji : j = i
          · subst hji
            rw [bucketHeap_set_same trees hlt]
            simp only [hh, if_true]
            exact hb.insert_ok ok
          · rw [bucketHeap_set_ne trees hji]
            have : ¬ (hash reg.method = some j) := by
              rw [hh]; intro h; apply hji; cases h; rfl
            simp only [this, if_false, List.append_nil]
            exact hinv.built j

theorem registerAll_inv (hsrt : SortsByKind srt) (pfx : Bytes) (gps : List (Plugin H))
    (regs : List (Reg H)) :
    ∀ (regs0 : List (Reg H)) (trees : Trees H) (r1 : Router H),
      TreesInv (.root pfx gps) trees regs0 →
      (∀ reg ∈ regs, (reg.wrapped (.root pfx gps)).isSome = true) →
      registerAll srt { group := .root pfx gps, trees := trees } regs = (r1, none) →
      r1.group = .root pfx gps ∧ TreesInv (.root pfx gps) r1.trees (regs0 ++ regs) ∧
        ∀ reg ∈ regs, ∃ i : Nat, hash reg.method = some i ∧ i < treesLen := by
  induction regs with
  | nil =>
    intro regs0 trees r1 hinv _ hres
    simp [registerAll] at hres
    subst hres
    exact ⟨rfl, by simpa using hinv, fun x hx => by cases hx⟩
  | cons reg rest ih =>
    intro regs0 trees r1 hinv hnn hres
    unfold registerAll at hres
    simp only [Group.Handle] at hres
    have hwr := hnn reg (List.mem_cons_self _ _)
    cases hw : reg.wrapped (.root pfx gps) with
    | none => rw [hw] at hwr; simp at hwr
    | some h1 =>
      cases hh : Group.handle srt (.root pfx gps) trees reg.method reg.route reg.handler
          reg.plugins with
      | mk trees1 res =>
        rw [hh] at hres
        cases res with
        | some msg => simp at hres
        | none =>
          simp only at hres
          obtain ⟨hinv1, hbucket⟩ := handle_inv srt hsrt hinv reg hw hh
          obtain ⟨g1, g2, g3⟩ := ih (regs0 ++ [reg]) trees1 r1 hinv1
            (fun x hx => hnn x (List.mem_cons_of_mem _ hx)) hres
          refine ⟨g1, by simpa using g2, ?_⟩
          intro x hx
          rcases List.mem_cons.mp hx with h | h
          · subst h; exact hbucket
          · exact g3 x h

theorem emptyTrees_inv (g : Group H) :
    TreesInv g (List.replicate treesLen (none : Option (Heap H))) [] := by
  constructor
  · simp
  · intro i
    have : bucketHeap (List.replicate treesLen (none : Option (Heap H))) i = emptyTrie := by
      unfold bucketHeap
      by_cases hi : i < treesLen
      · simp [List.getD_eq_getElem?_getD, List.getElem?_replicate, hi]
      · simp [List.getD_eq_getElem?_getD, List.getElem?_replicate, hi]
    rw [this]
    exact emptyTrie_built

/-- The trees of a new router hold the registration for OPTIONS and nothing else. -/
theorem New_inv (hsrt : SortsByKind srt) (nop : H) (pfx : Bytes) (gps : List (Plugin H))
    {h0 : H} (hw : (newReg nop).wrapped (.root pfx gps) = some h0) :
    (New srt nop pfx gps).group = .root pfx gps ∧
    TreesInv (.root pfx gps) (New srt nop pfx gps).trees [newReg nop] := by
  refine ⟨rfl, ?_⟩
  have hinv := emptyTrees_inv (Group.root pfx gps)
  cases hh : Group.handle srt (.root pfx gps) (List.replicate treesLen none)
      (bytes "OPTIONS") (bytes "/") (some nop) [] with
  | mk trees1 res =>
    have ht : (New srt nop pfx gps).trees = trees1 := by
      unfold New
      simp only
      rw [hh]
    rw [ht]
    cases res with
    | none =>
      have := (handle_inv srt hsrt hinv (newReg nop) hw hh).1
      simpa using this
    | some msg =>
      exfalso
      have hres := hh
      unfold Group.handle at hres
      have h2 : hash (bytes "OPTIONS") = some 2 := by decide
      rw [h2] at hres
      simp only at hres
      rw [if_neg (by decide)] at hres
      have hw1 : compose (Group.root pfx gps).plugins (compose [] (some nop)) = some h0 := hw
      rw [hw1] at hres
      have hb := hinv.built 2
      rcases hb.insert_cases srt hsrt ((newReg nop).chunks (.root pfx gps)) (some h0) with
        ⟨h3, _⟩ | ⟨_, hp1, h3, _⟩
      · simp [bucketRoutes] at h3
      · have h4 : (node.insert srt (bucketHeap (List.replicate treesLen none) 2) 0
            ((newReg nop).chunks (.root pfx gps)) 0 (some h0)).2 = none := by rw [h3]
        have h5 := congrArg Prod.snd hres
        simp only [bucketHeap, Reg.chunks, Reg.resolved, newReg] at h4
        simp only at h5
        rw [h4] at h5
        cases h5

theorem mem_bucketRoutes {g : Group H} {i : Nat} {regs : List (Reg H)} {cs : List Bytes}
    {h : H} : (cs, h) ∈ bucketRoutes g i regs ↔
      ∃ reg ∈ regs, reg.wrapped g = some h ∧ hash reg.method = some i ∧ reg.chunks g = cs := by
  unfold bucketRoutes
  rw [List.mem_filterMap]
  constructor
  · rintro ⟨reg, hreg, hx⟩
    refine ⟨reg, hreg, ?_⟩
    cases hw : reg.wrapped g with
    | none => rw [hw] at hx; simp at hx
    | some h2 =>
      rw [hw] at hx
      by_cases hh : hash reg.method = some i
      · simp [hh] at hx
        exact ⟨by rw [hx.2], hh, hx.1⟩
      · simp [hh] at hx
  · rintro ⟨reg, hreg, hw, hh, hc⟩
    exact ⟨reg, hreg, by simp [hw, hh, hc]⟩

theorem emptyTrie_handler (e : Nat) : (deref (emptyTrie : Heap H) e).handler = none := by
  cases e with
  | zero => rfl
  | succ k => rw [deref_ge _ (by simp [emptyTrie])]

end RouterLemmas

/-! ### Static routes (C1) -/

/-- C1: in the trie built from the empty root by inserting distinct routes that all start
with the empty leading segment, each with a non-nil handler, no insertion panics, and the
lookup of an inserted route whose other segments are all static returns the node that
the route leads to, which carries the handler of the route, and captures no variables,
whatever other routes were inserted and in whatever order. -/
theorem static_route_wins {H : Type} (srt : (Nat → Nat) → List Nat → List Nat)
    (hsrt : SortsByKind srt) (routes : List (List Bytes × H))
    (hnd : (routes.map Prod.fst).Nodup)
    (hlead : ∀ r ∈ routes, r.1.head? = some [])
    (statics : List Bytes) (h : H) (hmem : ([] :: statics, h) ∈ routes)
    (hstat : ∀ x ∈ statics, isStatic x = true) (alloc : Vars) :
    (insertAll srt emptyTrie routes).2 = none ∧
    ∃ e : Nat,
      node.lookup (insertAll srt emptyTrie routes).1 0 ([] :: statics) alloc
        = .ret (some e) none ∧
      walk (insertAll srt emptyTrie routes).1 0 ([] :: statics) = some e ∧
      (deref (insertAll srt emptyTrie routes).1 e).handler = some h := by
  obtain ⟨hok, hb⟩ := build_ok srt hsrt routes hnd
  refine ⟨hok, ?_⟩
  obtain ⟨e, he, hh⟩ := hb.attached _ h hmem
  refine ⟨e, ?_, he, hh⟩
  obtain ⟨c0, _, _, hl⟩ := lookup_static_route hb.wf alloc (hb.root_no_dynamic hlead)
    statics hstat he []
  rw [List.append_nil] at hl
  unfold node.lookup
  rw [hl, lookupLoop_nil, hh]
  rfl

/-- C1 (witness): the routes of TestLookup_Priority, inserted wildcard first, and the
static route /bob/alice. -/
theorem static_route_wins_witness :
    SortsByKind sortSort ∧ (priorityRoutes.map Prod.fst).Nodup ∧
    (∀ r ∈ priorityRoutes, r.1.head? = some []) ∧
    (insertAll sortSort emptyTrie priorityRoutes).2 = none ∧
    ∃ e : Nat,
      node.lookup (insertAll sortSort emptyTrie priorityRoutes).1 0
        ([] :: [bytes "bob", bytes "alice"]) testAlloc = .ret (some e) none ∧
      walk (insertAll sortSort emptyTrie priorityRoutes).1 0
        ([] :: [bytes "bob", bytes "alice"]) = some e ∧
      (deref (insertAll sortSort emptyTrie priorityRoutes).1 e).handler = some 0 :=
  ⟨sortSort_sorts, by decide, by decide,
    static_route_wins sortSort sortSort_sorts priorityRoutes (by decide) (by decide)
      [bytes "bob", bytes "alice"] 0 (by decide) (by decide) testAlloc⟩

/-! ### The trailing empty segment (C2) -/

/-- C2 (counterexample): two tries in which the pattern /ping/pong/ is inserted with
handler 2, the node for /ping/pong has only the wildcard child and the extra segments
start with a segment that no static child matches, and yet the lookup does not return the
node carrying handler 2.  In the first trie the wildcard node has a child of its own (the
route /ping/pong//x) and the lookup goes on into it; in the second the root has a dynamic
child (the route :v) that takes the leading empty segment. -/
theorem trailing_wildcard_counterexample :
    (insertAll sortSort emptyTrie
      ([([[], bytes "ping", bytes "pong", []], 2),
        ([[], bytes "ping", bytes "pong", [], bytes "x"], 7)] : List (List Bytes × Nat)))
      = ([{ children := [1], wildcard := some 1 },
          { kind := nodeWildcard, children := [2] },
          { kind := nodeStatic, chunk := bytes "ping", children := [3] },
          { kind := nodeStatic, chunk := bytes "pong", children := [4], wildcard := some 4 },
          { kind := nodeWildcard, children := [5], handler := some 2 },
          { kind := nodeStatic, chunk := bytes "x", handler := some 7 }], none) ∧
    node.lookup (insertAll sortSort emptyTrie
      ([([[], bytes "ping", bytes "pong", []], 2),
        ([[], bytes "ping", bytes "pong", [], bytes "x"], 7)] : List (List Bytes × Nat))).1 0
      [[], bytes "ping", bytes "pong", bytes "a", bytes "x"] testAlloc
      = .ret (some 5) none ∧
    (insertAll sortSort emptyTrie
      ([([[], bytes "ping", bytes "pong", []], 2), ([bytes ":v"], 7)]
        : List (List Bytes × Nat)))
      = ([{ children := [5, 1], wildcard := some 1 },
          { kind := nodeWildcard, children := [2] },
          { kind := nodeStatic, chunk := bytes "ping", children := [3] },
          { kind := nodeStatic, chunk := bytes "pong", children := [4], wildcard := some 4 },
          { kind := nodeWildcard, handler := some 2 },
          { kind := nodeDynamic, chunk := bytes ":v", handler := some 7 }], none) ∧
    node.lookup (insertAll sortSort emptyTrie
      ([([[], bytes "ping", bytes "pong", []], 2), ([bytes ":v"], 7)]
        : List (List Bytes × Nat))).1 0
      [[], bytes "ping", bytes "pong", bytes "a"] testAlloc
      = .ret (some 1) (some { elems := [{ Key := bytes "v", Value := [] }], cap := 10 }) := by
  decide

/-- C2 (amended): in a trie built from the empty root whose root has no dynamic child,
let the pattern P followed by an empty segment be inserted with handler h, P being the
empty leading segment followed by static segments.  If the node for P has no dynamic
child and the wildcard node under it has no children, then for every list of extra
segments whose first element is the chunk of no static child of the node for P, the
lookup of P followed by the extra segments returns the wildcard node, which carries h,
and captures nothing; and the lookup of P alone never returns that node. -/
theorem trailing_wildcard_catch_all {H : Type} (srt : (Nat → Nat) → List Nat → List Nat)
    (hsrt : SortsByKind srt) (routes : List (List Bytes × H)) (hp : Heap H)
    (hbuilt : insertAll srt emptyTrie routes = (hp, none))
    (statics : List Bytes) (hstat : ∀ x ∈ statics, isStatic x = true) (h : H)
    (hmem : (([] :: statics) ++ [[]], h) ∈ routes)
    (hroot : ∀ a ∈ (deref hp 0).children, kindOf hp a ≠ nodeDynamic)
    (p w : Nat) (hP : walk hp 0 ([] :: statics) = some p)
    (hW : walk hp 0 (([] :: statics) ++ [[]]) = some w)
    (hdyn : ∀ a ∈ (deref hp p).children, kindOf hp a ≠ nodeDynamic)
    (hleaf : (deref hp w).children = [])
    (x : Bytes) (xs : List Bytes)
    (hx : ∀ a ∈ (deref hp p).children, kindOf hp a = nodeStatic → chunkOf hp a ≠ x)
    (alloc : Vars) :
    node.lookup hp 0 (([] :: statics) ++ x :: xs) alloc = .ret (some w) none ∧
    (deref hp w).handler = some h ∧
    (∀ res vars, node.lookup hp 0 ([] :: statics) alloc = .ret res vars → res ≠ some w) := by
  have hb := insertAll_built_empty srt hsrt hbuilt
  have hwf := hb.wf
  obtain ⟨e, he, hh⟩ := hb.attached _ h hmem
  have hew : e = w := by rw [hW] at he; cases he; rfl
  subst hew
  have hpw : walk hp p [[]] = some e := by rw [← walk_append _ _ 0 p hP]; exact hW
  obtain ⟨w1, hc, hw1⟩ := walk_cons_inv hpw
  simp [walk] at hw1
  subst hw1
  have hwild : (deref hp p).wildcard = some w1 := wildcard_of_child_nil hwf hc
  have hmemw : w1 ∈ (deref hp p).children := (child_some hc).1
  refine ⟨?_, hh, ?_⟩
  · obtain ⟨c0, _, _, hl⟩ := lookup_static_route hwf alloc hroot statics hstat hP (x :: xs)
    unfold node.lookup
    rw [hl, lookupLoop_wildcard hwf alloc x _ none xs hwild hdyn hx]
    exact lookupLoop_leaf hwf alloc hleaf hh none xs
  · intro res vars hres
    obtain ⟨c0, hc0, hwk, hl⟩ := lookup_static_route hwf alloc hroot statics hstat hP []
    rw [List.append_nil] at hl
    unfold node.lookup at hres
    rw [hl, lookupLoop_nil] at hres
    have hlt : p < w1 := (hwf.child_gt p w1 hmemw).1
    have hc0gt : 0 < c0 := (hwf.child_gt 0 c0 (child_some hc0).1).1
    have hc0le : c0 ≤ p := (walk_le hwf statics c0 p hwk).1
    intro hcontra
    subst hcontra
    split at hres
    · simp only [Lookup.ret.injEq] at hres
      rcases wildAlong_mem hwf statics c0 p (some c0) w1 hwk hres.1 with h1 | ⟨q, hq, hqm⟩
      · simp only [Option.some.injEq] at h1
        subst h1
        have := hwf.parent 0 p c0 (child_some hc0).1 hmemw
        omega
      · have := hwf.parent q p w1 hqm hmemw
        omega
    · simp only [Lookup.ret.injEq, Option.some.injEq] at hres
      have h3 : (p : Nat) = w1 := hres.1
      omega

/-- C2 (witness): the trie of TestLookup_Static_Wildcard, the pattern /ping/pong/ and the
request /ping/pong/xyz; the node for /ping/pong is cell 5 and its wildcard child cell 6. -/
theorem trailing_wildcard_catch_all_witness :
    walk (insertAll sortSort emptyTrie staticWildcardRoutes).1 0
      ([] :: [bytes "ping", bytes "pong"]) = some 5 ∧
    node.lookup (insertAll sortSort emptyTrie staticWildcardRoutes).1 0
      (([] :: [bytes "ping", bytes "pong"]) ++ bytes "xyz" :: []) testAlloc
      = .ret (some 6) none ∧
    (deref (insertAll sortSort emptyTrie staticWildcardRoutes).1 6).handler = some 2 ∧
    (∀ res vars, node.lookup (insertAll sortSort emptyTrie staticWildcardRoutes).1 0
      ([] :: [bytes "ping", bytes "pong"]) testAlloc = .ret res vars → res ≠ some 6) :=
  ⟨by decide,
    trailing_wildcard_catch_all sortSort sortSort_sorts staticWildcardRoutes
      (insertAll sortSort emptyTrie staticWildcardRoutes).1 (pair_of_snd (by decide))
      [bytes "ping", bytes "pong"] (by decide) 2 (by decide) (by decide) 5 6 (by decide)
      (by decide) (by decide) (by decide) (bytes "xyz") [] (by decide) testAlloc⟩

/-! ### Dynamic segments (C3) -/

/-- C3 (counterexample): a pattern with eleven dynamic segments, inserted alone, and a
request of the same length, looked up with the alloc of the tests (capacity 10): the
eleventh capture extends the slice beyond its capacity and the lookup panics. -/
theorem dynamic_capture_overflow :
    agrees ([] :: List.replicate 11 (bytes ":a")) ([] :: List.replicate 11 (bytes "v"))
      = true ∧
    node.lookup
      (insertAll sortSort emptyTrie
        ([([] :: List.replicate 11 (bytes ":a"), 0)] : List (List Bytes × Nat))).1 0
      ([] :: List.replicate 11 (bytes "v")) testAlloc
      = .panic "slice bounds out of range" := by
  decide

/-- C3 (amended): a pattern is inserted alone into the empty trie with a non-nil handler,
and a request of the same length agrees with it at every position that is not dynamic.
If alloc returns an empty slice whose capacity holds one variable for every dynamic
segment of the pattern, the lookup returns the node of the pattern, which carries the
handler, and the variables are the pairs of name (without the colon) and request segment
of the dynamic positions, from left to right.  And in the trie built from /:foo,
/:foo/:bar and /ping/pong in that order, the lookup of /bob/alice returns the node that
carries the handler of /:foo/:bar, with foo bound to bob and bar to alice. -/
theorem dynamic_capture_alone {H : Type} (srt : (Nat → Nat) → List Nat → List Nat)
    (hsrt : SortsByKind srt) (pat : List Bytes) (h : H) (reqs : List Bytes)
    (hag : agrees pat reqs = true) (cap : Nat) (hcap : (captures pat reqs).length ≤ cap) :
    (insertAll srt emptyTrie [(pat, h)]).2 = none ∧
    (∃ (e : Nat) (vars : Option Vars),
      node.lookup (insertAll srt emptyTrie [(pat, h)]).1 0 reqs { elems := [], cap := cap }
        = .ret (some e) vars ∧
      walk (insertAll srt emptyTrie [(pat, h)]).1 0 pat = some e ∧
      (deref (insertAll srt emptyTrie [(pat, h)]).1 e).handler = some h ∧
      varsList vars = captures pat reqs) ∧
    (insertAll sortSort emptyTrie dynamicRoutes).2 = none ∧
    node.lookup (insertAll sortSort emptyTrie dynamicRoutes).1 0
      (splitSlash (bytes "/bob/alice")) testAlloc
      = .ret (some 3) (some { elems := [{ Key := bytes "foo", Value := bytes "bob" },
          { Key := bytes "bar", Value := bytes "alice" }], cap := 10 }) ∧
    (deref (insertAll sortSort emptyTrie dynamicRoutes).1 3).handler = some 1 ∧
    walk (insertAll sortSort emptyTrie dynamicRoutes).1 0 (splitSlash (bytes "/:foo/:bar"))
      = some 3 := by
  refine ⟨?_, ?_, by decide, by decide, by decide, by decide⟩
  · exact (build_ok srt hsrt [(pat, h)] (by simp)).1
  · rcases (@emptyTrie_built H).insert_cases srt hsrt pat (some h) with
      ⟨h1, _⟩ | ⟨_, hp1, h2, ok⟩
    · simp at h1
    · have heq : insertAll srt emptyTrie [(pat, h)] = (hp1, none) := by
        simp [insertAll, h2]
      rw [heq]
      simp only
      obtain ⟨e, he, hh, _⟩ := ok.attached
      have hone : ∀ q : Nat, (deref hp1 q).children.length ≤ 1 := by
        intro q
        have h0 : (deref (emptyTrie : Heap H) q).children = [] := by
          cases q with
          | zero => rfl
          | succ k => rw [deref_ge _ (by simp [emptyTrie])]
        have := ok.count q
        rw [h0] at this
        simpa using this
      refine ⟨e, pushVars { elems := [], cap := cap } none (captures pat reqs), ?_, he, hh, ?_⟩
      · unfold node.lookup
        apply lookupLoop_chain ok.wf hone _ pat reqs 0 e none none hag he (by rw [hh]; rfl)
        right
        simpa using hcap
      · cases hc : captures pat reqs <;> simp [pushVars, varsList]

/-- C3 (witness): the pattern /:foo/:bar inserted alone, the request /bob/alice and a
capacity of ten variables. -/
theorem dynamic_capture_alone_witness :
    agrees [[], bytes ":foo", bytes ":bar"] [[], bytes "bob", bytes "alice"] = true ∧
    (captures [[], bytes ":foo", bytes ":bar"] [[], bytes "bob", bytes "alice"]).length ≤ 10 ∧
    captures [[], bytes ":foo", bytes ":bar"] [[], bytes "bob", bytes "alice"]
      = [{ Key := bytes "foo", Value := bytes "bob" },
         { Key := bytes "bar", Value := bytes "alice" }] ∧
    ∃ (e : Nat) (vars : Option Vars),
      node.lookup (insertAll sortSort emptyTrie [([[], bytes ":foo", bytes ":bar"], 1)]).1 0
        [[], bytes "bob", bytes "alice"] { elems := [], cap := 10 } = .ret (some e) vars ∧
      walk (insertAll sortSort emptyTrie [([[], bytes ":foo", bytes ":bar"], 1)]).1 0
        [[], bytes ":foo", bytes ":bar"] = some e ∧
      (deref (insertAll sortSort emptyTrie [([[], bytes ":foo", bytes ":bar"], 1)]).1 e).handler
        = some 1 ∧
      varsList vars = captures [[], bytes ":foo", bytes ":bar"] [[], bytes "bob", bytes "alice"] :=
  ⟨by decide, by decide, by decide,
    (dynamic_capture_alone sortSort sortSort_sorts [[], bytes ":foo", bytes ":bar"] 1
      [[], bytes "bob", bytes "alice"] (by decide) 10 (by decide)).2.1⟩

/-! ### Duplicate routes (C4) -/

/-- C4: in a trie built from the empty root by insertions with non-nil handlers, an
insertion at the root panics with the message redefining route exactly when the same
sequence of segments was inserted before; no other panic occurs; a panicking insertion
leaves the trie as it was; and after an insertion that returns, the new handler is
attached to the segments, and every handler that was attached before is attached to the
same node, reached by the same segments. -/
theorem insert_duplicate_iff {H : Type} (srt : (Nat → Nat) → List Nat → List Nat)
    (hsrt : SortsByKind srt) (routes : List (List Bytes × H)) (hp : Heap H)
    (hbuilt : insertAll srt emptyTrie routes = (hp, none))
    (segs : List Bytes) (handler : Handler H) :
    ((node.insert srt hp 0 segs 0 handler).2 = some "redefining route"
      ↔ segs ∈ routes.map Prod.fst) ∧
    (∀ msg, (node.insert srt hp 0 segs 0 handler).2 = some msg →
      msg = "redefining route" ∧ (node.insert srt hp 0 segs 0 handler).1 = hp) ∧
    ((node.insert srt hp 0 segs 0 handler).2 = none →
      (∃ e : Nat, walk (node.insert srt hp 0 segs 0 handler).1 0 segs = some e ∧
        (deref (node.insert srt hp 0 segs 0 handler).1 e).handler = handler) ∧
      ∀ (cs : List Bytes) (e : Nat) (h0 : H), walk hp 0 cs = some e →
        (deref hp e).handler = some h0 →
        walk (node.insert srt hp 0 segs 0 handler).1 0 cs = some e ∧
        (deref (node.insert srt hp 0 segs 0 handler).1 e).handler = some h0) ∧
    (∀ (cs : List Bytes) (h0 : H), (cs, h0) ∈ routes →
      ∃ e : Nat, walk hp 0 cs = some e ∧ (deref hp e).handler = some h0) := by
  have hb := insertAll_built_empty srt hsrt hbuilt
  refine ⟨?_, ?_, ?_, hb.attached⟩
  · rcases hb.insert_cases srt hsrt segs handler with ⟨h1, h2⟩ | ⟨h1, hp1, h2, _⟩
    · rw [h2]; simp [h1]
    · rw [h2]
      constructor
      · intro h; cases h
      · intro h; exact absurd h h1
  · intro msg hm
    rcases hb.insert_cases srt hsrt segs handler with ⟨_, h2⟩ | ⟨_, hp1, h2, _⟩
    · rw [h2] at hm ⊢
      simp only [Option.some.injEq] at hm
      exact ⟨hm.symm, rfl⟩
    · rw [h2] at hm; cases hm
  · intro hnone
    rcases hb.insert_cases srt hsrt segs handler with ⟨_, h2⟩ | ⟨_, hp1, h2, ok⟩
    · rw [h2] at hnone; cases hnone
    · rw [h2]
      simp only
      obtain ⟨e0, he0, hh0, _⟩ := ok.attached
      exact ⟨⟨e0, he0, hh0⟩, fun cs e h0 hw hh => ok.keeps hb.wf hw hh⟩

/-- C4 (witness): in the trie of TestLookup_Static_Wildcard, inserting /foo again panics
and leaves the trie as it was. -/
theorem insert_duplicate_iff_witness :
    (node.insert sortSort (insertAll sortSort emptyTrie staticWildcardRoutes).1 0
      (splitSlash (bytes "/foo")) 0 (some 9)).2 = some "redefining route" ∧
    (node.insert sortSort (insertAll sortSort emptyTrie staticWildcardRoutes).1 0
      (splitSlash (bytes "/foo")) 0 (some 9)).1
      = (insertAll sortSort emptyTrie staticWildcardRoutes).1 :=
  ⟨(insert_duplicate_iff sortSort sortSort_sorts staticWildcardRoutes
      (insertAll sortSort emptyTrie staticWildcardRoutes).1 (pair_of_snd (by decide))
      (splitSlash (bytes "/foo")) (some 9)).1.mpr (by decide),
    ((insert_duplicate_iff sortSort sortSort_sorts staticWildcardRoutes
      (insertAll sortSort emptyTrie staticWildcardRoutes).1 (pair_of_snd (by decide))
      (splitSlash (bytes "/foo")) (some 9)).2.1 "redefining route" (by decide)).2⟩

/-! ### The middleware chain of a group (C5) -/

/-- C5 (the code at the failing input): a call of Group.Handle on any group reaches
Group.handle of the root with the resolved route; with a non-empty list of call-site
plugins the root receives the plugins of the derived groups, from the outermost group to
the innermost, followed by the call-site plugins, but with an empty call-site list it
receives the empty list, so the plugins of the derived groups are dropped.  In the
Example, with the call-site wrapper 3 the request prints 1, 2, 3, 0, 30, 20, 10; without
call-site plugins the same registration prints 1, 0, 10: the wrapper 2 of the group does
not run. -/
theorem Handle_group_plugins {H : Type} (srt : (Nat → Nat) → List Nat → List Nat)
    (g : Group H) (trees : Trees H) (m route : Bytes) (h : Handler H) :
    (∀ (p : Plugin H) (ps : List (Plugin H)),
      Group.Handle srt g trees m route h (p :: ps)
        = Group.handle srt g.rootOf trees m (g.resolve route) h (g.chain ++ p :: ps)) ∧
    Group.Handle srt g trees m route h []
      = Group.handle srt g.rootOf trees m (g.resolve route) h [] ∧
    Router.ServeHTTP
      { exampleRouter with
        trees := (Group.Handle sortSort exampleGroup exampleRouter.trees (bytes "GET")
          (bytes "/foo") (some [0]) [newTestWrapper 3]).1 }
      (getRequest "/r/g/foo") = .serve [1, 2, 3, 0, 30, 20, 10] none ∧
    Router.ServeHTTP
      { exampleRouter with
        trees := (Group.Handle sortSort exampleGroup exampleRouter.trees (bytes "GET")
          (bytes "/foo") (some [0]) []).1 }
      (getRequest "/r/g/foo") = .serve [1, 0, 10] none := by
  refine ⟨?_, ?_, by decide, by decide⟩
  · intro p ps
    rw [Handle_eq_handle]
    rfl
  · rw [Handle_eq_handle]
    rfl

/-! ### End-to-end dispatch (C6) -/

/-- C6 (counterexample): on a router made by Default, a request whose path equals a
registered pattern with static segments only is answered with not-found, first when the
pattern has a dot segment (it is inserted in its cleaned form /a/b), and second when a
dynamic pattern without a leading slash is registered for the same method (the dynamic
child of the root takes the leading empty segment of every request). -/
theorem static_dispatch_counterexample :
    (registerAll sortSort (Default sortSort 99 []) [getReg "/a/./b" 5]).2 = none ∧
    Router.ServeHTTP (registerAll sortSort (Default sortSort 99 []) [getReg "/a/./b" 5]).1
      (getRequest "/a/./b") = .notFound ∧
    (registerAll sortSort (Default sortSort 99 [])
      [getReg ":x" 7, getReg "/ping/pong" 3]).2 = none ∧
    Router.ServeHTTP (registerAll sortSort (Default sortSort 99 [])
      [getReg ":x" 7, getReg "/ping/pong" 3]).1
      (getRequest "/ping/pong") = .notFound := by
  decide

/-- C6 (amended): on the router of TestRouter (Default, then GET /, /:foo, /:foo/:bar and
/ping/pong in that order) the request GET /ping/pong calls the handler of /ping/pong and
captures nothing.  More generally, on a router made by New on which every registration at
the root group returned with a non-nil wrapped handler, a request whose path is the
resolved path of a registration (the prefix of the router joined with the pattern, as
path.Join cleans it), for its method, calls the wrapped handler of that registration and
captures nothing, when the resolved path consists of static segments after the leading
slash and every registration of the same bucket resolves to a path that starts with a
slash, whatever dynamic patterns are registered. -/
theorem static_pattern_dispatch {H : Type} (srt : (Nat → Nat) → List Nat → List Nat)
    (hsrt : SortsByKind srt) (nop : H) (pfx : Bytes) (gps : List (Plugin H))
    (regs : List (Reg H)) (r : Router H)
    (hreg : registerAll srt (New srt nop pfx gps) regs = (r, none))
    (hnn : ∀ x ∈ newReg nop :: regs, (x.wrapped (.root pfx gps)).isSome = true)
    (reg : Reg H) (hmem : reg ∈ regs) (h1 : H) (hw : reg.wrapped (.root pfx gps) = some h1)
    (statics : List Bytes) (hch : reg.chunks (.root pfx gps) = [] :: statics)
    (hstat : ∀ x ∈ statics, isStatic x = true)
    (hlead : ∀ x ∈ newReg nop :: regs, hash x.method = hash reg.method →
      (x.chunks (.root pfx gps)).head? = some [])
    (req : Request) (huri : req.RequestURI ≠ bytes "*")
    (hpath : req.Path = reg.resolved (.root pfx gps)) (hm : req.Method = reg.method) :
    r.ServeHTTP req = .serve h1 none ∧
    (registerAll sortSort (Default sortSort 99 []) testRouterRegs).2 = none ∧
    Router.ServeHTTP (registerAll sortSort (Default sortSort 99 []) testRouterRegs).1
      (getRequest "/ping/pong") = .serve 3 none := by
  refine ⟨?_, by decide, by decide⟩
  have hnop := hnn (newReg nop) (List.mem_cons_self _ _)
  cases hw0 : (newReg nop).wrapped (.root pfx gps) with
  | none => rw [hw0] at hnop; simp at hnop
  | some h0 =>
    obtain ⟨hg0, hinv0⟩ := New_inv srt hsrt nop pfx gps hw0
    have hN : New srt nop pfx gps
        = { group := .root pfx gps, trees := (New srt nop pfx gps).trees } := rfl
    rw [hN] at hreg
    obtain ⟨_, hinv, hbuckets⟩ := registerAll_inv srt hsrt pfx gps regs [newReg nop] _ r hinv0
      (fun x hx => hnn x (List.mem_cons_of_mem _ hx)) hreg
    obtain ⟨i, hi, hlt⟩ := hbuckets reg hmem
    have hb := hinv.built i
    have hroute : ([] :: statics, h1) ∈ bucketRoutes (.root pfx gps) i ([newReg nop] ++ regs) :=
      mem_bucketRoutes.mpr ⟨reg, List.mem_append_right _ hmem, hw, hi, hch⟩
    have hlead1 : ∀ rt ∈ bucketRoutes (.root pfx gps) i ([newReg nop] ++ regs),
        rt.1.head? = some [] := by
      rintro ⟨cs, hx⟩ hrt
      obtain ⟨x, hxm, _, hxh, hxc⟩ := mem_bucketRoutes.mp hrt
      rw [← hxc]
      exact hlead x (by simpa using hxm) (by rw [hxh, hi])
    obtain ⟨e, he, hh⟩ := hb.attached _ h1 hroute
    obtain ⟨c0, _, _, hl⟩ := lookup_static_route hb.wf routerAlloc (hb.root_no_dynamic hlead1)
      statics hstat he []
    rw [List.append_nil] at hl
    have hlook : node.lookup (bucketHeap r.trees i) 0 ([] :: statics) routerAlloc
        = .ret (some e) none := by
      unfold node.lookup
      rw [hl, lookupLoop_nil, hh]
      rfl
    have hne := reg.resolved_ne_nil (.root pfx gps)
    have hplen : ¬ (req.Path.length = 0) := by
      rw [hpath]
      intro h
      exact hne (List.length_eq_zero.mp h)
    have hparse : unsafeParse req.Path [] = [] :: statics := by
      rw [hpath]; exact hch
    unfold Router.ServeHTTP
    rw [if_neg huri, hm, hi]
    simp only
    rw [if_neg (by omega), if_neg hplen, hparse]
    cases ht : r.trees.getD i none with
    | none =>
      exfalso
      have : bucketHeap r.trees i = emptyTrie := by unfold bucketHeap; rw [ht]
      rw [this, emptyTrie_handler] at hh
      cases hh
    | some hp =>
      have : bucketHeap r.trees i = hp := by unfold bucketHeap; rw [ht]
      rw [this] at hlook hh
      simp only
      rw [hlook]
      simp only
      rw [hh]

/-- C6 (witness): the router of TestRouter and the registration of /ping/pong. -/
theorem static_pattern_dispatch_witness :
    (registerAll sortSort (New sortSort 99 [] []) testRouterRegs).2 = none ∧
    (getReg "/ping/pong" 3).chunks (.root [] []) = [] :: [bytes "ping", bytes "pong"] ∧
    Router.ServeHTTP (registerAll sortSort (New sortSort 99 [] []) testRouterRegs).1
      (getRequest "/ping/pong") = .serve 3 none :=
  ⟨by decide, by decide,
    (static_pattern_dispatch sortSort sortSort_sorts 99 [] [] testRouterRegs
      (registerAll sortSort (New sortSort 99 [] []) testRouterRegs).1
      (pair_of_snd (by decide)) (by decide) (getReg "/ping/pong" 3)
      (List.mem_cons_of_mem _ (List.mem_cons_of_mem _ (List.mem_cons_of_mem _
        (List.mem_cons_self _ _)))) 3 (by decide) [bytes "ping", bytes "pong"] (by decide)
      (by decide) (by decide) (getRequest "/ping/pong") (by decide) (by decide)
      (by decide)).1⟩


/-! ### The loop of bind -/

section BindLoop

theorem tagOpt_append_mark (k : Bytes) : tagOpt (k ++ [optMark]) = true := by
  simp [tagOpt]

theorem tagKey_append_mark (k : Bytes) : tagKey (k ++ [optMark]) = k := by
  simp [tagKey, tagOpt_append_mark]

theorem tagKey_of_not_opt {k : Bytes} (h : tagOpt k = false) : tagKey k = k := by
  simp [tagKey, h]

theorem bindFields_cons (lib : Lib) (values : Values) (tag : Bytes) (f : Field) (v : Val)
    (rest : List (Field × Val)) :
    bindFields lib values tag ((f, v) :: rest) =
      match (bindField lib values tag f v).2 with
      | some stop => ((f, (bindField lib values tag f v).1) :: rest, some stop)
      | none =>
        ((f, (bindField lib values tag f v).1) :: (bindFields lib values tag rest).1,
          (bindFields lib values tag rest).2) := by
  rw [bindFields]
  rcases h : bindField lib values tag f v with ⟨v1, _ | stop⟩ <;> simp

/-- The loop over a record that is split in two: when the loop over the front goes through,
the loop over the back follows; when it stops, the back is left as it is. -/
theorem bindFields_append (lib : Lib) (values : Values) (tag : Bytes)
    (pre rest : List (Field × Val)) :
    bindFields lib values tag (pre ++ rest) =
      match (bindFields lib values tag pre).2 with
      | some stop => ((bindFields lib values tag pre).1 ++ rest, some stop)
      | none =>
        ((bindFields lib values tag pre).1 ++ (bindFields lib values tag rest).1,
          (bindFields lib values tag rest).2) := by
  induction pre with
  | nil => simp [bindFields]
  | cons fv pre ih =>
    obtain ⟨f, v⟩ := fv
    rw [List.cons_append, bindFields_cons, bindFields_cons]
    cases h1 : (bindField lib values tag f v).2 with
    | some stop => simp
    | none =>
      simp only
      rw [ih]
      cases h2 : (bindFields lib values tag pre).2 <;> simp

theorem bindFields_length (lib : Lib) (values : Values) (tag : Bytes)
    (l : List (Field × Val)) : (bindFields lib values tag l).1.length = l.length := by
  induction l with
  | nil => simp [bindFields]
  | cons fv l ih =>
    obtain ⟨f, v⟩ := fv
    rw [bindFields_cons]
    cases (bindField lib values tag f v).2 <;> simp [ih]

/-- The field at a position of a record after the loop: when the loop over the fields in
front of it goes through, it has the value that the body leaves for it; else it has its
old value. -/
theorem bindFields_at (lib : Lib) (values : Values) (tag : Bytes)
    (pre post : List (Field × Val)) (f : Field) (v : Val) :
    (bindFields lib values tag (pre ++ (f, v) :: post)).1[pre.length]? =
      match (bindFields lib values tag pre).2 with
      | some _ => some (f, v)
      | none => some (f, (bindField lib values tag f v).1) := by
  have hlen := bindFields_length lib values tag pre
  rw [bindFields_append]
  cases h : (bindFields lib values tag pre).2 with
  | some stop =>
    simp only
    rw [← hlen, List.getElem?_append_right (Nat.le_refl _)]
    simp
  | none =>
    simp only
    rw [← hlen, List.getElem?_append_right (Nat.le_refl _), bindFields_cons]
    cases (bindField lib values tag f v).2 <;> simp

/-- How the loop over a record ends when the loop over the fields in front of a field goes
through and the body stops at the field. -/
theorem bindFields_stop (lib : Lib) (values : Values) (tag : Bytes)
    (pre post : List (Field × Val)) (f : Field) (v : Val) (stop : Stop)
    (hpre : (bindFields lib values tag pre).2 = none)
    (hf : (bindField lib values tag f v).2 = some stop) :
    (bindFields lib values tag (pre ++ (f, v) :: post)).2 = some stop := by
  rw [bindFields_append, hpre]
  simp only
  rw [bindFields_cons, hf]

end BindLoop

/-! ### The body of the loop of bind -/

section BindBody

theorem bindField_present (lib : Lib) (values : Values) (tag : Bytes) (f : Field) (v : Val)
    (hset : f.canSet = true) (hkey : f.tag tag ≠ []) (vals : List Bytes)
    (hvals : values (tagKey (f.tag tag)) = some vals) :
    bindField lib values tag f v = bindValue lib f vals v := by
  have hlen : ¬ ((f.tag tag).length = 0) := fun h => hkey (List.length_eq_zero.mp h)
  simp [bindField, hset, hlen, hvals]

theorem bindField_missing (lib : Lib) (values : Values) (tag : Bytes) (f : Field) (v : Val)
    (hset : f.canSet = true) (hkey : f.tag tag ≠ []) (hopt : tagOpt (f.tag tag) = false)
    (hvals : values (f.tag tag) = none) :
    bindField lib values tag f v =
      (v, some (.err (.text (bytes "missing field: " ++ f.tag tag)))) := by
  have hlen : ¬ ((f.tag tag).length = 0) := fun h => hkey (List.length_eq_zero.mp h)
  simp [bindField, hset, hlen, tagKey_of_not_opt hopt, hvals, hopt]

theorem bindField_optional_absent (lib : Lib) (values : Values) (tag : Bytes) (f : Field)
    (v : Val) (hopt : tagOpt (f.tag tag) = true) (hvals : values (tagKey (f.tag tag)) = none) :
    bindField lib values tag f v = (v, none) := by
  unfold bindField
  split
  · rfl
  · split
    · rfl
    · simp [hvals, hopt]

theorem bindValue_parse (lib : Lib) (f : Field) (v : Val) (parse : Parse)
    (hp : f.ty.parse = some parse) (s : Bytes) (rest : List Bytes) :
    bindValue lib f (s :: rest) v = ((parse v s).1, (parse v s).2.map Stop.err) := by
  unfold bindValue
  rw [hp]
  simp only
  rcases h : parse v s with ⟨v1, _ | e⟩ <;> simp

theorem setElems_ok (lib : Lib) (elem : Ty) (vals : List Bytes)
    (h : ∀ t ∈ vals, (set lib elem t elem.zero).2 = none) :
    setElems lib elem vals = (vals.map (fun t => (set lib elem t elem.zero).1), none) := by
  induction vals with
  | nil => rfl
  | cons s rest ih =>
    have h1 := h s (List.mem_cons_self _ _)
    have h2 := ih (fun t ht => h t (List.mem_cons_of_mem _ ht))
    rw [setElems, h2]
    rcases h3 : set lib elem s elem.zero with ⟨x, _ | e⟩
    · simp [h3]
    · rw [h3] at h1; cases h1

theorem setElems_err (lib : Lib) (elem : Ty) (pre : List Bytes) (t : Bytes) (post : List Bytes)
    (e : GoError) (h : ∀ u ∈ pre, (set lib elem u elem.zero).2 = none)
    (ht : (set lib elem t elem.zero).2 = some e) :
    (setElems lib elem (pre ++ t :: post)).2 = some e := by
  induction pre with
  | nil =>
    rw [List.nil_append, setElems]
    rcases h3 : set lib elem t elem.zero with ⟨x, _ | e1⟩
    · rw [h3] at ht; cases ht
    · rw [h3] at ht
      simp only [Option.some.injEq] at ht
      subst ht
      rfl
  | cons s rest ih =>
    have h1 := h s (List.mem_cons_self _ _)
    have h2 := ih (fun u hu => h u (List.mem_cons_of_mem _ hu))
    rw [List.cons_append, setElems]
    rcases h3 : set lib elem s elem.zero with ⟨x, _ | e1⟩
    · simp only
      rcases h4 : setElems lib elem (rest ++ t :: post) with ⟨xs, _ | e2⟩
      · rw [h4] at h2; cases h2
      · rw [h4] at h2
        simp only [Option.some.injEq] at h2
        subst h2
        rfl
    · rw [h3] at h1; cases h1

theorem bindValue_slice (lib : Lib) (f : Field) (v : Val) (elem : Ty)
    (hty : f.ty = .slice elem none) (s : Bytes) (rest : List Bytes) :
    bindValue lib f (s :: rest) v =
      match setElems lib elem (s :: rest) with
      | (_, some err) => (v, some (.err err))
      | (xs, none) => (.slice xs, none) := by
  unfold bindValue
  rw [hty]
  rfl

end BindBody

/-! ### The optional marker (C12) -/

/-- C12: a field whose tag is a key k followed by the question mark is looked up under k.
When k is not a key of the map, the body of the loop reports no error for the field and
leaves its value as it was, and after bind the field still has the value it had before,
however bind ends.  When k is a key of the map, the field is bound like a required
field: the body does what it does for a field with the same type, settable or not like
this one, and a tag without the marker whose key has the same values; for a field that
can be set this is the binding of the values of k. -/
theorem optional_field (lib : Lib) (values : Values) (tag : Bytes) (f : Field) (v : Val)
    (k : Bytes) (htag : f.tag tag = k ++ [optMark]) :
    tagKey (f.tag tag) = k ∧
    (values k = none →
      bindField lib values tag f v = (v, none) ∧
      ∀ pre post : List (Field × Val),
        (bindFields lib values tag (pre ++ (f, v) :: post)).1[pre.length]? = some (f, v)) ∧
    (∀ vals : List Bytes, values k = some vals →
      (f.canSet = true → bindField lib values tag f v = bindValue lib f vals v) ∧
      ∀ (g : Field) (values1 : Values), g.ty = f.ty → g.canSet = f.canSet → g.tag tag ≠ [] →
        tagOpt (g.tag tag) = false → values1 (g.tag tag) = some vals →
        bindField lib values1 tag g v = bindField lib values tag f v) := by
  have hk : tagKey (f.tag tag) = k := by rw [htag, tagKey_append_mark]
  have ho : tagOpt (f.tag tag) = true := by rw [htag, tagOpt_append_mark]
  refine ⟨hk, ?_, ?_⟩
  · intro hnone
    have hb := bindField_optional_absent lib values tag f v ho (by rw [hk]; exact hnone)
    refine ⟨hb, ?_⟩
    intro pre post
    rw [bindFields_at, hb]
    cases (bindFields lib values tag pre).2 <;> rfl
  · intro vals hvals
    have hne : f.tag tag ≠ [] := by rw [htag]; simp
    refine ⟨fun hset =>
      bindField_present lib values tag f v hset hne vals (by rw [hk]; exact hvals), ?_⟩
    intro g values1 hty hgset hgkey hgopt hgvals
    cases hset : f.canSet with
    | false =>
      rw [hset] at hgset
      simp [bindField, hset, hgset]
    | true =>
      rw [hset] at hgset
      rw [bindField_present lib values1 tag g v hgset hgkey vals
        (by rw [tagKey_of_not_opt hgopt]; exact hgvals),
        bindField_present lib values tag f v hset hne vals (by rw [hk]; exact hvals)]
      unfold bindValue
      rw [hty]

/-- C12 (witness): the field Age of structOptional, with the tag age followed by the
marker, bound from the empty map. -/
theorem optional_field_witness :
    bindField testLib (mkValues []) (bytes "form") (mkField "Age" "form" "age?" tyString)
      (.str []) = (.str [], none) :=
  ((optional_field testLib (mkValues []) (bytes "form") (mkField "Age" "form" "age?" tyString)
    (.str []) (bytes "age") (by decide)).2.1 (by decide)).1

/-! ### Types with a method Parse (C13) -/

/-- C13: a field that can be set, carries a tag and whose type has the method Parse, and
whose key is in the map with at least one value, is converted by the call of Parse on
the first value and by nothing else, whatever the kind of the type is: the value of the
field after the body is the value that Parse leaves, and the body stops with the error of
Parse, unchanged, when Parse returns one.  When the loop over the fields in front of the
field goes through, bind leaves the field with the value that Parse leaves and returns
the error of Parse.  So a field of the type Duration (an int64) or IP (a slice of bytes)
is converted by the method Parse of the type. -/
theorem parseable_field (lib : Lib) (values : Values) (tag : Bytes) (f : Field) (v : Val)
    (parse : Parse) (hp : f.ty.parse = some parse) (hset : f.canSet = true)
    (hkey : f.tag tag ≠ []) (s : Bytes) (rest : List Bytes)
    (hvals : values (tagKey (f.tag tag)) = some (s :: rest)) :
    bindField lib values tag f v = ((parse v s).1, (parse v s).2.map Stop.err) ∧
    (∀ pre post : List (Field × Val), (bindFields lib values tag pre).2 = none →
      (bindFields lib values tag (pre ++ (f, v) :: post)).1[pre.length]?
        = some (f, (parse v s).1) ∧
      ∀ e, (parse v s).2 = some e →
        (bindFields lib values tag (pre ++ (f, v) :: post)).2 = some (.err e)) ∧
    (f.ty = tyDuration lib → parse = Duration.Parse lib) ∧
    (f.ty = tyIP lib → parse = IP.Parse lib) ∧
    (f.ty = tyTime lib → parse = Time.Parse lib) := by
  have hb : bindField lib values tag f v = ((parse v s).1, (parse v s).2.map Stop.err) := by
    rw [bindField_present lib values tag f v hset hkey _ hvals,
      bindValue_parse lib f v parse hp]
  refine ⟨hb, ?_, ?_, ?_, ?_⟩
  · intro pre post hpre
    constructor
    · rw [bindFields_at, hpre, hb]
    · intro e he
      apply bindFields_stop lib values tag pre post f v _ hpre
      rw [hb, he]
      rfl
  · intro hty
    rw [hty] at hp
    simp only [tyDuration, Ty.parse, Option.some.injEq] at hp
    exact hp.symm
  · intro hty
    rw [hty] at hp
    simp only [tyIP, Ty.parse, Option.some.injEq] at hp
    exact hp.symm
  · intro hty
    rw [hty] at hp
    simp only [tyTime, Ty.parse, Option.some.injEq] at hp
    exact hp.symm

/-- C13 (witness): a field of the type Duration bound from the text 1s holds one second,
in nanoseconds. -/
theorem parseable_field_witness :
    bindField testLib (mkValues [(bytes "d", [bytes "1s"])]) (bytes "query")
      (mkField "D" "query" "d" (tyDuration testLib)) (.int 0)
      = (.int 1000000000, none) :=
  (parseable_field testLib (mkValues [(bytes "d", [bytes "1s"])]) (bytes "query")
    (mkField "D" "query" "d" (tyDuration testLib)) (.int 0) (Duration.Parse testLib) rfl rfl
    (by decide) (bytes "1s") [] rfl).1

/-! ### Slice fields (C15) -/

/-- C15: a field that can be set, carries a tag and has a slice type without the method
Parse is bound from the values of its key, one or more.  When every value converts into
a new element of the element type, the field holds after the body, in place of what it
held, as many elements as there are values, element j being the conversion of value j;
when the loop over the fields in front goes through, this is the value of the field
after bind.  When a value fails to convert and the values before it convert, the body
stops with the error of that value and the field keeps its value; when the loop over the
fields in front goes through, bind returns that error and leaves the field as it was. -/
theorem slice_field (lib : Lib) (values : Values) (tag : Bytes) (f : Field) (v : Val)
    (elem : Ty) (hty : f.ty = .slice elem none) (hset : f.canSet = true)
    (hkey : f.tag tag ≠ []) (s : Bytes) (rest : List Bytes)
    (hvals : values (tagKey (f.tag tag)) = some (s :: rest)) :
    ((∀ t ∈ s :: rest, (set lib elem t elem.zero).2 = none) →
      bindField lib values tag f v
        = (.slice ((s :: rest).map (fun t => (set lib elem t elem.zero).1)), none) ∧
      ((s :: rest).map (fun t => (set lib elem t elem.zero).1)).length = (s :: rest).length ∧
      ∀ pre post : List (Field × Val), (bindFields lib values tag pre).2 = none →
        (bindFields lib values tag (pre ++ (f, v) :: post)).1[pre.length]?
          = some (f, .slice ((s :: rest).map (fun t => (set lib elem t elem.zero).1)))) ∧
    (∀ (front : List Bytes) (t : Bytes) (back : List Bytes) (e : GoError),
      s :: rest = front ++ t :: back →
      (∀ u ∈ front, (set lib elem u elem.zero).2 = none) →
      (set lib elem t elem.zero).2 = some e →
      bindField lib values tag f v = (v, some (.err e)) ∧
      ∀ pre post : List (Field × Val), (bindFields lib values tag pre).2 = none →
        (bindFields lib values tag (pre ++ (f, v) :: post)).2 = some (.err e) ∧
        (bindFields lib values tag (pre ++ (f, v) :: post)).1[pre.length]? = some (f, v)) := by
  have hb := bindField_present lib values tag f v hset hkey _ hvals
  rw [bindValue_slice lib f v elem hty] at hb
  constructor
  · intro hall
    rw [setElems_ok lib elem (s :: rest) hall] at hb
    refine ⟨hb, by simp, ?_⟩
    intro pre post hpre
    rw [bindFields_at, hpre, hb]
  · intro front t back e hsplit hfront ht
    have herr := setElems_err lib elem front t back e hfront ht
    rw [← hsplit] at herr
    have hb2 : bindField lib values tag f v = (v, some (.err e)) := by
      rw [hb]
      rcases h : setElems lib elem (s :: rest) with ⟨xs, _ | e1⟩
      · rw [h] at herr; cases herr
      · rw [h] at herr
        simp only [Option.some.injEq] at herr
        subst herr
        rfl
    refine ⟨hb2, ?_⟩
    intro pre post hpre
    constructor
    · apply bindFields_stop lib values tag pre post f v _ hpre
      rw [hb2]
    · rw [bindFields_at, hpre, hb2]

/-- C15 (witness): the field SliceI64 of TestBind, a slice of int64 bound from the three
values 142, 242 and 342. -/
theorem slice_field_witness :
    bindField testLib (mkValues [(bytes "slice_i64", [bytes "142", bytes "242", bytes "342"])])
      (bytes "query") (mkField "SliceI64" "query" "slice_i64" (.slice tyInt64 none))
      (.slice [.int 7])
      = (.slice [.int 142, .int 242, .int 342], none) :=
  ((slice_field testLib
    (mkValues [(bytes "slice_i64", [bytes "142", bytes "242", bytes "342"])])
    (bytes "query") (mkField "SliceI64" "query" "slice_i64" (.slice tyInt64 none))
    (.slice [.int 7]) tyInt64 rfl rfl (by decide) (bytes "142") [bytes "242", bytes "342"]
    rfl).1 (by decide)).1

/-! ### The parsers of strconv against decimal text -/

section Decimal

theorem decimalAcc_ge : ∀ (s : Bytes) (n m : Nat), decimalAcc s n = some m → n ≤ m := by
  intro s
  induction s with
  | nil =>
    intro n m h
    simp only [decimalAcc, Option.some.injEq] at h
    omega
  | cons c rest ih =>
    intro n m h
    rw [decimalAcc] at h
    cases hd : digit c with
    | none => rw [hd] at h; cases h
    | some d =>
      rw [hd] at h
      have := ih _ _ h
      omega

theorem parseUintLoop_ok (mx : Nat) : ∀ (s : Bytes) (n m : Nat), n ≤ mx →
    (parseUintLoop mx s n = some (some m) ↔ decimalAcc s n = some m ∧ m ≤ mx) := by
  intro s
  induction s with
  | nil =>
    intro n m hn
    simp only [parseUintLoop, decimalAcc, Option.some.injEq]
    constructor
    · intro h; subst h; exact ⟨rfl, hn⟩
    · intro h; exact h.1
  | cons c rest ih =>
    intro n m hn
    rw [parseUintLoop, decimalAcc]
    cases hd : digit c with
    | none => simp
    | some d =>
      simp only
      by_cases hlt : mx < n * 10 + d
      · rw [if_pos hlt]
        constructor
        · intro h; cases h
        · intro h
          have := decimalAcc_ge _ _ _ h.1
          omega
      · rw [if_neg hlt]
        exact ih _ _ (by omega)

theorem ParseUint_ok (lib : Lib) (s : Bytes) (bits n : Nat) :
    ParseUint lib s bits = .ok n ↔ decimalValue s = some n ∧ n < 2 ^ bitsOf lib bits := by
  have hpos : 0 < 2 ^ bitsOf lib bits := Nat.pos_of_ne_zero (by positivity)
  unfold ParseUint decimalValue
  by_cases hs : s = []
  · simp [hs]
  · rw [if_neg hs, if_neg hs]
    have key := parseUintLoop_ok (2 ^ bitsOf lib bits - 1) s 0 n (Nat.zero_le _)
    cases hl : parseUintLoop (2 ^ bitsOf lib bits - 1) s 0 with
    | none =>
      rw [hl] at key
      simp only [reduceCtorEq, false_iff] at key ⊢
      intro h
      exact key ⟨h.1, by omega⟩
    | some r =>
      cases r with
      | none =>
        rw [hl] at key
        simp only [Option.some.injEq, reduceCtorEq, false_iff] at key ⊢
        intro h
        exact key ⟨h.1, by omega⟩
      | some k =>
        rw [hl] at key
        simp only [Option.some.injEq, Except.ok.injEq] at key ⊢
        rw [key]
        constructor
        · intro h; exact ⟨h.1, by omega⟩
        · intro h; exact ⟨h.1, by omega⟩

theorem ParseUint_error (lib : Lib) (s : Bytes) (bits : Nat)
    (h : ¬ validUint (bitsOf lib bits) s) : ∃ e, ParseUint lib s bits = .error e := by
  cases hp : ParseUint lib s bits with
  | error e => exact ⟨e, rfl⟩
  | ok n => exact absurd ⟨n, (ParseUint_ok lib s bits n).mp hp⟩ h

end Decimal

section DecimalInt

theorem parseInt_core (M K : Nat) (hK : K ≤ M) (hK0 : 0 < K) (neg : Bool) (s1 : Bytes)
    (e1 e2 e3 : GoError) (i : Int) :
    (if s1 = [] then (Except.error e1 : Except GoError Int)
      else
        match parseUintLoop M s1 0 with
        | none => .error e2
        | some none => .error e3
        | some (some un) =>
          if neg = false ∧ K ≤ un then .error e3
          else if neg = true ∧ K < un then .error e3
          else .ok (if neg then - (un : Int) else (un : Int))) = .ok i ↔
      (decimalValue s1).map (fun (n : Nat) => if neg then - (n : Int) else (n : Int)) = some i ∧
        - (K : Int) ≤ i ∧ i < (K : Int) := by
  unfold decimalValue
  by_cases hs : s1 = []
  · simp [hs]
  · rw [if_neg hs, if_neg hs]
    have key := fun m => parseUintLoop_ok M s1 0 m (Nat.zero_le _)
    cases hl : parseUintLoop M s1 0 with
    | none =>
      simp only [reduceCtorEq, false_iff, Option.map_eq_some', not_and, not_lt]
      rintro ⟨m, hm, rfl⟩ hlo
      have hk := key m
      rw [hl] at hk
      simp only [reduceCtorEq, false_iff, not_and, not_le] at hk
      have := hk hm
      cases neg <;> simp at hlo ⊢ <;> omega
    | some r =>
      cases r with
      | none =>
        simp only [reduceCtorEq, false_iff, Option.map_eq_some', not_and, not_lt]
        rintro ⟨m, hm, rfl⟩ hlo
        have hk := key m
        rw [hl] at hk
        simp only [Option.some.injEq, reduceCtorEq, false_iff, not_and, not_le] at hk
        have := hk hm
        cases neg <;> simp at hlo ⊢ <;> omega
      | some un =>
        have hk := (key un).mp hl
        rw [hk.1]
        simp only [Option.map_some', Option.some.injEq]
        cases neg
        · by_cases h1 : K ≤ un
          · simp only [h1, and_self, if_true, reduceCtorEq, Bool.false_eq_true, if_false,
              false_iff, not_and, not_lt]
            rintro rfl -
            omega
          · simp only [h1, and_false, Bool.false_eq_true, false_and, if_false,
              Except.ok.injEq]
            constructor
            · rintro rfl
              exact ⟨rfl, by omega, by omega⟩
            · intro h; exact h.1
        · by_cases h1 : K < un
          · simp only [h1, Bool.true_eq_false, false_and, if_false, and_self, if_true,
              reduceCtorEq, false_iff, not_and, not_lt]
            rintro rfl h2
            omega
          · simp only [h1, Bool.true_eq_false, false_and, if_false, and_false, if_true,
              Except.ok.injEq]
            constructor
            · rintro rfl
              exact ⟨rfl, by omega, by omega⟩
            · intro h; exact h.1

theorem ParseInt_ok (lib : Lib) (s : Bytes) (bits : Nat) (hb : 0 < bitsOf lib bits) (i : Int) :
    ParseInt lib s bits = .ok i ↔
      intValue s = some i ∧ - (2 ^ (bitsOf lib bits - 1) : Int) ≤ i ∧
        i < (2 ^ (bitsOf lib bits - 1) : Int) := by
  have hK : 2 ^ (bitsOf lib bits - 1) ≤ 2 ^ bitsOf lib bits - 1 := by
    obtain ⟨b, hb1⟩ : ∃ b, bitsOf lib bits = b + 1 := ⟨bitsOf lib bits - 1, by omega⟩
    rw [hb1, Nat.add_sub_cancel, pow_succ]
    have : 0 < 2 ^ b := Nat.pos_of_ne_zero (by positivity)
    omega
  have hcast : (2 ^ (bitsOf lib bits - 1) : Int) = ((2 ^ (bitsOf lib bits - 1) : Nat) : Int) := by
    push_cast
    rfl
  rw [hcast]
  cases s with
  | nil => simp [ParseInt, intValue]
  | cons c t =>
    have core := fun neg s1 => parseInt_core (2 ^ bitsOf lib bits - 1)
      (2 ^ (bitsOf lib bits - 1)) hK (Nat.pos_of_ne_zero (by positivity)) neg s1 (syntaxError "ParseInt" (c :: t))
      (syntaxError "ParseInt" (c :: t)) (rangeError "ParseInt" (c :: t)) i
    by_cases h45 : c = 45
    · have h := core true t
      simp only [ParseInt, intValue, h45, or_true, if_true] at h ⊢
      simpa using h
    · by_cases h43 : c = 43
      · have h := core false t
        simp only [ParseInt, intValue, h43, or_false, if_true, if_false] at h ⊢
        simpa using h
      · have h := core false (c :: t)
        simp only [ParseInt, intValue, h45, h43, or_false, if_false] at h ⊢
        simpa [h45] using h

theorem ParseInt_error (lib : Lib) (s : Bytes) (bits : Nat) (hb : 0 < bitsOf lib bits)
    (h : ¬ validInt (bitsOf lib bits) s) : ∃ e, ParseInt lib s bits = .error e := by
  cases hp : ParseInt lib s bits with
  | error e => exact ⟨e, rfl⟩
  | ok i => exact absurd ⟨i, (ParseInt_ok lib s bits hb i).mp hp⟩ h

end DecimalInt

/-! ### Empty text and invalid text (C16) -/

section SetNumbers

theorem setInt_nonempty (lib : Lib) (s : Bytes) (bits : Nat) (v : Val) (hs : s ≠ []) :
    setInt lib s bits v =
      match ParseInt lib s bits with
      | .ok i64 => (.int i64, none)
      | .error err => (v, some err) := by
  have hlen : ¬ (s.length = 0) := fun h => hs (List.length_eq_zero.mp h)
  unfold setInt
  rw [if_neg hlen]

theorem setUint_nonempty (lib : Lib) (s : Bytes) (bits : Nat) (v : Val) (hs : s ≠ []) :
    setUint lib s bits v =
      match ParseUint lib s bits with
      | .ok u64 => (.uint u64, none)
      | .error err => (v, some err) := by
  have hlen : ¬ (s.length = 0) := fun h => hs (List.length_eq_zero.mp h)
  unfold setUint
  rw [if_neg hlen]

theorem ParseInt_zero (lib : Lib) (bits : Nat) : ParseInt lib (bytes "0") bits = .ok 0 := by
  have h : bytes "0" = [48] := by decide
  rw [h]
  simp [ParseInt, parseUintLoop, digit]

theorem ParseUint_zero (lib : Lib) (bits : Nat) : ParseUint lib (bytes "0") bits = .ok 0 := by
  have h : bytes "0" = [48] := by decide
  rw [h]
  simp [ParseUint, parseUintLoop, digit]

theorem setInt_empty (lib : Lib) (bits : Nat) (v : Val) :
    setInt lib [] bits v = (.int 0, none) := by
  simp only [setInt, List.length_nil, if_true, ParseInt_zero]

theorem setUint_empty (lib : Lib) (bits : Nat) (v : Val) :
    setUint lib [] bits v = (.uint 0, none) := by
  simp only [setUint, List.length_nil, if_true, ParseUint_zero]

theorem bitsOf_pos (lib : Lib) (hsize : 0 < lib.intSize) (bits : Nat) : 0 < bitsOf lib bits := by
  unfold bitsOf
  split <;> omega

theorem setBool_nonempty (s : Bytes) (v : Val) (hs : s ≠ []) :
    setBool s v =
      match ParseBool s with
      | .ok b => (.bool b, none)
      | .error err => (v, some err) := by
  have hlen : ¬ (s.length = 0) := fun h => hs (List.length_eq_zero.mp h)
  unfold setBool
  rw [if_neg hlen]

theorem setFloat_nonempty (lib : Lib) (s : Bytes) (bits : Nat) (v : Val) (hs : s ≠ []) :
    setFloat lib s bits v =
      match lib.parseFloat s bits with
      | .ok f64 => (.float f64, none)
      | .error err => (v, some err) := by
  have hlen : ¬ (s.length = 0) := fun h => hs (List.length_eq_zero.mp h)
  unfold setFloat
  rw [if_neg hlen]

theorem ParseBool_error (s : Bytes) (hbad : s ∉ boolTexts) :
    ParseBool s = .error (syntaxError "ParseBool" s) := by
  simp only [boolTexts, List.mem_cons, List.mem_singleton, List.not_mem_nil, or_false,
    not_or] at hbad
  obtain ⟨h1, h2, h3, h4, h5, h6, h7, h8, h9, h10, h11, h12⟩ := hbad
  unfold ParseBool
  rw [if_neg (by simp [h1, h2, h3, h4, h5, h6]), if_neg (by simp [h7, h8, h9, h10, h11, h12])]

end SetNumbers

/-- C16: the empty string converts to zero.  For each kind of signed and of unsigned
integer, of any bit width, for the kind bool and, a library whose ParseFloat reads 0.0
as zero given, for the two kinds of floats, set on the empty string returns no error and
stores the zero value, whatever the destination held.  For every non-empty string that
is not decimal text in the range of the bit width of the kind, set on a signed or an
unsigned integer returns the error of the parser (strconv.ParseInt or strconv.ParseUint
fails on the string, and set returns that very error) and leaves the destination as it
was.  For the kind bool, every non-empty string that is none of the texts of
strconv.ParseBool gives the syntax error of ParseBool and leaves the destination as it
was, and a text that ParseBool reads is stored as its value.  For the two kinds of
floats, with the bit width 32 or 64 of the kind, every non-empty string on which
strconv.ParseFloat fails gives that very error and leaves the destination as it was,
and a string that ParseFloat reads is stored as its value.  The size of int is
positive. -/
theorem empty_converts_to_zero (lib : Lib) (hsize : 0 < lib.intSize) (z v : Val)
    (p : Option Parse) :
    (∀ kb ∈ signedKinds, set lib (.base kb.1 z p) [] v = (.int 0, none)) ∧
    (∀ kb ∈ unsignedKinds, set lib (.base kb.1 z p) [] v = (.uint 0, none)) ∧
    set lib (.base .bool z p) [] v = (.bool false, none) ∧
    (lib.parseFloat (bytes "0.0") 32 = .ok 0 →
      set lib (.base .float32 z p) [] v = (.float 0, none)) ∧
    (lib.parseFloat (bytes "0.0") 64 = .ok 0 →
      set lib (.base .float64 z p) [] v = (.float 0, none)) ∧
    (∀ kb ∈ signedKinds, ∀ s : Bytes, s ≠ [] → ¬ validInt (bitsOf lib kb.2) s →
      ∃ e, ParseInt lib s kb.2 = .error e ∧ set lib (.base kb.1 z p) s v = (v, some e)) ∧
    (∀ kb ∈ unsignedKinds, ∀ s : Bytes, s ≠ [] → ¬ validUint (bitsOf lib kb.2) s →
      ∃ e, ParseUint lib s kb.2 = .error e ∧ set lib (.base kb.1 z p) s v = (v, some e)) ∧
    (∀ s : Bytes, s ≠ [] → s ∉ boolTexts →
      ParseBool s = .error (syntaxError "ParseBool" s) ∧
      set lib (.base .bool z p) s v = (v, some (syntaxError "ParseBool" s))) ∧
    (∀ (s : Bytes) (e : GoError), s ≠ [] → ParseBool s = .error e →
      set lib (.base .bool z p) s v = (v, some e)) ∧
    (∀ (s : Bytes) (b : Bool), s ≠ [] → ParseBool s = .ok b →
      set lib (.base .bool z p) s v = (.bool b, none)) ∧
    (∀ (s : Bytes) (e : GoError), s ≠ [] → lib.parseFloat s 32 = .error e →
      set lib (.base .float32 z p) s v = (v, some e)) ∧
    (∀ (s : Bytes) (e : GoError), s ≠ [] → lib.parseFloat s 64 = .error e →
      set lib (.base .float64 z p) s v = (v, some e)) ∧
    (∀ (s : Bytes) (x : Nat), s ≠ [] → lib.parseFloat s 32 = .ok x →
      set lib (.base .float32 z p) s v = (.float x, none)) ∧
    (∀ (s : Bytes) (x : Nat), s ≠ [] → lib.parseFloat s 64 = .ok x →
      set lib (.base .float64 z p) s v = (.float x, none)) := by
  refine ⟨?_, ?_, ?_, ?_, ?_, ?_, ?_, ?_, ?_, ?_, ?_, ?_, ?_, ?_⟩
  · intro kb hkb
    simp only [signedKinds, List.mem_cons, List.mem_singleton, List.not_mem_nil,
      or_false] at hkb
    rcases hkb with rfl | rfl | rfl | rfl | rfl <;> simp only [set, setInt_empty]
  · intro kb hkb
    simp only [unsignedKinds, List.mem_cons, List.mem_singleton, List.not_mem_nil,
      or_false] at hkb
    rcases hkb with rfl | rfl | rfl | rfl | rfl <;> simp only [set, setUint_empty]
  · rfl
  · intro h
    simp only [set, setFloat, List.length_nil, if_true, h]
  · intro h
    simp only [set, setFloat, List.length_nil, if_true, h]
  · intro kb hkb s hs hbad
    obtain ⟨e, he⟩ := ParseInt_error lib s kb.2 (bitsOf_pos lib hsize _) hbad
    refine ⟨e, he, ?_⟩
    have hset : set lib (.base kb.1 z p) s v = setInt lib s kb.2 v := by
      simp only [signedKinds, List.mem_cons, List.mem_singleton, List.not_mem_nil,
        or_false] at hkb
      rcases hkb with rfl | rfl | rfl | rfl | rfl <;> rfl
    rw [hset, setInt_nonempty lib s kb.2 v hs, he]
  · intro kb hkb s hs hbad
    obtain ⟨e, he⟩ := ParseUint_error lib s kb.2 hbad
    refine ⟨e, he, ?_⟩
    have hset : set lib (.base kb.1 z p) s v = setUint lib s kb.2 v := by
      simp only [unsignedKinds, List.mem_cons, List.mem_singleton, List.not_mem_nil,
        or_false] at hkb
      rcases hkb with rfl | rfl | rfl | rfl | rfl <;> rfl
    rw [hset, setUint_nonempty lib s kb.2 v hs, he]
  · intro s hs hbad
    have he := ParseBool_error s hbad
    refine ⟨he, ?_⟩
    have hset : set lib (.base .bool z p) s v = setBool s v := rfl
    rw [hset, setBool_nonempty s v hs, he]
  · intro s e hs he
    have hset : set lib (.base .bool z p) s v = setBool s v := rfl
    rw [hset, setBool_nonempty s v hs, he]
  · intro s b hs hb
    have hset : set lib (.base .bool z p) s v = setBool s v := rfl
    rw [hset, setBool_nonempty s v hs, hb]
  · intro s e hs he
    have hset : set lib (.base .float32 z p) s v = setFloat lib s 32 v := rfl
    rw [hset, setFloat_nonempty lib s 32 v hs, he]
  · intro s e hs he
    have hset : set lib (.base .float64 z p) s v = setFloat lib s 64 v := rfl
    rw [hset, setFloat_nonempty lib s 64 v hs, he]
  · intro s x hs hx
    have hset : set lib (.base .float32 z p) s v = setFloat lib s 32 v := rfl
    rw [hset, setFloat_nonempty lib s 32 v hs, hx]
  · intro s x hs hx
    have hset : set lib (.base .float64 z p) s v = setFloat lib s 64 v := rfl
    rw [hset, setFloat_nonempty lib s 64 v hs, hx]

/-- C16 (witness): over the value 5, set of the kind int8 on the empty string stores 0
and on the text 300, which is out of the range of eight bits, returns the range error of
ParseInt and keeps the 5; set of the kind float32 on the empty string stores the zero of
the floats and on a text that ParseFloat refuses returns its error and keeps the value;
set of the kind bool on the empty string stores false, on the text yes returns the
syntax error of ParseBool and keeps the value, and on the text true stores true. -/
theorem empty_converts_to_zero_witness :
    set testLib (.base .int8 (.int 0) none) [] (.int 5) = (.int 0, none) ∧
    (∃ e, ParseInt testLib (bytes "300") 8 = .error e ∧
      set testLib (.base .int8 (.int 0) none) (bytes "300") (.int 5) = (.int 5, some e)) ∧
    set testLib (.base .float32 (.float 0) none) [] (.float 7) = (.float 0, none) ∧
    set testLib (.base .float32 (.float 0) none) (bytes "x") (.float 7)
      = (.float 7, some (.lib 1)) ∧
    set testLib (.base .bool (.bool false) none) [] (.bool true) = (.bool false, none) ∧
    set testLib (.base .bool (.bool false) none) (bytes "yes") (.bool true)
      = (.bool true, some (syntaxError "ParseBool" (bytes "yes"))) ∧
    set testLib (.base .bool (.bool false) none) (bytes "true") (.bool false)
      = (.bool true, none) :=
  ⟨(empty_converts_to_zero testLib (by decide) (.int 0) (.int 5) none).1 (.int8, 8)
      (by decide),
    (empty_converts_to_zero testLib (by decide) (.int 0) (.int 5) none).2.2.2.2.2.1
      (.int8, 8) (by decide) (bytes "300") (by decide) (by
        rintro ⟨i, hi, -, hlt⟩
        have h300 : i = 300 := by
          have hv : intValue (bytes "300") = some 300 := by decide
          rw [hv] at hi
          exact (Option.some.inj hi).symm
        subst h300
        revert hlt
        decide),
    (empty_converts_to_zero testLib (by decide) (.float 0) (.float 7) none).2.2.2.1 rfl,
    (empty_converts_to_zero testLib (by decide) (.float 0) (.float 7) none).2.2.2.2.2.2.2.2.2.2.1
      (bytes "x") (.lib 1) (by decide) rfl,
    (empty_converts_to_zero testLib (by decide) (.bool false) (.bool true) none).2.2.1,
    ((empty_converts_to_zero testLib (by decide) (.bool false) (.bool true) none).2.2.2.2.2.2.2.1
      (bytes "yes") (by decide) (by decide)).2,
    (empty_converts_to_zero testLib (by decide) (.bool false) (.bool false)
      none).2.2.2.2.2.2.2.2.2.1 (bytes "true") true (by decide) rfl⟩

/-! ### Running bind twice (C17) -/

section BindTwice

theorem setInt_idem (lib : Lib) (s : Bytes) (bits : Nat) (v : Val) :
    setInt lib s bits (setInt lib s bits v).1 = setInt lib s bits v := by
  unfold setInt
  cases ParseInt lib (if s.length = 0 then bytes "0" else s) bits <;> rfl

theorem setUint_idem (lib : Lib) (s : Bytes) (bits : Nat) (v : Val) :
    setUint lib s bits (setUint lib s bits v).1 = setUint lib s bits v := by
  unfold setUint
  cases ParseUint lib (if s.length = 0 then bytes "0" else s) bits <;> rfl

theorem setFloat_idem (lib : Lib) (s : Bytes) (bits : Nat) (v : Val) :
    setFloat lib s bits (setFloat lib s bits v).1 = setFloat lib s bits v := by
  unfold setFloat
  cases lib.parseFloat (if s.length = 0 then bytes "0.0" else s) bits <;> rfl

theorem setBool_idem (s : Bytes) (v : Val) :
    setBool s (setBool s v).1 = setBool s v := by
  unfold setBool
  cases ParseBool (if s.length = 0 then bytes "false" else s) <;> rfl

theorem setCustom_idem (ty : Ty) (h : ∀ q, ty.parse = some q → Parse.Idem q) (s : Bytes)
    (v : Val) : setCustom ty s (setCustom ty s v).1 = setCustom ty s v := by
  unfold setCustom
  cases hp : ty.parse with
  | none => rfl
  | some q => exact h q hp v s

theorem set_idem (lib : Lib) (ty : Ty) : ty.Idem → ∀ (s : Bytes) (v : Val),
    set lib ty s (set lib ty s v).1 = set lib ty s v := by
  induction ty with
  | base k z p =>
    intro h s v
    cases k <;> simp only [set, setInt_idem, setUint_idem, setFloat_idem, setBool_idem]
    exact setCustom_idem (.base .other z p) h s v
  | ptr elem ih =>
    intro h s v
    simp only [set]
    rw [ih h]
  | slice elem p _ =>
    intro h s v
    simp only [set]
    exact setCustom_idem (.slice elem p) h.2 s v

theorem Ty.Idem.parse {ty : Ty} (h : ty.Idem) : ∀ q, ty.parse = some q → Parse.Idem q := by
  cases ty with
  | base k z p => exact h
  | ptr elem => intro q hq; cases hq
  | slice elem p => exact h.2

theorem bindValue_idem (lib : Lib) (f : Field) (h : f.ty.Idem) (vals : List Bytes) (v : Val) :
    bindValue lib f vals (bindValue lib f vals v).1 = bindValue lib f vals v := by
  cases hp : f.ty.parse with
  | some q =>
    cases vals with
    | nil => simp only [bindValue, hp]
    | cons s rest =>
      rw [bindValue_parse lib f _ q hp, bindValue_parse lib f _ q hp, h.parse q hp v s]
  | none =>
    cases vals with
    | nil =>
      unfold bindValue
      rw [hp]
      cases f.ty <;> rfl
    | cons s rest =>
      cases hty : f.ty with
      | slice elem p =>
        have hpn : p = none := by rw [hty] at hp; exact hp
        subst hpn
        rw [bindValue_slice lib f _ elem hty, bindValue_slice lib f _ elem hty]
        rcases setElems lib elem (s :: rest) with ⟨xs, _ | e⟩ <;> rfl
      | base k z p =>
        have hs := set_idem lib f.ty h s v
        rw [hty] at hs hp
        unfold bindValue
        rw [hty]
        simp only [hp]
        rcases h1 : set lib (Ty.base k z p) s v with ⟨v1, _ | e⟩
        · rw [h1] at hs
          simp only [hs]
        · rw [h1] at hs
          simp only [hs]
      | ptr elem =>
        have hs := set_idem lib f.ty h s v
        rw [hty] at hs hp
        unfold bindValue
        rw [hty]
        simp only [hp]
        rcases h1 : set lib (Ty.ptr elem) s v with ⟨v1, _ | e⟩
        · rw [h1] at hs
          simp only [hs]
        · rw [h1] at hs
          simp only [hs]

theorem bindField_idem (lib : Lib) (values : Values) (tag : Bytes) (f : Field) (h : f.ty.Idem)
    (v : Val) :
    bindField lib values tag f (bindField lib values tag f v).1 = bindField lib values tag f v := by
  cases hset : f.canSet with
  | false => simp [bindField, hset]
  | true =>
    by_cases h2 : (f.tag tag).length = 0
    · simp [bindField, h2]
    · cases hv : values (tagKey (f.tag tag)) with
      | none =>
        by_cases h3 : tagOpt (f.tag tag) = false
        · simp [bindField, hset, h2, hv, h3]
        · simp [bindField, hset, h2, hv, h3]
      | some vals =>
        have hne : f.tag tag ≠ [] := fun h0 => h2 (by rw [h0]; rfl)
        rw [bindField_present lib values tag f v hset hne vals hv,
          bindField_present lib values tag f _ hset hne vals hv]
        exact bindValue_idem lib f h vals v

theorem bindFields_idem (lib : Lib) (values : Values) (tag : Bytes) :
    ∀ fields : List (Field × Val), (∀ fv ∈ fields, fv.1.ty.Idem) →
      bindFields lib values tag (bindFields lib values tag fields).1
        = bindFields lib values tag fields := by
  intro fields
  induction fields with
  | nil => intro _; rfl
  | cons fv rest ih =>
    obtain ⟨f, v⟩ := fv
    intro h
    have hf := bindField_idem lib values tag f (h (f, v) (List.mem_cons_self _ _)) v
    have hr := ih (fun fv hfv => h fv (List.mem_cons_of_mem _ hfv))
    rw [bindFields_cons]
    rcases h1 : bindField lib values tag f v with ⟨v1, _ | stop⟩
    · rw [h1] at hf
      simp only
      rw [bindFields_cons, hf]
      simp only
      rw [hr]
    · rw [h1] at hf
      simp only
      rw [bindFields_cons, hf]

theorem bindFields_fst_map (lib : Lib) (values : Values) (tag : Bytes) :
    ∀ fields : List (Field × Val),
      (bindFields lib values tag fields).1.map Prod.fst = fields.map Prod.fst := by
  intro fields
  induction fields with
  | nil => rfl
  | cons fv rest ih =>
    obtain ⟨f, v⟩ := fv
    rw [bindFields_cons]
    rcases bindField lib values tag f v with ⟨v1, _ | stop⟩
    · simp only [List.map_cons, ih]
    · rfl

theorem timeParse_idem (lib : Lib) : (Time.Parse lib).Idem := by
  intro v s
  unfold Time.Parse
  cases lib.timeParse s <;> rfl

theorem durationParse_idem (lib : Lib) : (Duration.Parse lib).Idem := by
  intro v s
  unfold Duration.Parse
  cases lib.parseDuration s <;> rfl

theorem builtin_ty_idem {lib : Lib} {ty : Ty} (h : Ty.Builtin lib ty) : ty.Idem := by
  induction h with
  | basic k z hk => intro q hq; cases hq
  | time =>
    intro q hq
    simp only [Option.some.injEq] at hq
    subst hq
    exact timeParse_idem lib
  | duration =>
    intro q hq
    simp only [Option.some.injEq] at hq
    subst hq
    exact durationParse_idem lib
  | ip =>
    refine ⟨fun q hq => (by cases hq), ?_⟩
    intro q hq
    simp only [Option.some.injEq] at hq
    subst hq
    intro v s
    rfl
  | ptr elem _ ih => exact ih
  | slice elem _ ih => exact ⟨ih, fun q hq => (by cases hq)⟩

theorem bind_twice (lib : Lib) (d : Dest) (values : Values) (tag : Bytes) (h : d.Idem) :
    bind lib (bind lib d values tag).1 values tag = bind lib d values tag := by
  cases d with
  | nil => rfl
  | notPtr => rfl
  | ptrOther => rfl
  | nilPtrStruct fields => cases fields <;> rfl
  | ptrStruct fields =>
    simp only [bind]
    rw [bindFields_idem lib values tag fields h]

theorem builtin_dest_idem {lib : Lib} {d : Dest} (h : d.Builtin lib) : d.Idem := by
  cases d with
  | ptrStruct fields => exact fun fv hfv => builtin_ty_idem (h fv hfv)
  | nil => trivial
  | notPtr => trivial
  | ptrOther => trivial
  | nilPtrStruct fields => trivial

end BindTwice

/-- C17: bind is idempotent on destinations of the built-in kinds.  For every destination
whose fields have types made of the integers, booleans, floats and strings, the types
Time, Duration and IP, and pointers to and slices of these, and for every map and name
of a tag, bind run on what a first run of bind left leaves the same destination and
returns the same result as the first run.  A slice field does not grow across the runs:
bound a second time from N values that all convert, it holds N elements. -/
theorem bind_idempotent (lib : Lib) (d : Dest) (values : Values) (tag : Bytes)
    (h : d.Builtin lib) :
    bind lib (bind lib d values tag).1 values tag = bind lib d values tag ∧
    ∀ (f : Field) (v : Val) (elem : Ty) (s : Bytes) (rest : List Bytes),
      f.ty = .slice elem none → f.canSet = true → f.tag tag ≠ [] →
      values (tagKey (f.tag tag)) = some (s :: rest) →
      (∀ t ∈ s :: rest, (set lib elem t elem.zero).2 = none) →
      ∃ xs, (bindField lib values tag f (bindField lib values tag f v).1).1 = .slice xs ∧
        xs.length = (s :: rest).length := by
  refine ⟨bind_twice lib d values tag (builtin_dest_idem h), ?_⟩
  intro f v elem s rest hty hset hkey hvals hall
  refine ⟨(s :: rest).map (fun t => (set lib elem t elem.zero).1), ?_, by simp⟩
  rw [bindField_present lib values tag f _ hset hkey _ hvals,
    bindValue_slice lib f _ elem hty, setElems_ok lib elem (s :: rest) hall]

/-- C17 (witness): a struct with the field SliceI64 of TestBind, bound twice from three
values. -/
theorem bind_idempotent_witness :
    bind testLib (bind testLib structSliceI64 valuesSliceI64 (bytes "query")).1
        valuesSliceI64 (bytes "query")
      = bind testLib structSliceI64 valuesSliceI64 (bytes "query") :=
  (bind_idempotent testLib structSliceI64 valuesSliceI64 (bytes "query")
    (fun fv hfv => by
      simp only [List.mem_singleton] at hfv
      subst hfv
      exact .slice _ (.basic _ _ (by decide)))).1

/-! ### A required field that is missing (C11) -/

section Missing

theorem bindFields_missing (lib : Lib) (values : Values) (tag : Bytes)
    (pre post : List (Field × Val)) (f : Field) (v : Val)
    (hpre : (bindFields lib values tag pre).2 = none) (hset : f.canSet = true)
    (hkey : f.tag tag ≠ []) (hopt : tagOpt (f.tag tag) = false)
    (hvals : values (f.tag tag) = none) :
    (bindFields lib values tag (pre ++ (f, v) :: post)).2
      = some (.err (.text (bytes "missing field: " ++ f.tag tag))) := by
  apply bindFields_stop lib values tag pre post f v _ hpre
  rw [bindField_missing lib values tag f v hset hkey hopt hvals]

theorem bindFields_missing_stops (lib : Lib) (values : Values) (tag : Bytes)
    (pre post : List (Field × Val)) (f : Field) (v : Val) (hset : f.canSet = true)
    (hkey : f.tag tag ≠ []) (hopt : tagOpt (f.tag tag) = false)
    (hvals : values (f.tag tag) = none) :
    (bindFields lib values tag (pre ++ (f, v) :: post)).2 ≠ none := by
  cases hpre : (bindFields lib values tag pre).2 with
  | none =>
    rw [bindFields_missing lib values tag pre post f v hpre hset hkey hopt hvals]
    simp
  | some stop =>
    rw [bindFields_append]
    rcases h : bindFields lib values tag pre with ⟨pre1, _ | st⟩
    · rw [h] at hpre; cases hpre
    · simp

end Missing

/-- C11: a required field that is missing, behind a field whose key has no values.  The
struct has the fields A and B of the type int with the keys a and b, and the map holds
the key a with an empty list of values and no key b: bind panics with an index out of
range at the field A and returns no error.  On the struct and the first map of
TestBindOptional, where no field in front fails, bind returns the error with the text
"missing field: name". -/
theorem missing_field_after_empty_values :
    (bind testLib structTwoInts (mkValues [(bytes "a", [])]) (bytes "q")).2
      = some (.panic "index out of range") ∧
    (bind testLib (.ptrStruct structOptional) (mkValues []) (bytes "form")).2
      = some (.err (.text (bytes "missing field: name"))) := by
  constructor <;> decide

/-! ### Pointers to and slices of types with a method Parse (C14) -/

/-- C14: set looks at the kind before it looks for the method Parse.  A field of the type
pointer to Duration bound from the text 1s is handed to strconv.ParseInt, which fails
with a syntax error, and the field is left pointing to a zero Duration; a field of the
type slice of Duration bound from the text 1s fails with the same error and keeps its
value.  The field of the type Duration itself, for which bind looks for the method
first, holds one second after bind. -/
theorem set_dispatches_on_kind_first :
    bindField testLib valuesOneSecond (bytes "query") (fieldD (.ptr (tyDuration testLib)))
        (.ptr none)
      = (.ptr (some (.int 0)), some (.err (syntaxError "ParseInt" (bytes "1s")))) ∧
    bindField testLib valuesOneSecond (bytes "query")
        (fieldD (.slice (tyDuration testLib) none)) (.slice [])
      = (.slice [], some (.err (syntaxError "ParseInt" (bytes "1s")))) ∧
    (bind testLib (.ptrStruct [(fieldD (.ptr (tyDuration testLib)), .ptr none)])
        valuesOneSecond (bytes "query")).2
      = some (.err (syntaxError "ParseInt" (bytes "1s"))) ∧
    (bind testLib (.ptrStruct [(fieldD (.slice (tyDuration testLib) none), .slice [])])
        valuesOneSecond (bytes "query")).2
      = some (.err (syntaxError "ParseInt" (bytes "1s"))) ∧
    bindField testLib valuesOneSecond (bytes "query") (fieldD (tyDuration testLib)) (.int 0)
      = (.int 1000000000, none) := by
  refine ⟨rfl, rfl, by decide, by decide, rfl⟩


/-! ### The pools of the router (C19) -/

section PoolsOfRouter

variable {H : Type}

theorem Pools.getChunks_snd (p : Pools) :
    p.getChunks.2.chunks = p.chunks.tail ∧ p.getChunks.2.context = p.context ∧
      p.getChunks.2.vars = p.vars := by
  unfold Pools.getChunks
  cases h : p.chunks <;> simp [h]

theorem Pools.getVars_snd (p : Pools) :
    p.getVars.2.chunks = p.chunks ∧ p.getVars.2.context = p.context ∧
      p.getVars.2.vars = p.vars.tail := by
  unfold Pools.getVars
  cases h : p.vars <;> simp [h]

theorem Pools.getContext_snd (p : Pools) :
    p.getContext.2.chunks = p.chunks ∧ p.getContext.2.context = p.context.tail ∧
      p.getContext.2.vars = p.vars := by
  unfold Pools.getContext
  cases h : p.context <;> simp [h]

theorem Pools.getContext_fst (p : Pools) : p.getContext.1 = p.context.headD {} := by
  unfold Pools.getContext
  cases h : p.context <;> simp [h]

theorem Pools.afterLookup (pools : Pools) (vars : Option Vars) :
    (if vars.isSome then pools.getChunks.2.getVars.2 else pools.getChunks.2).chunks
        = pools.chunks.tail ∧
      (if vars.isSome then pools.getChunks.2.getVars.2 else pools.getChunks.2).context
        = pools.context ∧
      (if vars.isSome then pools.getChunks.2.getVars.2 else pools.getChunks.2).vars
        = if vars.isSome then pools.vars.tail else pools.vars := by
  have h1 := pools.getChunks_snd
  have h2 := pools.getChunks.2.getVars_snd
  cases vars.isSome
  · simpa using h1
  · simp only [if_true]
    exact ⟨h2.1.trans h1.1, h2.2.1.trans h1.2.1, h2.2.2.trans (by rw [h1.2.2])⟩

theorem putBuffers_eq (p : Pools) (vars : Option Vars) :
    (putBuffers p vars).chunks = [] :: p.chunks ∧ (putBuffers p vars).context = p.context ∧
      (putBuffers p vars).vars =
        match vars with
        | none => p.vars
        | some v => { v with elems := [] } :: p.vars := by
  cases vars <;> simp [putBuffers]

/-- The run of Router.ServeHTTP behind the lookup, when the lookup returns. -/
theorem ServeHTTPPools_eq (r : Router H) (run : H → Ctx → Ctx × Outcome) (pools : Pools)
    (w : Nat) (req : Request) (i : Nat) (hp : Heap H) (nd : Option Ptr)
    (vars : Option Vars) (huri : req.RequestURI ≠ bytes "*")
    (hhash : hash req.Method = some i) (hi : i < treesLen)
    (htree : r.trees.getD i none = some hp)
    (hlook : node.lookup hp 0
      (unsafeParse (if req.Path.length = 0 then [slash] else req.Path) pools.getChunks.1)
      pools.getChunks.2.getVars.1 = .ret nd vars) :
    r.ServeHTTPPools run pools w req =
      match nd.bind (fun p => (deref hp p).handler) with
      | some h =>
        match run h ((if vars.isSome then pools.getChunks.2.getVars.2
            else pools.getChunks.2).getContext.1.assign req w vars) with
        | (_, .panic msg) =>
          ((if vars.isSome then pools.getChunks.2.getVars.2
            else pools.getChunks.2).getContext.2, .panic msg)
        | (ctx1, _) =>
          (putBuffers { (if vars.isSome then pools.getChunks.2.getVars.2
              else pools.getChunks.2).getContext.2 with
            context := ctx1 :: (if vars.isSome then pools.getChunks.2.getVars.2
              else pools.getChunks.2).getContext.2.context } vars, .serve h vars)
      | none =>
        (putBuffers (if vars.isSome then pools.getChunks.2.getVars.2
          else pools.getChunks.2) vars, .notFound) := by
  have hi1 : ¬ treesLen ≤ i := by omega
  unfold Router.ServeHTTPPools
  rw [if_neg huri]
  simp only [hhash, hi1, if_false, htree, hlook]

end PoolsOfRouter

/-- C19 (the claim as stated fails): the router of TestRouter serves GET /ping/pong from
empty pools with a handler that returns nil.  The context object that is in the pool
after the call still holds the request, the response writer and the context of the
request: it has not been cleared.  With a handler that panics, nothing is in the pools
after the call: neither the segment buffer nor the context object has been put back. -/
theorem context_pooled_uncleared :
    (testRouter.ServeHTTPPools runOk Pools.empty 7 (getRequest "/ping/pong")).2
      = .serve 3 none ∧
    (testRouter.ServeHTTPPools runOk Pools.empty 7 (getRequest "/ping/pong")).1.context.map
      (fun c => (c.req, c.rw, c.Context))
      = [(some (getRequest "/ping/pong"), some 7, some (getRequest "/ping/pong"))] ∧
    (testRouter.ServeHTTPPools runPanic Pools.empty 7 (getRequest "/ping/pong")).2
      = .panic "handler" ∧
    (testRouter.ServeHTTPPools runPanic Pools.empty 7 (getRequest "/ping/pong")).1.chunks
      = [] ∧
    (testRouter.ServeHTTPPools runPanic Pools.empty 7
      (getRequest "/ping/pong")).1.context.length = 0 := by
  refine ⟨by decide, rfl, by decide, by decide, by decide⟩

/-- C19 (amended): a request whose method has a trie and whose lookup returns.  When a
handler is found and its call returns, with nil or with an error, the segment buffer has
been cut to length zero and put into its pool, the slice of variables, if lookup took
one, has been cut to length zero and put into its pool, and the context object has been
put into its pool as the handler left it, the fields that ServeHTTP assigned (request,
response writer, variables, context) not cleared.  When no handler is found, the two
buffers are cut and put in the same way and the pool of context objects is as before.
When the call of the handler panics, the three objects that were taken are not put:
each pool is left without the object that it handed out.  At the next acquisition the
four fields of a context object are assigned anew, whatever it held. -/
theorem pools_after_request {H : Type} (r : Router H) (run : H → Ctx → Ctx × Outcome)
    (pools : Pools) (w : Nat) (req : Request) (i : Nat) (hp : Heap H) (nd : Option Ptr)
    (vars : Option Vars) (huri : req.RequestURI ≠ bytes "*")
    (hhash : hash req.Method = some i) (hi : i < treesLen)
    (htree : r.trees.getD i none = some hp)
    (hlook : node.lookup hp 0
      (unsafeParse (if req.Path.length = 0 then [slash] else req.Path) pools.getChunks.1)
      pools.getChunks.2.getVars.1 = .ret nd vars) :
    (∀ (h : H) (ctx1 : Ctx) (o : Outcome),
      nd.bind (fun p => (deref hp p).handler) = some h →
      run h ((pools.context.headD {}).assign req w vars) = (ctx1, o) →
      (∀ msg, o ≠ .panic msg) →
      (r.ServeHTTPPools run pools w req).2 = .serve h vars ∧
      (r.ServeHTTPPools run pools w req).1.chunks = [] :: pools.chunks.tail ∧
      (r.ServeHTTPPools run pools w req).1.context = ctx1 :: pools.context.tail ∧
      (r.ServeHTTPPools run pools w req).1.vars =
        match vars with
        | none => pools.vars
        | some v => { v with elems := [] } :: pools.vars.tail) ∧
    (nd.bind (fun p => (deref hp p).handler) = none →
      (r.ServeHTTPPools run pools w req).2 = .notFound ∧
      (r.ServeHTTPPools run pools w req).1.chunks = [] :: pools.chunks.tail ∧
      (r.ServeHTTPPools run pools w req).1.context = pools.context ∧
      (r.ServeHTTPPools run pools w req).1.vars =
        match vars with
        | none => pools.vars
        | some v => { v with elems := [] } :: pools.vars.tail) ∧
    (∀ (h : H) (ctx1 : Ctx) (msg : String),
      nd.bind (fun p => (deref hp p).handler) = some h →
      run h ((pools.context.headD {}).assign req w vars) = (ctx1, .panic msg) →
      (r.ServeHTTPPools run pools w req).2 = .panic msg ∧
      (r.ServeHTTPPools run pools w req).1.chunks = pools.chunks.tail ∧
      (r.ServeHTTPPools run pools w req).1.context = pools.context.tail ∧
      (r.ServeHTTPPools run pools w req).1.vars =
        if vars.isSome then pools.vars.tail else pools.vars) ∧
    (∀ (c : Ctx) (req2 : Request) (w2 : Nat) (vars2 : Option Vars),
      (c.assign req2 w2 vars2).req = some req2 ∧ (c.assign req2 w2 vars2).rw = some w2 ∧
      (c.assign req2 w2 vars2).vars = vars2 ∧ (c.assign req2 w2 vars2).Context = some req2) := by
  have heq := ServeHTTPPools_eq r run pools w req i hp nd vars huri hhash hi htree hlook
  obtain ⟨a1, a2, a3⟩ := pools.afterLookup vars
  have c1 := (if vars.isSome then pools.getChunks.2.getVars.2
    else pools.getChunks.2).getContext_fst
  obtain ⟨c2, c3, c4⟩ := (if vars.isSome then pools.getChunks.2.getVars.2
    else pools.getChunks.2).getContext_snd
  rw [a2] at c1 c3
  rw [a1] at c2
  rw [a3] at c4
  rw [c1] at heq
  refine ⟨?_, ?_, ?_, fun _ _ _ _ => ⟨rfl, rfl, rfl, rfl⟩⟩
  · intro h ctx1 o hh hrun hno
    rw [hh] at heq
    simp only [hrun] at heq
    have heq2 : r.ServeHTTPPools run pools w req =
        (putBuffers { (if vars.isSome then pools.getChunks.2.getVars.2
              else pools.getChunks.2).getContext.2 with
            context := ctx1 :: (if vars.isSome then pools.getChunks.2.getVars.2
              else pools.getChunks.2).getContext.2.context } vars, .serve h vars) := by
      rw [heq]
    rw [heq2]
    obtain ⟨b1, b2, b3⟩ := putBuffers_eq { (if vars.isSome then pools.getChunks.2.getVars.2
              else pools.getChunks.2).getContext.2 with
            context := ctx1 :: (if vars.isSome then pools.getChunks.2.getVars.2
              else pools.getChunks.2).getContext.2.context } vars
    refine ⟨rfl, ?_, ?_, ?_⟩
    · rw [b1]; simp only [c2]
    · rw [b2]; simp only [c3]
    · rw [b3]; simp only [c4]
      cases vars <;> rfl
  · intro hh
    rw [hh] at heq
    simp only at heq
    rw [heq]
    obtain ⟨b1, b2, b3⟩ := putBuffers_eq (if vars.isSome then pools.getChunks.2.getVars.2
      else pools.getChunks.2) vars
    refine ⟨rfl, ?_, ?_, ?_⟩
    · rw [b1, a1]
    · rw [b2, a2]
    · rw [b3, a3]
      cases vars <;> rfl
  · intro h ctx1 msg hh hrun
    rw [hh] at heq
    simp only [hrun] at heq
    exact ⟨by rw [heq], by rw [heq]; exact c2, by rw [heq]; exact c3, by rw [heq]; exact c4⟩

/-- C19 (witness): GET /bob on the router of TestRouter, with a handler that returns nil,
from pools that hold one object each. -/
theorem pools_after_request_witness :
    (testRouter.ServeHTTPPools runOk pooledOnce 7 (getRequest "/bob")).1.vars
      = [{ elems := [], cap := 32 }] :=
  ((pools_after_request testRouter runOk pooledOnce 7 (getRequest "/bob") 9
    ((testRouter.trees.getD 9 none).getD emptyTrie)
    (some 3) (some { elems := [{ Key := bytes "foo", Value := bytes "bob" }], cap := 32 })
    (by decide) (by decide) (by decide) (by decide) (by decide)).1 1
    ((pooledOnce.context.headD {}).assign (getRequest "/bob") 7
      (some { elems := [{ Key := bytes "foo", Value := bytes "bob" }], cap := 32 }))
    .ok (by decide) rfl (fun msg => by simp)).2.2.2

/-! ### The method Ctx.WriteHeader (C20) -/

section WriteHeaderCalls

theorem writeHeaders_all (c : Ctx) (a : Nat) (hw : c.wroteHeader = false)
    (hrw : c.rw = some a) :
    ∀ (codes : List Nat) (w : ResponseWriter),
      c.writeHeaders codes w = some { codes := w.codes ++ codes } := by
  intro codes
  induction codes with
  | nil => intro w; simp [Ctx.writeHeaders]
  | cons code rest ih =>
    intro w
    simp [Ctx.writeHeaders, Ctx.WriteHeader, hw, hrw, ih, ResponseWriter.WriteHeader]

theorem assign_wroteHeader (c : Ctx) (req : Request) (w : Nat) (vars : Option Vars) :
    (c.assign req w vars).wroteHeader = c.wroteHeader ∧ (c.assign req w vars).rw = some w :=
  ⟨rfl, rfl⟩

end WriteHeaderCalls

/-- C20: every call of Ctx.WriteHeader is forwarded.  On the context object that
Router.ServeHTTP hands to a handler for the first request (a new Ctx with the four
fields assigned), the calls WriteHeader(200) and WriteHeader(500) both reach the response
writer, which receives the codes 200 and 500; the field wroteHeader is false before and,
the method having a value receiver and no assignment, after the calls. -/
theorem WriteHeader_forwards_every_call :
    (({} : Ctx).assign (getRequest "/") 7 none).writeHeaders [200, 500] { codes := [] }
      = some { codes := [200, 500] } ∧
    (({} : Ctx).assign (getRequest "/") 7 none).WriteHeader 500 { codes := [200] }
      = some { codes := [200, 500] } ∧
    (({} : Ctx).assign (getRequest "/") 7 none).wroteHeader = false := by
  refine ⟨by decide, by decide, rfl⟩

/-! ### The function path.Clean on paths without dot-dot elements -/

section CleanSegments

theorem cleanLoop_nil (rooted : Bool) (fuel : Nat) (out : Bytes) (dd : Nat) :
    cleanLoop rooted fuel [] out dd = out := by
  cases fuel <;> rfl

theorem cleanLoop_succ (rooted : Bool) (fuel : Nat) (c : Nat) (t out : Bytes) (dd : Nat) :
    cleanLoop rooted (fuel + 1) (c :: t) out dd =
      if c = slash then cleanLoop rooted fuel t out dd
      else if c = dot ∧ (t = [] ∨ t.head? = some slash) then cleanLoop rooted fuel t out dd
      else if c = dot ∧ t.head? = some dot ∧
          (t.drop 1 = [] ∨ (t.drop 1).head? = some slash) then
        if dd < out.length then
          cleanLoop rooted fuel (t.drop 1)
            (out.take (cleanBacktrack out dd (out.length - 1))) dd
        else if rooted = false then
          cleanLoop rooted fuel (t.drop 1)
            ((if 0 < out.length then out ++ [slash] else out) ++ [dot, dot])
            ((if 0 < out.length then out ++ [slash] else out) ++ [dot, dot]).length
        else cleanLoop rooted fuel (t.drop 1) out dd
      else
        cleanLoop rooted fuel ((c :: t).dropWhile (fun b => b != slash))
          (cleanSep rooted out ++ (c :: t).takeWhile (fun b => b != slash)) dd := rfl

theorem splitSlash_takeWhile (s : Bytes) :
    splitSlash s = s.takeWhile (fun b => b != slash) ::
      (match s.dropWhile (fun b => b != slash) with
        | [] => []
        | _ :: t => splitSlash t) := by
  induction s with
  | nil => rfl
  | cons x xs ih =>
    by_cases hx : x = slash
    · subst hx
      rw [splitSlash_slash]
      simp
    · rw [splitSlash_cons x xs hx, ih]
      have hb : (x != slash) = true := by simpa using hx
      simp [List.takeWhile_cons, List.dropWhile_cons, hb, consHead]

theorem cleanSegs_splitSlash_dropWhile (rooted : Bool) (s out : Bytes) :
    cleanSegs rooted (splitSlash (s.dropWhile (fun b => b != slash))) out =
      cleanSegs rooted (match s.dropWhile (fun b => b != slash) with
        | [] => []
        | _ :: t => splitSlash t) out := by
  cases h : s.dropWhile (fun b => b != slash) with
  | nil => simp [splitSlash, cleanSegs]
  | cons x t =>
    have hx : x = slash := by
      have := List.head_dropWhile_not (fun b => b != slash) s (by rw [h]; simp)
      simp only [h, List.head_cons] at this
      simpa using this
    subst hx
    rw [splitSlash_slash]
    simp [cleanSegs]

end CleanSegments

section CleanLoop

theorem cleanLoop_eq_cleanSegs (rooted : Bool) :
    ∀ (fuel : Nat) (rest out : Bytes) (dd : Nat), rest.length ≤ fuel →
      [dot, dot] ∉ splitSlash rest →
      cleanLoop rooted fuel rest out dd = cleanSegs rooted (splitSlash rest) out := by
  intro fuel
  induction fuel with
  | zero =>
    intro rest out dd hlen _
    have hnil : rest = [] := List.length_eq_zero.mp (by omega)
    subst hnil
    simp [cleanLoop, splitSlash, cleanSegs]
  | succ fuel ih =>
    intro rest out dd hlen hdd
    cases rest with
    | nil => simp [cleanLoop, splitSlash, cleanSegs]
    | cons c t =>
      have hlen1 : t.length ≤ fuel := by simpa using hlen
      rw [cleanLoop_succ]
      by_cases hc : c = slash
      · subst hc
        rw [if_pos rfl]
        rw [splitSlash_slash] at hdd ⊢
        rw [ih t out dd hlen1 (fun h => hdd (List.mem_cons_of_mem _ h))]
        simp [cleanSegs]
      · rw [if_neg hc]
        by_cases hA : c = dot ∧ (t = [] ∨ t.head? = some slash)
        · rw [if_pos hA]
          obtain ⟨hcd, ht⟩ := hA
          subst hcd
          cases t with
          | nil => simp [cleanLoop_nil, splitSlash, cleanSegs, dot, slash]
          | cons x t1 =>
            have hx : x = slash := by simpa using ht
            subst hx
            have hsp : splitSlash (dot :: slash :: t1) = [dot] :: splitSlash t1 := by
              rw [splitSlash_cons dot _ hc, splitSlash_slash]
              rfl
            rw [hsp] at hdd ⊢
            rw [ih (slash :: t1) out dd hlen1 (by
              rw [splitSlash_slash]
              intro h
              rcases List.mem_cons.mp h with h1 | h1
              · cases h1
              · exact hdd (List.mem_cons_of_mem _ h1)), splitSlash_slash]
            simp [cleanSegs]
        · rw [if_neg hA]
          by_cases hB : c = dot ∧ t.head? = some dot ∧
              (t.drop 1 = [] ∨ (t.drop 1).head? = some slash)
          · exfalso
            obtain ⟨hcd, ht, ht2⟩ := hB
            subst hcd
            cases t with
            | nil => simp at ht
            | cons x t1 =>
              have hx : x = dot := by simpa using ht
              subst hx
              cases t1 with
              | nil =>
                apply hdd
                simp [splitSlash, dot, slash]
              | cons y t2 =>
                have hy : y = slash := by simpa using ht2
                subst hy
                apply hdd
                have hds : dot ≠ slash := by decide
                rw [splitSlash_cons dot _ hds, splitSlash_cons dot _ hds, splitSlash_slash]
                simp [consHead]
          · rw [if_neg hB]
            have hb : (c != slash) = true := by simpa using hc
            have hdrop : (c :: t).dropWhile (fun b => b != slash)
                = t.dropWhile (fun b => b != slash) := by
              simp [List.dropWhile_cons, hb]
            have htake : (c :: t).takeWhile (fun b => b != slash)
                = c :: t.takeWhile (fun b => b != slash) := by
              simp [List.takeWhile_cons, hb]
            have hsplit := splitSlash_takeWhile (c :: t)
            have hlen2 : ((c :: t).dropWhile (fun b => b != slash)).length ≤ fuel := by
              rw [hdrop]
              exact Nat.le_trans (List.dropWhile_sublist _).length_le hlen1
            have hdd2 : [dot, dot] ∉
                splitSlash ((c :: t).dropWhile (fun b => b != slash)) := by
              intro h
              apply hdd
              rw [hsplit]
              cases hd : (c :: t).dropWhile (fun b => b != slash) with
              | nil =>
                rw [hd] at h
                simp [splitSlash] at h
              | cons x t1 =>
                rw [hd] at h
                have hx : x = slash := by
                  have := List.head_dropWhile_not (fun b => b != slash) (c :: t)
                    (by rw [hd]; simp)
                  simp only [hd, List.head_cons] at this
                  simpa using this
                subst hx
                rw [splitSlash_slash] at h
                rcases List.mem_cons.mp h with h1 | h1
                · cases h1
                · simp only
                  exact List.mem_cons_of_mem _ h1
            rw [ih _ _ dd hlen2 hdd2, cleanSegs_splitSlash_dropWhile, hsplit]
            have hseg : ¬ ((c :: t).takeWhile (fun b => b != slash) = [] ∨
                (c :: t).takeWhile (fun b => b != slash) = [dot]) := by
              rw [htake]
              intro h
              rcases h with h | h
              · cases h
              · simp only [List.cons.injEq] at h
                obtain ⟨h1, h2⟩ := h
                apply hA
                refine ⟨h1, ?_⟩
                cases t with
                | nil => exact Or.inl rfl
                | cons x t1 =>
                  right
                  by_cases hx : x = slash
                  · simp [hx]
                  · have hbx : (x != slash) = true := by simpa using hx
                    simp [List.takeWhile_cons, hbx] at h2
            conv_rhs => rw [cleanSegs]
            rw [if_neg hseg]

end CleanLoop

section CleanClosed

/-- The elements written behind a buffer that already holds an element: each behind a
slash. -/
theorem cleanSegs_open (rooted : Bool) :
    ∀ (segs : List Bytes) (out : Bytes), 1 < out.length ∨ (rooted = false ∧ 0 < out.length) →
      cleanSegs rooted segs out =
        out ++ ((segs.filter keepSeg).map
          (fun seg => slash :: seg)).flatten := by
  intro segs
  induction segs with
  | nil => intro out _; simp [cleanSegs]
  | cons seg rest ih =>
    intro out hout
    rw [cleanSegs]
    by_cases hseg : seg = [] ∨ seg = [dot]
    · rw [if_pos hseg, ih out hout]
      have hf : ¬ (keepSeg seg = true) := by
        simp only [keepSeg, decide_eq_true_eq, not_and_or, not_not]
        exact hseg
      rw [List.filter_cons_of_neg hf]
    · rw [if_neg hseg]
      have hsep : cleanSep rooted out = out ++ [slash] := by
        unfold cleanSep
        rw [if_pos]
        rcases hout with h | ⟨h1, h2⟩
        · cases rooted
          · right; exact ⟨rfl, by omega⟩
          · left; exact ⟨rfl, by omega⟩
        · right; exact ⟨h1, by omega⟩
      have hf : keepSeg seg = true := by
        simp only [keepSeg, decide_eq_true_eq]
        exact not_or.mp hseg
      rw [hsep, ih _ (by left; simp; omega), List.filter_cons_of_pos hf]
      simp

theorem joinSlash_cons_eq (seg : Bytes) (rest : List Bytes) :
    joinSlash (seg :: rest) = seg ++ (rest.map (fun s => slash :: s)).flatten := by
  induction rest generalizing seg with
  | nil => simp [joinSlash]
  | cons a t ih =>
    show seg ++ slash :: joinSlash (a :: t) = _
    rw [ih a]
    simp

/-- The elements written into a buffer that holds no element yet. -/
theorem cleanSegs_fresh (rooted : Bool) (out : Bytes)
    (hout : (rooted = true ∧ out.length = 1) ∨ (rooted = false ∧ out.length = 0)) :
    ∀ segs : List Bytes,
      cleanSegs rooted segs out =
        out ++ joinSlash (segs.filter keepSeg) := by
  intro segs
  induction segs with
  | nil => simp [cleanSegs, joinSlash]
  | cons seg rest ih =>
    rw [cleanSegs]
    by_cases hseg : seg = [] ∨ seg = [dot]
    · rw [if_pos hseg, ih]
      have hf : ¬ (keepSeg seg = true) := by
        simp only [keepSeg, decide_eq_true_eq, not_and_or, not_not]
        exact hseg
      rw [List.filter_cons_of_neg hf]
    · rw [if_neg hseg]
      have hne : seg ≠ [] := fun h => hseg (Or.inl h)
      have hpos : 0 < seg.length := List.length_pos.mpr hne
      have hsep : cleanSep rooted out = out := by
        unfold cleanSep
        rw [if_neg]
        rcases hout with ⟨h1, h2⟩ | ⟨h1, h2⟩
        · subst h1; simp [h2]
        · subst h1; simp [h2]
      have hf : keepSeg seg = true := by
        simp only [keepSeg, decide_eq_true_eq]
        exact not_or.mp hseg
      rw [hsep, List.filter_cons_of_pos hf, joinSlash_cons_eq]
      rw [cleanSegs_open rooted rest (out ++ seg) (by
        rcases hout with ⟨h1, h2⟩ | ⟨h1, h2⟩
        · left; simp; omega
        · right; exact ⟨h1, by simp; omega⟩)]
      simp

theorem pathElems_slash_cons (t : Bytes) : pathElems (slash :: t) = pathElems t := by
  unfold pathElems
  rw [splitSlash_slash]
  rfl

theorem joinSlash_eq_nil {es : List Bytes} (h : joinSlash es = []) (hne : ∀ e ∈ es, e ≠ []) :
    es = [] := by
  cases es with
  | nil => rfl
  | cons a t =>
    rw [joinSlash_cons_eq] at h
    have := (List.append_eq_nil.mp h).1
    exact absurd this (hne a (List.mem_cons_self _ _))

theorem pathElems_ne_nil (s : Bytes) : ∀ e ∈ pathElems s, e ≠ [] := by
  intro e he
  unfold pathElems at he
  have := (List.mem_filter.mp he).2
  simp only [keepSeg, decide_eq_true_eq] at this
  exact this.1

/-- The function path.Clean on a non-empty path without dot-dot elements: the elements
of the path, joined by slashes, behind a slash when the path starts with one. -/
theorem pathClean_eq_render (s : Bytes) (hs : s ≠ []) (hdd : NoDotDot s) :
    pathClean s = renderPath (decide (s.head? = some slash)) (pathElems s) := by
  cases s with
  | nil => exact absurd rfl hs
  | cons c t =>
    unfold pathClean
    simp only
    by_cases hc : c = slash
    · subst hc
      have hdd1 : [dot, dot] ∉ splitSlash t := by
        intro h
        apply hdd
        show [dot, dot] ∈ splitSlash (slash :: t)
        rw [splitSlash_slash]
        exact List.mem_cons_of_mem _ h
      rw [if_pos rfl, cleanLoop_eq_cleanSegs true _ t [slash] 1 (by simp) hdd1,
        cleanSegs_fresh true [slash] (Or.inl ⟨rfl, rfl⟩), pathElems_slash_cons]
      simp [renderPath, pathElems]
    · have hdd1 : [dot, dot] ∉ splitSlash (c :: t) := hdd
      rw [if_neg hc, cleanLoop_eq_cleanSegs false _ (c :: t) [] 0 (Nat.le_refl _) hdd1,
        cleanSegs_fresh false [] (Or.inr ⟨rfl, rfl⟩)]
      have hh : decide ((c :: t).head? = some slash) = false := by simp [hc]
      rw [hh]
      simp only [renderPath, List.nil_append, Bool.false_eq_true, if_false]
      by_cases he : pathElems (c :: t) = []
      · rw [if_pos he]
        unfold pathElems at he
        rw [he]
        simp [joinSlash]
      · rw [if_neg he]
        have hj : joinSlash (pathElems (c :: t)) ≠ [] :=
          fun h => he (joinSlash_eq_nil h (pathElems_ne_nil _))
        unfold pathElems at hj ⊢
        rw [if_neg hj]

end CleanClosed

/-! ### Segments of joined paths -/

section JoinedSegments

theorem splitSlash_append_slash (a b : Bytes) :
    splitSlash (a ++ slash :: b) = splitSlash a ++ splitSlash b := by
  induction a with
  | nil => simp [splitSlash]
  | cons x xs ih =>
    by_cases hx : x = slash
    · subst hx
      rw [List.cons_append, splitSlash_slash, splitSlash_slash, ih]
      rfl
    · rw [List.cons_append, splitSlash_cons x _ hx, splitSlash_cons x _ hx, ih]
      cases h : splitSlash xs with
      | nil => exact absurd h (splitSlash_ne_nil xs)
      | cons s0 rest => rfl

theorem splitSlash_of_no_slash (seg : Bytes) (h : slash ∉ seg) : splitSlash seg = [seg] := by
  induction seg with
  | nil => rfl
  | cons x xs ih =>
    have hx : x ≠ slash := fun hx => h (by rw [hx]; exact List.mem_cons_self _ _)
    rw [splitSlash_cons x xs hx, ih (fun hm => h (List.mem_cons_of_mem _ hm))]
    rfl

theorem splitSlash_joinSlash (es : List Bytes) (hne : es ≠ []) (h : ∀ e ∈ es, slash ∉ e) :
    splitSlash (joinSlash es) = es := by
  induction es with
  | nil => exact absurd rfl hne
  | cons e rest ih =>
    cases rest with
    | nil => exact splitSlash_of_no_slash e (h e (List.mem_cons_self _ _))
    | cons a t =>
      show splitSlash (e ++ slash :: joinSlash (a :: t)) = _
      rw [splitSlash_append_slash, splitSlash_of_no_slash e (h e (List.mem_cons_self _ _)),
        ih (by simp) (fun x hx => h x (List.mem_cons_of_mem _ hx))]
      rfl

theorem pathElems_nil : pathElems [] = [] := by decide

theorem pathElems_append_slash (a b : Bytes) :
    pathElems (a ++ slash :: b) = pathElems a ++ pathElems b := by
  unfold pathElems
  rw [splitSlash_append_slash, List.filter_append]

theorem NoDotDot_nil : NoDotDot [] := by
  unfold NoDotDot
  decide

theorem NoDotDot_append_slash {a b : Bytes} (ha : NoDotDot a) (hb : NoDotDot b) :
    NoDotDot (a ++ slash :: b) := by
  unfold NoDotDot at *
  rw [splitSlash_append_slash]
  intro h
  rcases List.mem_append.mp h with h | h
  · exact ha h
  · exact hb h

/-- Elements as path.Clean writes them: kept segments without a slash, none a dot-dot. -/
theorem pathElems_good (s : Bytes) (hdd : NoDotDot s) :
    ∀ e ∈ pathElems s, keepSeg e = true ∧ slash ∉ e ∧ e ≠ [dot, dot] := by
  intro e he
  unfold pathElems at he
  obtain ⟨hmem, hkeep⟩ := List.mem_filter.mp he
  refine ⟨hkeep, slash_not_mem_splitSlash s e hmem, ?_⟩
  intro h
  subst h
  exact hdd hmem

theorem filter_keepSeg_of_good {es : List Bytes} (h : ∀ e ∈ es, keepSeg e = true) :
    es.filter keepSeg = es :=
  List.filter_eq_self.mpr h

theorem pathElems_joinSlash {es : List Bytes}
    (h : ∀ e ∈ es, keepSeg e = true ∧ slash ∉ e ∧ e ≠ [dot, dot]) :
    pathElems (joinSlash es) = es := by
  cases hes : es with
  | nil => exact pathElems_nil
  | cons a t =>
    rw [← hes]
    unfold pathElems
    rw [splitSlash_joinSlash es (by rw [hes]; simp) (fun e he => (h e he).2.1)]
    exact filter_keepSeg_of_good (fun e he => (h e he).1)

theorem pathElems_render (rooted : Bool) {es : List Bytes}
    (h : ∀ e ∈ es, keepSeg e = true ∧ slash ∉ e ∧ e ≠ [dot, dot]) :
    pathElems (renderPath rooted es) = es := by
  unfold renderPath
  cases rooted with
  | true =>
    rw [if_pos rfl, pathElems_slash_cons]
    exact pathElems_joinSlash h
  | false =>
    simp only [Bool.false_eq_true, if_false]
    by_cases he : es = []
    · rw [if_pos he, he]
      decide
    · rw [if_neg he]
      exact pathElems_joinSlash h

theorem NoDotDot_joinSlash {es : List Bytes}
    (h : ∀ e ∈ es, keepSeg e = true ∧ slash ∉ e ∧ e ≠ [dot, dot]) :
    NoDotDot (joinSlash es) := by
  cases hes : es with
  | nil => exact NoDotDot_nil
  | cons a t =>
    rw [← hes]
    unfold NoDotDot
    rw [splitSlash_joinSlash es (by rw [hes]; simp) (fun e he => (h e he).2.1)]
    intro hm
    exact (h _ hm).2.2 rfl

theorem NoDotDot_render (rooted : Bool) {es : List Bytes}
    (h : ∀ e ∈ es, keepSeg e = true ∧ slash ∉ e ∧ e ≠ [dot, dot]) :
    NoDotDot (renderPath rooted es) := by
  unfold renderPath
  cases rooted with
  | true =>
    rw [if_pos rfl]
    have := NoDotDot_joinSlash h
    unfold NoDotDot at *
    rw [splitSlash_slash]
    intro hm
    rcases List.mem_cons.mp hm with h1 | h1
    · cases h1
    · exact this h1
  | false =>
    simp only [Bool.false_eq_true, if_false]
    by_cases he : es = []
    · rw [if_pos he]
      unfold NoDotDot
      decide
    · rw [if_neg he]
      exact NoDotDot_joinSlash h

theorem head_render (rooted : Bool) {es : List Bytes}
    (h : ∀ e ∈ es, keepSeg e = true ∧ slash ∉ e ∧ e ≠ [dot, dot]) :
    decide ((renderPath rooted es).head? = some slash) = rooted := by
  unfold renderPath
  cases rooted with
  | true => simp
  | false =>
    simp only [Bool.false_eq_true, if_false]
    cases es with
    | nil => decide
    | cons a t =>
      rw [if_neg (by simp), joinSlash_cons_eq]
      obtain ⟨hk, hs, -⟩ := h a (List.mem_cons_self _ _)
      cases a with
      | nil => simp [keepSeg] at hk
      | cons x xs =>
        have hx : x ≠ slash := fun hx => hs (by rw [hx]; exact List.mem_cons_self _ _)
        simp [hx]

theorem render_ne_nil (rooted : Bool) {es : List Bytes}
    (h : ∀ e ∈ es, keepSeg e = true ∧ slash ∉ e ∧ e ≠ [dot, dot]) :
    renderPath rooted es ≠ [] := by
  unfold renderPath
  cases rooted with
  | true => simp
  | false =>
    simp only [Bool.false_eq_true, if_false]
    by_cases he : es = []
    · rw [if_pos he]; simp
    · rw [if_neg he]
      intro hj
      exact he (joinSlash_eq_nil hj (fun e hm => by
        have := (h e hm).1
        simp only [keepSeg, decide_eq_true_eq] at this
        exact this.1))

end JoinedSegments

/-! ### The function path.Join as elements -/

section JoinElements

theorem joinBuf_of_ne_nil : ∀ (es : List Bytes) (buf : Bytes), buf ≠ [] →
    joinBuf es buf = buf ++ (es.map (fun e => slash :: e)).flatten := by
  intro es
  induction es with
  | nil => intro buf _; simp [joinBuf]
  | cons e rest ih =>
    intro buf hbuf
    have hpos : 0 < buf.length := List.length_pos.mpr hbuf
    rw [joinBuf, if_pos (Or.inl hpos), if_pos hpos, ih _ (by simp)]
    simp

theorem joinBuf_cons_nil (rest : List Bytes) : joinBuf ([] :: rest) [] = joinBuf rest [] := by
  rw [joinBuf, if_neg (by simp)]

theorem joinBuf_cons_ne (e : Bytes) (rest : List Bytes) (he : e ≠ []) :
    joinBuf (e :: rest) [] = e ++ (rest.map (fun x => slash :: x)).flatten := by
  rw [joinBuf, if_pos (Or.inr he)]
  simp only [List.length_nil, Nat.lt_irrefl, if_false, List.nil_append]
  exact joinBuf_of_ne_nil rest e he

theorem pathElems_append_slashes (buf : Bytes) : ∀ es : List Bytes,
    pathElems (buf ++ (es.map (fun e => slash :: e)).flatten)
      = pathElems buf ++ (es.map pathElems).flatten := by
  intro es
  induction es generalizing buf with
  | nil => simp
  | cons e rest ih =>
    have h : buf ++ ((e :: rest).map (fun e => slash :: e)).flatten
        = (buf ++ slash :: e) ++ (rest.map (fun e => slash :: e)).flatten := by simp
    rw [h, ih, pathElems_append_slash]
    simp

theorem NoDotDot_append_slashes (buf : Bytes) (hbuf : NoDotDot buf) : ∀ es : List Bytes,
    (∀ e ∈ es, NoDotDot e) → NoDotDot (buf ++ (es.map (fun e => slash :: e)).flatten) := by
  intro es
  induction es generalizing buf with
  | nil => intro _; simpa using hbuf
  | cons e rest ih =>
    intro h
    have heq : buf ++ ((e :: rest).map (fun e => slash :: e)).flatten
        = (buf ++ slash :: e) ++ (rest.map (fun e => slash :: e)).flatten := by simp
    rw [heq]
    exact ih _ (NoDotDot_append_slash hbuf (h e (List.mem_cons_self _ _)))
      (fun x hx => h x (List.mem_cons_of_mem _ hx))

theorem pathElems_joinBuf : ∀ es : List Bytes,
    pathElems (joinBuf es []) = (es.map pathElems).flatten := by
  intro es
  induction es with
  | nil => exact pathElems_nil
  | cons e rest ih =>
    by_cases he : e = []
    · subst he
      rw [joinBuf_cons_nil, ih]
      simp [pathElems_nil]
    · rw [joinBuf_cons_ne e rest he, pathElems_append_slashes]
      simp

theorem NoDotDot_joinBuf : ∀ es : List Bytes, (∀ e ∈ es, NoDotDot e) →
    NoDotDot (joinBuf es []) := by
  intro es
  induction es with
  | nil => intro _; exact NoDotDot_nil
  | cons e rest ih =>
    intro h
    by_cases he : e = []
    · subst he
      rw [joinBuf_cons_nil]
      exact ih (fun x hx => h x (List.mem_cons_of_mem _ hx))
    · rw [joinBuf_cons_ne e rest he]
      exact NoDotDot_append_slashes e (h e (List.mem_cons_self _ _)) rest
        (fun x hx => h x (List.mem_cons_of_mem _ hx))

theorem head_joinBuf : ∀ es : List Bytes, (joinBuf es []).head? = es.flatten.head? := by
  intro es
  induction es with
  | nil => rfl
  | cons e rest ih =>
    by_cases he : e = []
    · subst he
      rw [joinBuf_cons_nil, ih]
      simp
    · rw [joinBuf_cons_ne e rest he]
      cases e with
      | nil => exact absurd rfl he
      | cons x xs => simp

theorem joinBuf_ne_nil : ∀ es : List Bytes, es.flatten ≠ [] → joinBuf es [] ≠ [] := by
  intro es
  induction es with
  | nil => intro h; exact absurd rfl h
  | cons e rest ih =>
    intro h
    by_cases he : e = []
    · subst he
      rw [joinBuf_cons_nil]
      exact ih (by simpa using h)
    · rw [joinBuf_cons_ne e rest he]
      simp [he]

theorem sum_length_eq_zero (es : List Bytes) :
    (es.map List.length).sum = 0 ↔ es.flatten = [] := by
  rw [← List.length_flatten, List.length_eq_zero]

/-- The function path.Join on elements without dot-dot, not all empty: the elements of
all the paths in their order, rooted when the first byte of the first non-empty path is
a slash. -/
theorem pathJoinAll_eq_render (es : List Bytes) (hne : es.flatten ≠ [])
    (hdd : ∀ e ∈ es, NoDotDot e) :
    pathJoinAll es =
      renderPath (decide (es.flatten.head? = some slash)) (es.map pathElems).flatten := by
  unfold pathJoinAll
  rw [if_neg (fun h => hne ((sum_length_eq_zero es).mp h)),
    pathClean_eq_render _ (joinBuf_ne_nil es hne) (NoDotDot_joinBuf es hdd),
    head_joinBuf, pathElems_joinBuf]

theorem pathJoinAll_of_all_empty (es : List Bytes) (h : es.flatten = []) :
    pathJoinAll es = [] := by
  unfold pathJoinAll
  rw [if_pos ((sum_length_eq_zero es).mpr h)]

theorem pathJoin_eq_pathJoinAll (a b : Bytes) : pathJoin a b = pathJoinAll [a, b] := by
  have hsum : ([a, b].map List.length).sum = a.length + b.length := by simp
  unfold pathJoin pathJoinAll
  rw [hsum]
  by_cases h0 : a.length + b.length = 0
  · rw [if_pos h0, if_pos h0]
  · rw [if_neg h0, if_neg h0]
    by_cases ha : a = []
    · subst ha
      have hb : b ≠ [] := by
        intro hb
        subst hb
        exact h0 rfl
      rw [if_pos rfl, joinBuf_cons_nil, joinBuf_cons_ne b [] hb]
      simp
    · rw [if_neg ha, joinBuf_cons_ne a [b] ha]
      simp

end JoinElements

/-! ### Joining pair by pair and joining at once -/

section NestedJoin

variable {H : Type}

theorem pathJoin_nil_nil : pathJoin [] [] = [] := by decide

theorem pathJoin_ne_nil (a b : Bytes) (h : a ++ b ≠ []) : pathJoin a b ≠ [] := by
  unfold pathJoin
  have h0 : ¬ (a.length + b.length = 0) := by
    intro h0
    apply h
    have ha : a = [] := List.length_eq_zero.mp (by omega)
    have hb : b = [] := List.length_eq_zero.mp (by omega)
    rw [ha, hb]
    rfl
  rw [if_neg h0]
  split <;> exact pathClean_ne_nil _

theorem pathJoin_eq_render (a b : Bytes) (h : a ++ b ≠ []) (ha : NoDotDot a)
    (hb : NoDotDot b) :
    pathJoin a b =
      renderPath (decide ((a ++ b).head? = some slash)) (pathElems a ++ pathElems b) := by
  rw [pathJoin_eq_pathJoinAll, pathJoinAll_eq_render [a, b] (by simpa using h)
    (by
      intro e he
      simp only [List.mem_cons, List.mem_singleton, List.not_mem_nil, or_false] at he
      rcases he with rfl | rfl
      · exact ha
      · exact hb)]
  simp

theorem good_append {a b : Bytes} (ha : NoDotDot a) (hb : NoDotDot b) :
    ∀ e ∈ pathElems a ++ pathElems b, keepSeg e = true ∧ slash ∉ e ∧ e ≠ [dot, dot] := by
  intro e he
  rcases List.mem_append.mp he with h | h
  · exact pathElems_good a ha e h
  · exact pathElems_good b hb e h

theorem NoDotDot_pathJoin (a b : Bytes) (ha : NoDotDot a) (hb : NoDotDot b) :
    NoDotDot (pathJoin a b) := by
  by_cases h : a ++ b = []
  · have h1 : a = [] := (List.append_eq_nil.mp h).1
    have h2 : b = [] := (List.append_eq_nil.mp h).2
    rw [h1, h2, pathJoin_nil_nil]
    exact NoDotDot_nil
  · rw [pathJoin_eq_render a b h ha hb]
    exact NoDotDot_render _ (good_append ha hb)

theorem head_append_of_ne_nil (x y : Bytes) :
    (x ++ y).head? = if x = [] then y.head? else x.head? := by
  cases x <;> simp

/-- Joining the last two elements first gives the same path as joining all at once. -/
theorem pathJoinAll_append_pathJoin (L : List Bytes) (a b : Bytes)
    (hL : ∀ e ∈ L, NoDotDot e) (ha : NoDotDot a) (hb : NoDotDot b) :
    pathJoinAll (L ++ [pathJoin a b]) = pathJoinAll (L ++ [a, b]) := by
  have hdd2 : ∀ e ∈ L ++ [a, b], NoDotDot e := by
    intro e he
    rcases List.mem_append.mp he with h | h
    · exact hL e h
    · simp only [List.mem_cons, List.mem_singleton, List.not_mem_nil, or_false] at h
      rcases h with rfl | rfl
      · exact ha
      · exact hb
  have hdd1 : ∀ e ∈ L ++ [pathJoin a b], NoDotDot e := by
    intro e he
    rcases List.mem_append.mp he with h | h
    · exact hL e h
    · simp only [List.mem_singleton] at h
      rw [h]
      exact NoDotDot_pathJoin a b ha hb
  by_cases h : a ++ b = []
  · have h1 : a = [] := (List.append_eq_nil.mp h).1
    have h2 : b = [] := (List.append_eq_nil.mp h).2
    subst h1 h2
    rw [pathJoin_nil_nil]
    by_cases hLe : L.flatten = []
    · rw [pathJoinAll_of_all_empty _ (by simpa using hLe),
        pathJoinAll_of_all_empty _ (by simpa using hLe)]
    · rw [pathJoin_nil_nil] at hdd1
      rw [pathJoinAll_eq_render _ (by simpa using hLe) hdd1,
        pathJoinAll_eq_render _ (by simpa using hLe) hdd2]
      simp [pathElems_nil]
  · have hx := pathJoin_ne_nil a b h
    have hr := pathJoin_eq_render a b h ha hb
    have hgood := good_append ha hb
    have he : pathElems (pathJoin a b) = pathElems a ++ pathElems b := by
      rw [hr]
      exact pathElems_render _ hgood
    have hh : decide ((pathJoin a b).head? = some slash)
        = decide ((a ++ b).head? = some slash) := by
      rw [hr]
      exact head_render _ hgood
    rw [pathJoinAll_eq_render _ (by simp [hx]) hdd1,
      pathJoinAll_eq_render _ (by
        intro h0
        simp only [List.flatten_append, List.flatten_cons, List.flatten_nil,
          List.append_nil, List.append_eq_nil] at h0
        exact h (List.append_eq_nil.mpr h0.2)) hdd2]
    have hel : ((L ++ [pathJoin a b]).map pathElems).flatten
        = ((L ++ [a, b]).map pathElems).flatten := by
      simp [he]
    have hhd : decide ((L ++ [pathJoin a b]).flatten.head? = some slash)
        = decide ((L ++ [a, b]).flatten.head? = some slash) := by
      have e1 : (L ++ [pathJoin a b]).flatten = L.flatten ++ pathJoin a b := by simp
      have e2 : (L ++ [a, b]).flatten = L.flatten ++ (a ++ b) := by simp
      rw [e1, e2, head_append_of_ne_nil, head_append_of_ne_nil]
      by_cases hLe : L.flatten = []
      · rw [if_pos hLe, if_pos hLe]
        exact hh
      · rw [if_neg hLe, if_neg hLe]
    rw [hel, hhd]

/-- The path under which Group.handle of the root inserts a route that was registered on
a group: the prefixes on the chain and the route, joined by path.Join at once. -/
theorem resolve_eq_joinAll (g : Group H) :
    ∀ route : Bytes, NoDotDot route → (∀ p ∈ g.prefixes, NoDotDot p) →
      (g.prefixes ++ [route]).flatten ≠ [] →
      pathJoin g.rootOf.pfx (orSlash (g.resolve route)) = pathJoinAll (g.prefixes ++ [route]) := by
  induction g with
  | root pfx gps =>
    intro route hr hp hne
    have hpfx : NoDotDot pfx := hp pfx (by simp [Group.prefixes])
    simp only [Group.rootOf, Group.pfx, Group.resolve, Group.prefixes, List.singleton_append]
    by_cases hroute : route = []
    · subst hroute
      have hpne : pfx ≠ [] := by
        intro h0
        apply hne
        simp [Group.prefixes, h0]
      have hs : NoDotDot [slash] := by
        unfold NoDotDot
        decide
      have horr : orSlash [] = [slash] := rfl
      rw [horr, pathJoin_eq_render pfx [slash] (by simp [hpne]) hpfx hs,
        pathJoinAll_eq_render [pfx, []] (by simp [hpne]) (by
          intro e he
          simp only [List.mem_cons, List.mem_singleton, List.not_mem_nil, or_false] at he
          rcases he with rfl | rfl
          · exact hpfx
          · exact NoDotDot_nil)]
      have e1 : pathElems [slash] = [] := by decide
      have e2 : (pfx ++ [slash]).head? = pfx.head? := by
        cases pfx with
        | nil => exact absurd rfl hpne
        | cons x xs => rfl
      rw [e1, e2]
      simp [pathElems_nil]
    · have horr : orSlash route = route := by
        unfold orSlash
        rw [if_neg (fun h => hroute (List.length_eq_zero.mp h))]
      rw [horr, pathJoin_eq_pathJoinAll]
  | sub prev pfx gps ih =>
    intro route hr hp hne
    have hpfx : NoDotDot pfx := hp pfx (by simp [Group.prefixes])
    have hprev : ∀ p ∈ prev.prefixes, NoDotDot p :=
      fun p hmem => hp p (by simp [Group.prefixes, hmem])
    simp only [Group.rootOf, Group.resolve, Group.prefixes]
    have hne1 : (prev.prefixes ++ [pathJoin pfx route]).flatten ≠ [] := by
      intro h0
      simp only [List.flatten_append, List.flatten_cons, List.flatten_nil, List.append_nil,
        List.append_eq_nil] at h0
      apply hne
      have hb : pfx ++ route = [] := by
        by_contra hb
        exact pathJoin_ne_nil pfx route hb h0.2
      simp only [Group.prefixes, List.flatten_append, List.flatten_cons, List.flatten_nil,
        List.append_nil, List.append_eq_nil]
      exact ⟨⟨h0.1, (List.append_eq_nil.mp hb).1⟩, (List.append_eq_nil.mp hb).2⟩
    rw [ih (pathJoin pfx route) (NoDotDot_pathJoin pfx route hpfx hr) hprev hne1,
      pathJoinAll_append_pathJoin prev.prefixes pfx route hprev hpfx hr]
    simp

end NestedJoin

/-! ### Prefixes of groups (C18) -/

/-- C18 (the claim as stated fails): on the router with the prefix `/r`, the route `/x`
registered on the group with the prefix `/..` is inserted under the segments of `/r/x`,
and a request for `/r/x` reaches it, while the join of `/r`, `/..` and `/x` is `/x`,
for which the router answers not found.  And the empty route registered at the root of a
router with the empty prefix is inserted under the two empty segments of `/`, while the
join of two empty strings is the empty string, which has one segment. -/
theorem nested_join_counterexample :
    (Group.Handle sortSort dotdotGroup
        (New sortSort 99 (bytes "/r") ([] : List (Plugin Nat))).trees
        (bytes "GET") (bytes "/x") (some 5) []).1
      = (New sortSort 99 (bytes "/r") ([] : List (Plugin Nat))).trees.set 9
          (some (node.insert sortSort emptyTrie 0 (splitSlash (bytes "/r/x")) 0 (some 5)).1) ∧
    pathJoinAll (dotdotGroup.prefixes ++ [bytes "/x"]) = bytes "/x" ∧
    dotdotRouter.ServeHTTP (getRequest "/r/x") = .serve 5 none ∧
    dotdotRouter.ServeHTTP (getRequest "/x") = .notFound ∧
    (Group.Handle sortSort (Default sortSort 99 ([] : List (Plugin Nat))).group
        (Default sortSort 99 ([] : List (Plugin Nat))).trees (bytes "GET") [] (some 5) []).1
      = (Default sortSort 99 ([] : List (Plugin Nat))).trees.set 9
          (some (node.insert sortSort emptyTrie 0 [[], []] 0 (some 5)).1) ∧
    splitSlash (pathJoinAll ((Default sortSort 99 ([] : List (Plugin Nat))).group.prefixes
      ++ [[]])) = [[]] := by
  refine ⟨by decide, by decide, by decide, by decide, by decide, by decide⟩

/-- C18 (amended): prefixes of groups compose.  For every chain of groups from the root
down to a group, with the prefixes p0, ..., pk, and every route r, when none of these
strings has a dot-dot segment and not all of them are empty, and the method has a bucket
in the table, Group.Handle on the group calls node.insert on the trie of the root for
the method (a new trie when there was none) with the segments of
path.Join(p0, ..., pk, r) and the handler wrapped in the plugins, and stores the trie in
the bucket.  On the router of TestRouter, whose prefix is empty, the handler registered
as `/foo` on `Prefix("/g1")` serves `/g1/foo` and the one registered as `/foo` on
`Prefix("/g2")` serves `/g2/foo`. -/
theorem group_prefixes_compose {H : Type} (srt : (Nat → Nat) → List Nat → List Nat)
    (g : Group H) (trees : Trees H) (m r : Bytes) (h : Handler H) (ps : List (Plugin H))
    (i : Nat) (hhash : hash m = some i) (hi : i < treesLen)
    (hdd : ∀ p ∈ g.prefixes ++ [r], NoDotDot p) (hne : ∃ p ∈ g.prefixes ++ [r], p ≠ []) :
    Group.Handle srt g trees m r h ps =
      (trees.set i (some (node.insert srt (bucketHeap trees i) 0
          (splitSlash (pathJoinAll (g.prefixes ++ [r]))) 0
          (compose g.rootOf.plugins
            (compose (if ps.isEmpty then [] else g.chain ++ ps) h))).1),
        (node.insert srt (bucketHeap trees i) 0
          (splitSlash (pathJoinAll (g.prefixes ++ [r]))) 0
          (compose g.rootOf.plugins
            (compose (if ps.isEmpty then [] else g.chain ++ ps) h))).2) ∧
    testRouterGroups.ServeHTTP (getRequest "/g1/foo") = .serve 10 none ∧
    testRouterGroups.ServeHTTP (getRequest "/g2/foo") = .serve 20 none := by
  refine ⟨?_, by decide, by decide⟩
  have hne1 : (g.prefixes ++ [r]).flatten ≠ [] := by
    obtain ⟨p, hp, hpne⟩ := hne
    intro h0
    exact hpne (List.flatten_eq_nil_iff.mp h0 p hp)
  have hjoin := resolve_eq_joinAll g r (hdd r (by simp))
    (fun p hp => hdd p (List.mem_append_left _ hp)) hne1
  have hi1 : ¬ treesLen ≤ i := by omega
  rw [Handle_eq_handle]
  unfold Group.handle
  simp only [hhash, hi1, if_false]
  have hj : pathJoin g.rootOf.pfx
      (if (g.resolve r).length = 0 then [slash] else g.resolve r)
      = pathJoinAll (g.prefixes ++ [r]) := hjoin
  rw [hj, unsafeParse_eq]
  rfl

/-- C18 (witness): the route `/foo` registered on the group `r.Prefix("/g1")` of
TestRouter. -/
theorem group_prefixes_compose_witness :
    Group.Handle sortSort testGroup1 testRouter.trees (bytes "GET") (bytes "/foo") (some 10) []
      = (testRouter.trees.set 9 (some (node.insert sortSort (bucketHeap testRouter.trees 9) 0
          (splitSlash (pathJoinAll (testGroup1.prefixes ++ [bytes "/foo"]))) 0
          (compose testGroup1.rootOf.plugins
            (compose (if ([] : List (Plugin Nat)).isEmpty then [] else testGroup1.chain ++ [])
              (some 10)))).1),
        (node.insert sortSort (bucketHeap testRouter.trees 9) 0
          (splitSlash (pathJoinAll (testGroup1.prefixes ++ [bytes "/foo"]))) 0
          (compose testGroup1.rootOf.plugins
            (compose (if ([] : List (Plugin Nat)).isEmpty then [] else testGroup1.chain ++ [])
              (some 10)))).2) :=
  (group_prefixes_compose sortSort testGroup1 testRouter.trees (bytes "GET") (bytes "/foo")
    (some 10) [] 9 (by decide) (by decide) (by decide)
    ⟨bytes "/foo", by decide, by decide⟩).1


/-! ### Invariants of reachable tries (C25, C26) -/

section ReachableTries

variable {H : Type} (srt : (Nat → Nat) → List Nat → List Nat)

theorem insertFrom_wf (hsrt : SortsByKind srt) (rest : List Bytes) :
    ∀ (hp : Heap H) (n : Nat) (handler : Handler H), WF hp → n < hp.length →
      WF (insertFrom srt hp n rest handler).1 := by
  intro hp n handler hwf hn
  rcases h : insertFrom srt hp n rest handler with ⟨hp1, r⟩
  obtain ⟨h1, h2⟩ := insertFrom_spec srt hsrt rest hp n handler hp1 r hwf hn h
  cases r with
  | none => exact (h2 rfl).wf
  | some msg =>
    obtain ⟨-, heq, -⟩ := h1 msg rfl
    simp only
    rw [heq]
    exact hwf

theorem insertFrom_classified (hsrt : SortsByKind srt) (rest : List Bytes) :
    ∀ (hp : Heap H) (n : Nat) (handler : Handler H), WF hp → n < hp.length →
      Classified hp → Classified (insertFrom srt hp n rest handler).1 := by
  induction rest with
  | nil =>
    intro hp n handler hwf hn hc
    unfold insertFrom
    split
    · exact hc
    · intro p hp0 hlt
      rw [length_store] at hlt
      have hd := deref_store_handler hp hn handler p
      have hk : kindOf (store hp n { deref hp n with handler := handler }) p = kindOf hp p := by
        unfold kindOf
        rw [hd]
        split
        · rename_i h; subst h; rfl
        · rfl
      have hch : chunkOf (store hp n { deref hp n with handler := handler }) p
          = chunkOf hp p := by
        unfold chunkOf
        rw [hd]
        split
        · rename_i h; subst h; rfl
        · rfl
      rw [hk, hch]
      exact hc p hp0 hlt
  | cons chunk rest ih =>
    intro hp n handler hwf hn hc
    unfold insertFrom
    cases hchild : (deref hp n).child hp chunk with
    | some child =>
      simp only
      have hlt := (hwf.child_gt n child (child_some hchild).1).2
      exact ih hp child handler hwf hlt hc
    | none =>
      simp only
      have hwf1 := addChild_wf srt hsrt hwf hn hchild
      have hlen := length_addChild srt hp n chunk
      apply ih _ _ handler hwf1 (by rw [addChild_snd, hlen]; omega)
      intro p hp0 hlt
      rw [hlen] at hlt
      by_cases hnew : p = hp.length
      · subst hnew
        rw [addChild_kind_new srt hp chunk hn, addChild_chunk_new srt hp chunk hn]
      · rw [addChild_kind srt hp chunk hn hnew, addChild_chunk srt hp chunk hn hnew]
        exact hc p hp0 (by omega)

theorem emptyTrie_classified : Classified (emptyTrie : Heap H) := by
  intro p hp0 hlt
  simp [emptyTrie] at hlt
  omega

/-- Every reachable trie has the shape that insertions keep, and the kind of each of its
nodes but the root is the classification of its chunk. -/
theorem reachable_inv (hsrt : SortsByKind srt) {hp : Heap H} (hr : Reachable srt hp) :
    WF hp ∧ Classified hp := by
  induction hr with
  | empty => exact ⟨emptyTrie_wf, emptyTrie_classified⟩
  | insert chunks height handler _ hins ih =>
    obtain ⟨hwf, hc⟩ := ih
    unfold node.insert at hins
    by_cases hh : height ≤ chunks.length
    · rw [if_pos hh] at hins
      have h1 := insertFrom_wf srt hsrt (chunks.drop height) _ 0 handler hwf hwf.nonempty
      have h2 := insertFrom_classified srt hsrt (chunks.drop height) _ 0 handler hwf
        hwf.nonempty hc
      rw [hins] at h1 h2
      exact ⟨h1, h2⟩
    · rw [if_neg hh] at hins
      cases hins

theorem insertAll_reachable (routes : List (List Bytes × H)) :
    ∀ (hp hp1 : Heap H), Reachable srt hp → insertAll srt hp routes = (hp1, none) →
      Reachable srt hp1 := by
  induction routes with
  | nil =>
    intro hp hp1 hr h
    simp only [insertAll, Prod.mk.injEq, and_true] at h
    subst h
    exact hr
  | cons r rest ih =>
    intro hp hp1 hr h
    obtain ⟨cs, x⟩ := r
    unfold insertAll at h
    rcases h1 : node.insert srt hp 0 cs 0 (some x) with ⟨hp2, _ | msg⟩
    · rw [h1] at h
      exact ih hp2 hp1 (Reachable.insert cs 0 (some x) hr h1) h
    · rw [h1] at h
      cases h

/-- A list whose keys ascend and are 1, 2 or 3 is its elements with the key 1, followed
by those with the key 2, followed by those with the key 3. -/
theorem sorted_three (key : Nat → Nat) : ∀ l : List Nat,
    l.Pairwise (fun a b => key a ≤ key b) → (∀ a ∈ l, 1 ≤ key a ∧ key a ≤ 3) →
    l = l.filter (fun c => decide (key c = 1)) ++ l.filter (fun c => decide (key c = 2))
      ++ l.filter (fun c => decide (key c = 3)) := by
  intro l
  induction l with
  | nil => intro _ _; rfl
  | cons a t ih =>
    intro hs hk
    obtain ⟨ha, hst⟩ := List.pairwise_cons.mp hs
    have iht := ih hst (fun b hb => hk b (List.mem_cons_of_mem _ hb))
    have hka := hk a (List.mem_cons_self _ _)
    have hcases : key a = 1 ∨ key a = 2 ∨ key a = 3 := by omega
    have hf : ∀ k : Nat, k < key a → t.filter (fun c => decide (key c = k)) = [] := by
      intro k hlt
      apply List.filter_eq_nil_iff.mpr
      intro b hb
      have := ha b hb
      simp only [decide_eq_true_eq]
      omega
    rcases hcases with h1 | h2 | h3
    · have e1 : (a :: t).filter (fun c => decide (key c = 1))
          = a :: t.filter (fun c => decide (key c = 1)) :=
        List.filter_cons_of_pos (by simp [h1])
      have e2 : (a :: t).filter (fun c => decide (key c = 2))
          = t.filter (fun c => decide (key c = 2)) :=
        List.filter_cons_of_neg (by simp [h1])
      have e3 : (a :: t).filter (fun c => decide (key c = 3))
          = t.filter (fun c => decide (key c = 3)) :=
        List.filter_cons_of_neg (by simp [h1])
      rw [e1, e2, e3]
      exact congrArg (List.cons a) iht
    · have e1 : (a :: t).filter (fun c => decide (key c = 1))
          = t.filter (fun c => decide (key c = 1)) :=
        List.filter_cons_of_neg (by simp [h2])
      have e2 : (a :: t).filter (fun c => decide (key c = 2))
          = a :: t.filter (fun c => decide (key c = 2)) :=
        List.filter_cons_of_pos (by simp [h2])
      have e3 : (a :: t).filter (fun c => decide (key c = 3))
          = t.filter (fun c => decide (key c = 3)) :=
        List.filter_cons_of_neg (by simp [h2])
      have hf1 : t.filter (fun c => decide (key c = 1)) = [] := hf 1 (by omega)
      rw [e1, e2, e3, hf1]
      rw [hf1] at iht
      exact congrArg (List.cons a) iht
    · have e1 : (a :: t).filter (fun c => decide (key c = 1))
          = t.filter (fun c => decide (key c = 1)) :=
        List.filter_cons_of_neg (by simp [h3])
      have e2 : (a :: t).filter (fun c => decide (key c = 2))
          = t.filter (fun c => decide (key c = 2)) :=
        List.filter_cons_of_neg (by simp [h3])
      have e3 : (a :: t).filter (fun c => decide (key c = 3))
          = a :: t.filter (fun c => decide (key c = 3)) :=
        List.filter_cons_of_pos (by simp [h3])
      have hf1 : t.filter (fun c => decide (key c = 1)) = [] := hf 1 (by omega)
      have hf2 : t.filter (fun c => decide (key c = 2)) = [] := hf 2 (by omega)
      rw [e1, e2, e3, hf1, hf2]
      rw [hf1, hf2] at iht
      exact congrArg (List.cons a) iht

theorem WF.wildcard_iff {hp : Heap H} (hwf : WF hp) (p w : Nat) :
    (deref hp p).wildcard = some w ↔
      (w ∈ (deref hp p).children ∧ kindOf hp w = nodeWildcard) := by
  rw [hwf.wild p w]
  constructor
  · intro h
    refine ⟨h.1, ?_⟩
    rw [hwf.kind_eq p w h.1, h.2]
    rfl
  · intro h
    refine ⟨h.1, ?_⟩
    have := h.2
    rw [hwf.kind_eq p w h.1] at this
    exact chunkToKind_eq_wildcard.mp this

end ReachableTries

/-- C25: children stay sorted by kind.  In every trie that calls of node.insert at the
root build from the empty root, for every sort that meets the contract of sort.Sort: the
kinds of the children of every node ascend along the list; the list is the static
children, followed by the dynamic children, followed by the wildcard children, of which
there is at most one; every child is a node other than the root; and the kind of every
node other than the root is the classification of its chunk by chunkToKind, wildcard for
the empty chunk, dynamic for a chunk that starts with the colon, static for any other. -/
theorem children_sorted_by_kind {H : Type} (srt : (Nat → Nat) → List Nat → List Nat)
    (hsrt : SortsByKind srt) (hp : Heap H) (hr : Reachable srt hp) :
    (∀ p : Nat, (deref hp p).children.Pairwise (fun a b => kindOf hp a ≤ kindOf hp b)) ∧
    (∀ p : Nat, (deref hp p).children =
      childrenOfKind hp p nodeStatic ++ childrenOfKind hp p nodeDynamic
        ++ childrenOfKind hp p nodeWildcard) ∧
    (∀ p : Nat, (childrenOfKind hp p nodeWildcard).length ≤ 1) ∧
    (∀ p c : Nat, c ∈ (deref hp p).children → 0 < c ∧ c < hp.length) ∧
    (∀ p : Nat, 0 < p → p < hp.length →
      kindOf hp p = chunkToKind (chunkOf hp p) ∧
      kindOf hp p =
        if chunkOf hp p = [] then nodeWildcard
        else if (chunkOf hp p).head? = some vardec then nodeDynamic
        else nodeStatic) := by
  obtain ⟨hwf, hc⟩ := reachable_inv srt hsrt hr
  have hkind : ∀ p a : Nat, a ∈ (deref hp p).children →
      1 ≤ kindOf hp a ∧ kindOf hp a ≤ 3 := by
    intro p a ha
    rw [hwf.kind_eq p a ha]
    have h1 := chunkToKind_pos (chunkOf hp a)
    refine ⟨h1, ?_⟩
    unfold chunkToKind
    split
    · decide
    · split <;> decide
  refine ⟨hwf.sorted, ?_, ?_, ?_, ?_⟩
  · intro p
    exact sorted_three (kindOf hp) _ (hwf.sorted p) (hkind p)
  · intro p
    have hnd := hwf.nodup p
    have hall : ∀ a ∈ childrenOfKind hp p nodeWildcard, a ∈ (deref hp p).children ∧
        chunkOf hp a = [] := by
      intro a ha
      obtain ⟨hm, hk⟩ := List.mem_filter.mp ha
      simp only [decide_eq_true_eq] at hk
      rw [hwf.kind_eq p a hm] at hk
      exact ⟨hm, chunkToKind_eq_wildcard.mp hk⟩
    have hsub : (childrenOfKind hp p nodeWildcard).Sublist (deref hp p).children :=
      List.filter_sublist _
    have hnd2 : ((childrenOfKind hp p nodeWildcard).map (chunkOf hp)).Nodup :=
      hnd.sublist (hsub.map _)
    have hconst : (childrenOfKind hp p nodeWildcard).map (chunkOf hp)
        = List.replicate (childrenOfKind hp p nodeWildcard).length [] := by
      apply List.eq_replicate_iff.mpr
      refine ⟨by simp, ?_⟩
      intro b hb
      obtain ⟨a, ha, rfl⟩ := List.mem_map.mp hb
      exact (hall a ha).2
    rw [hconst] at hnd2
    exact List.nodup_replicate.mp hnd2
  · intro p c hm
    have := hwf.child_gt p c hm
    omega
  · intro p hp0 hlt
    have h := hc p hp0 hlt
    refine ⟨h, ?_⟩
    rw [h]
    unfold chunkToKind
    cases chunkOf hp p with
    | nil => rfl
    | cons x t =>
      by_cases hx : x = vardec
      · simp [hx]
      · simp [hx]

/-- C25 (witness): the trie of TestLookup_Priority, built from the wildcard route, the
dynamic route and the static route in that order: the children of the node of the
leading empty segment are the static child, the dynamic child and the wildcard child. -/
theorem children_sorted_by_kind_witness :
    (deref (insertAll sortSort (emptyTrie : Heap Nat) priorityRoutes).1 1).children
      = childrenOfKind (insertAll sortSort (emptyTrie : Heap Nat) priorityRoutes).1 1
          nodeStatic
        ++ childrenOfKind (insertAll sortSort (emptyTrie : Heap Nat) priorityRoutes).1 1
          nodeDynamic
        ++ childrenOfKind (insertAll sortSort (emptyTrie : Heap Nat) priorityRoutes).1 1
          nodeWildcard :=
  (children_sorted_by_kind sortSort sortSort_sorts
    (insertAll sortSort (emptyTrie : Heap Nat) priorityRoutes).1
    (insertAll_reachable sortSort priorityRoutes emptyTrie _ Reachable.empty
      (pair_of_snd (by decide)))).2.1 1

/-- C26: the cache of the wildcard child is consistent.  In every trie that calls of
node.insert at the root build from the empty root, for every sort that meets the
contract of sort.Sort: no two children of a node have the same chunk; a node has at most
one child of the kind wildcard; the field wildcard of a node is set to a node exactly
when that node is a child of the kind wildcard of the node, and it is nil exactly when
the node has no child of the kind wildcard. -/
theorem wildcard_cache_consistent {H : Type} (srt : (Nat → Nat) → List Nat → List Nat)
    (hsrt : SortsByKind srt) (hp : Heap H) (hr : Reachable srt hp) :
    (∀ p a b : Nat, a ∈ (deref hp p).children → b ∈ (deref hp p).children →
      chunkOf hp a = chunkOf hp b → a = b) ∧
    (∀ p a b : Nat, a ∈ (deref hp p).children → b ∈ (deref hp p).children →
      kindOf hp a = nodeWildcard → kindOf hp b = nodeWildcard → a = b) ∧
    (∀ p w : Nat, (deref hp p).wildcard = some w ↔
      (w ∈ (deref hp p).children ∧ kindOf hp w = nodeWildcard)) ∧
    (∀ p : Nat, (deref hp p).wildcard = none ↔
      ∀ c ∈ (deref hp p).children, kindOf hp c ≠ nodeWildcard) := by
  obtain ⟨hwf, -⟩ := reachable_inv srt hsrt hr
  have hinj : ∀ p a b : Nat, a ∈ (deref hp p).children → b ∈ (deref hp p).children →
      chunkOf hp a = chunkOf hp b → a = b := by
    intro p a b ha hb hab
    exact List.inj_on_of_nodup_map (hwf.nodup p) ha hb hab
  have hkw : ∀ p c : Nat, c ∈ (deref hp p).children →
      (kindOf hp c = nodeWildcard ↔ chunkOf hp c = []) := by
    intro p c hm
    rw [hwf.kind_eq p c hm]
    exact chunkToKind_eq_wildcard
  have hset : ∀ p w : Nat, (deref hp p).wildcard = some w ↔
      (w ∈ (deref hp p).children ∧ kindOf hp w = nodeWildcard) := by
    intro p w
    rw [hwf.wild p w]
    constructor
    · intro h; exact ⟨h.1, (hkw p w h.1).mpr h.2⟩
    · intro h; exact ⟨h.1, (hkw p w h.1).mp h.2⟩
  refine ⟨hinj, ?_, hset, ?_⟩
  · intro p a b ha hb hka hkb
    apply hinj p a b ha hb
    rw [(hkw p a ha).mp hka, (hkw p b hb).mp hkb]
  · intro p
    constructor
    · intro hnone c hm hk
      have := (hset p c).mpr ⟨hm, hk⟩
      rw [hnone] at this
      cases this
    · intro hall
      cases hw : (deref hp p).wildcard with
      | none => rfl
      | some w =>
        have := (hset p w).mp hw
        exact absurd this.2 (hall w this.1)

/-- C26 (witness): in the trie of TestLookup_Static_Wildcard the field wildcard of the
node of `/ping/pong` is its child for the trailing empty segment. -/
theorem wildcard_cache_consistent_witness :
    (deref (insertAll sortSort (emptyTrie : Heap Nat) staticWildcardRoutes).1 5).wildcard
        = some 6 ↔
      (6 ∈ (deref (insertAll sortSort (emptyTrie : Heap Nat) staticWildcardRoutes).1 5).children
        ∧ kindOf (insertAll sortSort (emptyTrie : Heap Nat) staticWildcardRoutes).1 6
          = nodeWildcard) :=
  (wildcard_cache_consistent sortSort sortSort_sorts
    (insertAll sortSort (emptyTrie : Heap Nat) staticWildcardRoutes).1
    (insertAll_reachable sortSort staticWildcardRoutes emptyTrie _ Reachable.empty
      (pair_of_snd (by decide)))).2.2.1 5 6

/-! ### Runs of node.lookup -/

section LookupRuns

variable {H : Type}

theorem visit_cons (hp : Heap H) (alloc : Vars) (cur : Nat) (vars : Option Vars)
    (chunk : Bytes) (rest : List Bytes) :
    visit hp alloc cur vars (chunk :: rest) =
      match scanChildren hp alloc chunk vars (deref hp cur).children with
      | .next child vars1 =>
        match visit hp alloc child vars1 rest with
        | some (nodes, vars2) => some (child :: nodes, vars2)
        | none => none
      | _ => none := rfl

theorem visit_cons_inv {hp : Heap H} {alloc : Vars} {cur : Nat} {vars vars2 : Option Vars}
    {chunk : Bytes} {rest : List Bytes} {nodes : List Nat}
    (h : visit hp alloc cur vars (chunk :: rest) = some (nodes, vars2)) :
    ∃ (child : Nat) (vars1 : Option Vars) (nodes1 : List Nat),
      scanChildren hp alloc chunk vars (deref hp cur).children = .next child vars1 ∧
      visit hp alloc child vars1 rest = some (nodes1, vars2) ∧ nodes = child :: nodes1 := by
  rw [visit_cons] at h
  cases hs : scanChildren hp alloc chunk vars (deref hp cur).children with
  | miss => rw [hs] at h; cases h
  | panic msg => rw [hs] at h; cases h
  | next child vars1 =>
    rw [hs] at h
    simp only at h
    cases hv : visit hp alloc child vars1 rest with
    | none => rw [hv] at h; cases h
    | some r =>
      obtain ⟨nodes1, v2⟩ := r
      rw [hv] at h
      simp only [Option.some.injEq, Prod.mk.injEq] at h
      exact ⟨child, vars1, nodes1, rfl, by rw [← h.2, hv], h.1.symm⟩

theorem visit_length {hp : Heap H} {alloc : Vars} (pre : List Bytes) :
    ∀ {cur : Nat} {vars vars1 : Option Vars} {nodes : List Nat},
      visit hp alloc cur vars pre = some (nodes, vars1) → nodes.length = pre.length := by
  induction pre with
  | nil =>
    intro cur vars vars1 nodes h
    simp only [visit, Option.some.injEq, Prod.mk.injEq] at h
    simp [← h.1]
  | cons c cs ih =>
    intro cur vars vars1 nodes h
    obtain ⟨child, v1, nodes1, -, hv, hn⟩ := visit_cons_inv h
    rw [hn, List.length_cons, List.length_cons, ih hv]

/-- The run of the loop over chunks that all find a child: the loop goes on at the node
entered last, with wild recorded at every node of the run but that one. -/
theorem lookupLoop_visit (hp : Heap H) (alloc : Vars) (pre : List Bytes) :
    ∀ (cur : Nat) (wild : Option Ptr) (vars vars1 : Option Vars) (nodes : List Nat)
      (rest : List Bytes), visit hp alloc cur vars pre = some (nodes, vars1) →
      lookupLoop hp alloc cur wild vars (pre ++ rest) =
        lookupLoop hp alloc (lastNode cur nodes) (wildOf hp wild (leftNodes cur nodes))
          vars1 rest := by
  induction pre with
  | nil =>
    intro cur wild vars vars1 nodes rest h
    simp only [visit, Option.some.injEq, Prod.mk.injEq] at h
    obtain ⟨h1, h2⟩ := h
    subst h1 h2
    rfl
  | cons c cs ih =>
    intro cur wild vars vars1 nodes rest h
    obtain ⟨child, v1, nodes1, hs, hv, hn⟩ := visit_cons_inv h
    subst hn
    rw [List.cons_append, lookupLoop_cons, hs]
    simp only
    rw [ih child _ v1 vars1 nodes1 rest hv]
    rfl

theorem wildOf_append (hp : Heap H) (l1 l2 : List Nat) :
    ∀ wild : Option Ptr, wildOf hp wild (l1 ++ l2) = wildOf hp (wildOf hp wild l1) l2 := by
  induction l1 with
  | nil => intro wild; rfl
  | cons a t ih => intro wild; exact ih _

theorem leftNodes_append_last (cur : Nat) (nodes : List Nat) :
    leftNodes cur nodes ++ [lastNode cur nodes] = cur :: nodes := by
  induction nodes generalizing cur with
  | nil => rfl
  | cons a t ih =>
    show cur :: (leftNodes a t ++ [lastNode a t]) = _
    rw [ih a]

theorem wildOf_all (hp : Heap H) (cur : Nat) (nodes : List Nat) (wild : Option Ptr) :
    wildOf hp wild (cur :: nodes) =
      match (deref hp (lastNode cur nodes)).wildcard with
      | some w => some w
      | none => wildOf hp wild (leftNodes cur nodes) := by
  conv_lhs => rw [← leftNodes_append_last cur nodes]
  rw [wildOf_append]
  rfl

theorem wildOf_some_iff (hp : Heap H) (l : List Nat) : ∀ (wild : Option Ptr) (w : Nat),
    wildOf hp wild l = some w ↔
      (∃ front q back, l = front ++ q :: back ∧ (deref hp q).wildcard = some w ∧
        ∀ r ∈ back, (deref hp r).wildcard = none) ∨
      (wild = some w ∧ ∀ r ∈ l, (deref hp r).wildcard = none) := by
  induction l with
  | nil =>
    intro wild w
    simp [wildOf]
  | cons a t ih =>
    intro wild w
    rw [wildOf, ih]
    constructor
    · rintro (⟨front, q, back, ht, hq, hb⟩ | ⟨hw, hall⟩)
      · left
        exact ⟨a :: front, q, back, by rw [ht]; rfl, hq, hb⟩
      · cases ha : (deref hp a).wildcard with
        | none =>
          rw [ha] at hw
          right
          refine ⟨hw, ?_⟩
          intro r hr
          rcases List.mem_cons.mp hr with h | h
          · rw [h]; exact ha
          · exact hall r h
        | some x =>
          rw [ha] at hw
          simp only [Option.some.injEq] at hw
          subst hw
          left
          exact ⟨[], a, t, rfl, ha, hall⟩
    · rintro (⟨front, q, back, hl, hq, hb⟩ | ⟨hw, hall⟩)
      · cases front with
        | nil =>
          simp only [List.nil_append, List.cons.injEq] at hl
          obtain ⟨h1, h2⟩ := hl
          subst h1 h2
          right
          rw [hq]
          exact ⟨rfl, hb⟩
        | cons f fs =>
          simp only [List.cons_append, List.cons.injEq] at hl
          left
          exact ⟨fs, q, back, hl.2, hq, hb⟩
      · right
        have ha := hall a (List.mem_cons_self _ _)
        rw [ha]
        exact ⟨hw, fun r hr => hall r (List.mem_cons_of_mem _ hr)⟩

theorem wildOf_none_iff (hp : Heap H) (l : List Nat) : ∀ (wild : Option Ptr),
    wildOf hp wild l = none ↔ wild = none ∧ ∀ r ∈ l, (deref hp r).wildcard = none := by
  induction l with
  | nil => intro wild; simp [wildOf]
  | cons a t ih =>
    intro wild
    rw [wildOf, ih]
    cases ha : (deref hp a).wildcard with
    | none => simp [ha]
    | some x => simp [ha]

/-- What a step of the scan into a child does with the variables: a dynamic child
appends its pair, any other child leaves them. -/
theorem scan_next_vars (hp : Heap H) (alloc : Vars) (chunk : Bytes) (vars : Option Vars) :
    ∀ (l : List Nat) (child : Nat) (vars1 : Option Vars),
      scanChildren hp alloc chunk vars l = .next child vars1 →
      child ∈ l ∧ matchesChunk hp child chunk ∧
      vars1 = pushVars alloc vars
        (if kindOf hp child = nodeDynamic then
          [{ Key := (chunkOf hp child).drop 1, Value := chunk }] else []) := by
  intro l
  induction l with
  | nil => intro child vars1 h; cases h
  | cons c cs ih =>
    intro child vars1 h
    rw [scanChildren_cons] at h
    by_cases h1 : (deref hp c).kind = nodeStatic ∧ chunk = (deref hp c).chunk
    · rw [if_pos h1] at h
      simp only [Scan.next.injEq] at h
      obtain ⟨rfl, rfl⟩ := h
      have hk : kindOf hp c ≠ nodeDynamic := by
        unfold kindOf
        rw [h1.1]
        decide
      refine ⟨List.mem_cons_self _ _, Or.inl h1, ?_⟩
      rw [if_neg hk]
      rfl
    · rw [if_neg h1] at h
      by_cases h2 : (deref hp c).kind = nodeDynamic
      · rw [if_pos h2] at h
        split at h
        · cases h
        · cases hch : (deref hp c).chunk with
          | nil => rw [hch] at h; cases h
          | cons x key =>
            rw [hch] at h
            simp only [Scan.next.injEq] at h
            obtain ⟨rfl, rfl⟩ := h
            refine ⟨List.mem_cons_self _ _, Or.inr (Or.inl h2), ?_⟩
            have hk : kindOf hp c = nodeDynamic := h2
            rw [if_pos hk]
            have hd : (chunkOf hp c).drop 1 = key := by
              unfold chunkOf
              rw [hch]
              rfl
            rw [hd]
            cases vars <;> rfl
      · rw [if_neg h2] at h
        by_cases h3 : (deref hp c).kind = nodeWildcard
        · rw [if_pos h3] at h
          simp only [Scan.next.injEq] at h
          obtain ⟨rfl, rfl⟩ := h
          have hk : kindOf hp c ≠ nodeDynamic := h2
          refine ⟨List.mem_cons_self _ _, Or.inr (Or.inr h3), ?_⟩
          rw [if_neg hk]
          rfl
        · rw [if_neg h3] at h
          obtain ⟨hm, hmatch, hv⟩ := ih child vars1 h
          exact ⟨List.mem_cons_of_mem _ hm, hmatch, hv⟩

/-- The scan misses exactly when no child matches the chunk. -/
theorem scan_miss_iff (hp : Heap H) (alloc : Vars) (chunk : Bytes) (vars : Option Vars) :
    ∀ l : List Nat, scanChildren hp alloc chunk vars l = .miss ↔
      ∀ c ∈ l, ¬ matchesChunk hp c chunk := by
  intro l
  induction l with
  | nil => simp [scanChildren]
  | cons c cs ih =>
    rw [scanChildren_cons]
    by_cases h1 : (deref hp c).kind = nodeStatic ∧ chunk = (deref hp c).chunk
    · rw [if_pos h1]
      simp only [reduceCtorEq, false_iff, not_forall]
      exact ⟨c, List.mem_cons_self _ _, fun hn => hn (Or.inl h1)⟩
    · rw [if_neg h1]
      by_cases h2 : (deref hp c).kind = nodeDynamic
      · rw [if_pos h2]
        have hne : ¬ ∀ c1 ∈ c :: cs, ¬ matchesChunk hp c1 chunk :=
          fun hall => hall c (List.mem_cons_self _ _) (Or.inr (Or.inl h2))
        constructor
        · intro h
          exfalso
          split at h
          · cases h
          · split at h <;> cases h
        · intro h; exact absurd h hne
      · rw [if_neg h2]
        by_cases h3 : (deref hp c).kind = nodeWildcard
        · rw [if_pos h3]
          simp only [reduceCtorEq, false_iff, not_forall]
          exact ⟨c, List.mem_cons_self _ _, fun hn => hn (Or.inr (Or.inr h3))⟩
        · rw [if_neg h3, ih]
          constructor
          · intro hall c1 hc1
            rcases List.mem_cons.mp hc1 with h | h
            · rw [h]
              rintro (hm | hm | hm)
              · exact h1 hm
              · exact h2 hm
              · exact h3 hm
            · exact hall c1 h
          · intro hall c1 hc1
            exact hall c1 (List.mem_cons_of_mem _ hc1)

theorem pushVars_nil (alloc : Vars) (vars : Option Vars) : pushVars alloc vars [] = vars := rfl

theorem pushVars_append (alloc : Vars) (vars : Option Vars) (a b : List Var) :
    pushVars alloc (pushVars alloc vars a) b = pushVars alloc vars (a ++ b) := by
  cases a with
  | nil => rfl
  | cons x xs =>
    cases b with
    | nil => simp [pushVars]
    | cons y ys => cases vars <;> simp [pushVars]

/-- The variables after a run are the variables before it with the pairs captured at the
dynamic nodes of the run appended, in the order of the run. -/
theorem visit_vars (hp : Heap H) (alloc : Vars) (pre : List Bytes) :
    ∀ (cur : Nat) (vars vars1 : Option Vars) (nodes : List Nat),
      visit hp alloc cur vars pre = some (nodes, vars1) →
      vars1 = pushVars alloc vars (capturedAt hp nodes pre) := by
  induction pre with
  | nil =>
    intro cur vars vars1 nodes h
    simp only [visit, Option.some.injEq, Prod.mk.injEq] at h
    obtain ⟨h1, h2⟩ := h
    subst h1 h2
    rfl
  | cons c cs ih =>
    intro cur vars vars1 nodes h
    obtain ⟨child, v1, nodes1, hs, hv, hn⟩ := visit_cons_inv h
    subst hn
    obtain ⟨-, -, hv1⟩ := scan_next_vars hp alloc c vars _ child v1 hs
    rw [ih child v1 vars1 nodes1 hv, hv1, pushVars_append]
    rfl

theorem varsList_pushVars_none (alloc : Vars) (h : alloc.elems = []) (caps : List Var) :
    varsList (pushVars alloc none caps) = caps := by
  cases caps with
  | nil => rfl
  | cons x xs => simp [pushVars, varsList, h]

/-- A node that the lookup returns carries a handler, or it is the value of wild: the
value at the start or the field wildcard of a node. -/
theorem lookupLoop_ret (hp : Heap H) (alloc : Vars) (chunks : List Bytes) :
    ∀ (cur : Nat) (wild : Option Ptr) (vars vars1 : Option Vars) (p : Nat),
      lookupLoop hp alloc cur wild vars chunks = .ret (some p) vars1 →
      (deref hp p).handler.isSome = true ∨ wild = some p ∨
        ∃ q : Nat, (deref hp q).wildcard = some p := by
  induction chunks with
  | nil =>
    intro cur wild vars vars1 p h
    rw [lookupLoop_nil] at h
    by_cases hh : (deref hp cur).handler.isNone = true
    · rw [if_pos hh] at h
      simp only [Lookup.ret.injEq] at h
      right; left; exact h.1
    · rw [if_neg hh] at h
      simp only [Lookup.ret.injEq, Option.some.injEq] at h
      left
      rw [← h.1]
      cases hx : (deref hp cur).handler with
      | none => rw [hx] at hh; simp at hh
      | some x => rfl
  | cons c cs ih =>
    intro cur wild vars vars1 p h
    rw [lookupLoop_cons] at h
    have hw : ∀ x : Nat, (match (deref hp cur).wildcard with
        | some w => some w
        | none => wild) = some x → wild = some x ∨ ∃ q : Nat, (deref hp q).wildcard = some x := by
      intro x hx
      cases hc : (deref hp cur).wildcard with
      | none => rw [hc] at hx; left; exact hx
      | some w =>
        rw [hc] at hx
        simp only [Option.some.injEq] at hx
        subst hx
        right
        exact ⟨cur, hc⟩
    cases hs : scanChildren hp alloc c vars (deref hp cur).children with
    | miss =>
      rw [hs] at h
      simp only [Lookup.ret.injEq] at h
      right
      exact hw p h.1
    | panic msg => rw [hs] at h; cases h
    | next child v1 =>
      rw [hs] at h
      simp only at h
      rcases ih child _ v1 vars1 p h with h1 | h1 | h1
      · left; exact h1
      · right; exact hw p h1
      · right; right; exact h1

end LookupRuns

/-! ### What node.lookup returns (C21) -/

/-- C21 (the claim as stated fails): in the trie of TestLookup_Static_Wildcard the lookup
of `/` returns the node of the leading empty segment, which carries no handler (the test
counts this as not found); and the lookup of `/ping` consumes its segments, lands on the
node of `ping`, which carries no handler, and falls back to the same node without
handler. -/
theorem lookup_returns_handlerless :
    node.lookup (insertAll sortSort (emptyTrie : Heap Nat) staticWildcardRoutes).1 0
      (splitSlash (bytes "/")) testAlloc = .ret (some 1) none ∧
    (deref (insertAll sortSort (emptyTrie : Heap Nat) staticWildcardRoutes).1 1).handler
      = none ∧
    visit (insertAll sortSort (emptyTrie : Heap Nat) staticWildcardRoutes).1 testAlloc 0 none
      (splitSlash (bytes "/ping")) = some ([1, 4], none) ∧
    (deref (insertAll sortSort (emptyTrie : Heap Nat) staticWildcardRoutes).1 4).handler
      = none ∧
    node.lookup (insertAll sortSort (emptyTrie : Heap Nat) staticWildcardRoutes).1 0
      (splitSlash (bytes "/ping")) testAlloc = .ret (some 1) none := by
  decide

/-- C21 (amended): what node.lookup returns in a trie built by inserts.  A node that the
lookup returns carries a handler, or it is a child of the kind wildcard of some node,
cached in the field wildcard of that node, and may carry no handler.  When every chunk
finds a child, the lookup returns the node at which the run arrives if that node carries
a handler, and else the wildcard recorded at the nodes that the run left behind, which
may be nil.  Router.ServeHTTP answers not found when the node that the lookup returns
carries no handler. -/
theorem lookup_result_cases {H : Type} (srt : (Nat → Nat) → List Nat → List Nat)
    (hsrt : SortsByKind srt) (hp : Heap H) (hr : Reachable srt hp) (alloc : Vars)
    (n : Nat) (chunks : List Bytes) :
    (∀ (p : Nat) (vars : Option Vars), node.lookup hp n chunks alloc = .ret (some p) vars →
      (deref hp p).handler.isSome = true ∨
      ∃ q : Nat, (deref hp q).wildcard = some p ∧ p ∈ (deref hp q).children ∧
        kindOf hp p = nodeWildcard) ∧
    (∀ (nodes : List Nat) (vars : Option Vars),
      visit hp alloc n none chunks = some (nodes, vars) →
      ((deref hp (lastNode n nodes)).handler = none →
        node.lookup hp n chunks alloc = .ret (wildOf hp none (leftNodes n nodes)) vars) ∧
      ((deref hp (lastNode n nodes)).handler.isSome = true →
        node.lookup hp n chunks alloc = .ret (some (lastNode n nodes)) vars)) ∧
    (∀ (r : Router H) (req : Request) (i : Nat) (hp1 : Heap H) (p : Nat)
      (vars : Option Vars), req.RequestURI ≠ bytes "*" → hash req.Method = some i →
      i < treesLen → r.trees.getD i none = some hp1 →
      node.lookup hp1 0 (unsafeParse (if req.Path.length = 0 then [slash] else req.Path) [])
        routerAlloc = .ret (some p) vars →
      (deref hp1 p).handler = none → r.ServeHTTP req = .notFound) := by
  obtain ⟨hwf, -⟩ := reachable_inv srt hsrt hr
  refine ⟨?_, ?_, ?_⟩
  · intro p vars h
    rcases lookupLoop_ret hp alloc chunks n none none vars p h with h1 | h1 | ⟨q, hq⟩
    · left; exact h1
    · cases h1
    · right
      have := (hwf.wildcard_iff q p).mp hq
      exact ⟨q, hq, this.1, this.2⟩
  · intro nodes vars hv
    have h := lookupLoop_visit hp alloc chunks n none none vars nodes [] hv
    rw [List.append_nil] at h
    constructor
    · intro hnone
      unfold node.lookup
      rw [h, lookupLoop_nil, hnone]
      rfl
    · intro hsome
      unfold node.lookup
      rw [h, lookupLoop_nil]
      cases hx : (deref hp (lastNode n nodes)).handler with
      | none => rw [hx] at hsome; cases hsome
      | some x => rfl
  · intro r req i hp1 p vars huri hhash hi htree hlook hnone
    have hi1 : ¬ treesLen ≤ i := by omega
    unfold Router.ServeHTTP
    rw [if_neg huri]
    simp only [hhash, hi1, if_false, htree, hlook, hnone]

/-- C21 (witness): the lookup of `/ping` in the trie of TestLookup_Static_Wildcard. -/
theorem lookup_result_cases_witness :
    node.lookup (insertAll sortSort (emptyTrie : Heap Nat) staticWildcardRoutes).1 0
      (splitSlash (bytes "/ping")) testAlloc
      = .ret (wildOf (insertAll sortSort (emptyTrie : Heap Nat) staticWildcardRoutes).1 none
          (leftNodes 0 [1, 4])) none :=
  ((lookup_result_cases sortSort sortSort_sorts
    (insertAll sortSort (emptyTrie : Heap Nat) staticWildcardRoutes).1
    (insertAll_reachable sortSort staticWildcardRoutes emptyTrie _ Reachable.empty
      (pair_of_snd (by decide))) testAlloc 0 (splitSlash (bytes "/ping"))).2.1
    [1, 4] none (by decide)).1 (by decide)

/-! ### The dead end (C22) -/

/-- C22: dead-end fallback.  A run of the loop of node.lookup from a node enters a child
for every chunk of a first part of the chunks and arrives at a node none of whose
children matches the next chunk.  Then the lookup returns at once, whatever chunks
follow and whatever other branches the trie has: the node returned is the value of wild
recorded at the nodes of the run, the node of the dead end included, that is the field
wildcard of the last of these nodes that has one, and nil when none has one; the
variables returned are the pairs captured at the dynamic nodes of the run, in its order.
In a trie built by inserts the field wildcard of a node is its child of the kind
wildcard. -/
theorem dead_end_fallback {H : Type} (hp : Heap H) (alloc : Vars) (n : Nat)
    (pre : List Bytes) (chunk : Bytes) (post : List Bytes) (nodes : List Nat)
    (vars : Option Vars) (hvisit : visit hp alloc n none pre = some (nodes, vars))
    (hdead : ∀ c ∈ (deref hp (lastNode n nodes)).children, ¬ matchesChunk hp c chunk) :
    node.lookup hp n (pre ++ chunk :: post) alloc = .ret (wildOf hp none (n :: nodes)) vars ∧
    (∀ w : Nat, wildOf hp none (n :: nodes) = some w ↔
      ∃ front q back, n :: nodes = front ++ q :: back ∧ (deref hp q).wildcard = some w ∧
        ∀ r ∈ back, (deref hp r).wildcard = none) ∧
    (wildOf hp none (n :: nodes) = none ↔ ∀ q ∈ n :: nodes, (deref hp q).wildcard = none) ∧
    vars = pushVars alloc none (capturedAt hp nodes pre) ∧
    (alloc.elems = [] → varsList vars = capturedAt hp nodes pre) ∧
    (∀ srt : (Nat → Nat) → List Nat → List Nat, SortsByKind srt → Reachable srt hp →
      ∀ q w : Nat, (deref hp q).wildcard = some w ↔
        (w ∈ (deref hp q).children ∧ kindOf hp w = nodeWildcard)) := by
  have hv := visit_vars hp alloc pre n none vars nodes hvisit
  refine ⟨?_, ?_, ?_, hv, ?_, ?_⟩
  · unfold node.lookup
    rw [lookupLoop_visit hp alloc pre n none none vars nodes (chunk :: post) hvisit,
      lookupLoop_cons, (scan_miss_iff hp alloc chunk vars _).mpr hdead]
    simp only
    rw [wildOf_all]
  · intro w
    rw [wildOf_some_iff]
    constructor
    · rintro (h | ⟨h, -⟩)
      · exact h
      · cases h
    · intro h; exact Or.inl h
  · rw [wildOf_none_iff]
    simp
  · intro ha
    rw [hv]
    exact varsList_pushVars_none alloc ha _
  · intro srt hsrt hr q w
    exact (reachable_inv srt hsrt hr).1.wildcard_iff q w

/-- C22 (witness): with the routes `/a/b` and `/:x/c`, the lookup of `/a/c` enters the
static node of `a`, finds no child for `c` and returns the wildcard recorded at the root,
without trying the branch of `/:x/c`. -/
theorem dead_end_fallback_witness :
    node.lookup (insertAll sortSort (emptyTrie : Heap Nat) deadEndRoutes).1 0
      ([[], bytes "a"] ++ bytes "c" :: []) testAlloc
      = .ret (wildOf (insertAll sortSort (emptyTrie : Heap Nat) deadEndRoutes).1 none
          (0 :: [1, 2])) none :=
  (dead_end_fallback (insertAll sortSort (emptyTrie : Heap Nat) deadEndRoutes).1 testAlloc 0
    [[], bytes "a"] (bytes "c") [] [1, 2] none (by decide)
    (by
      intro c hc
      have h3 : c = 3 := by
        have : (deref (insertAll sortSort (emptyTrie : Heap Nat) deadEndRoutes).1
            (lastNode 0 [1, 2])).children = [3] := by decide
        rw [this] at hc
        simpa using hc
      subst h3
      unfold matchesChunk
      decide)).1

/-! ### Dynamic before wildcard (C23) -/

section DynamicFirst

variable {H : Type}

/-- In a list of children that ascends by kind and holds a dynamic child, the scan
never enters a wildcard child. -/
theorem scan_not_wildcard (hp : Heap H) (alloc : Vars) (chunk : Bytes) (d : Nat)
    (hd : kindOf hp d = nodeDynamic) :
    ∀ (l : List Nat) (vars : Option Vars) (w : Nat) (vars1 : Option Vars),
      l.Pairwise (fun a b => kindOf hp a ≤ kindOf hp b) → d ∈ l →
      scanChildren hp alloc chunk vars l = .next w vars1 → kindOf hp w ≠ nodeWildcard := by
  intro l
  induction l with
  | nil => intro vars w vars1 _ hm; cases hm
  | cons c cs ih =>
    intro vars w vars1 hs hm h
    rw [scanChildren_cons] at h
    by_cases h1 : (deref hp c).kind = nodeStatic ∧ chunk = (deref hp c).chunk
    · rw [if_pos h1] at h
      simp only [Scan.next.injEq] at h
      obtain ⟨rfl, -⟩ := h
      unfold kindOf
      rw [h1.1]
      decide
    · rw [if_neg h1] at h
      by_cases h2 : (deref hp c).kind = nodeDynamic
      · rw [if_pos h2] at h
        split at h
        · cases h
        · cases hch : (deref hp c).chunk with
          | nil => rw [hch] at h; cases h
          | cons x key =>
            rw [hch] at h
            simp only [Scan.next.injEq] at h
            obtain ⟨rfl, -⟩ := h
            unfold kindOf
            rw [h2]
            decide
      · rw [if_neg h2] at h
        have hdc : d ≠ c := by
          intro e
          subst e
          exact h2 hd
        have hmem : d ∈ cs := by
          rcases List.mem_cons.mp hm with e | e
          · exact absurd e hdc
          · exact e
        by_cases h3 : (deref hp c).kind = nodeWildcard
        · have hle : kindOf hp c ≤ kindOf hp d := (List.pairwise_cons.mp hs).1 d hmem
          have hc3 : kindOf hp c = 3 := h3
          have hd2 : kindOf hp d = 2 := hd
          omega
        · rw [if_neg h3] at h
          exact ih vars w vars1 (List.pairwise_cons.mp hs).2 hmem h

/-- The scan of a list of children that ascends by kind, for a chunk that is the bytes
of no static child in it, enters the first dynamic child and appends its pair, when the
slice has room. -/
theorem scan_first_dynamic (hp : Heap H) (alloc : Vars) (chunk : Bytes) (vars : Option Vars)
    (d : Nat) (hch : chunkOf hp d ≠ [])
    (hroom : (vars.getD alloc).elems.length < (vars.getD alloc).cap) :
    ∀ (l : List Nat), l.Pairwise (fun a b => kindOf hp a ≤ kindOf hp b) →
      l.find? (fun c => decide (kindOf hp c = nodeDynamic)) = some d →
      (∀ c ∈ l, kindOf hp c = nodeStatic → chunkOf hp c ≠ chunk) →
      scanChildren hp alloc chunk vars l
        = .next d (some { vars.getD alloc with
            elems := (vars.getD alloc).elems ++
              [{ Key := (chunkOf hp d).drop 1, Value := chunk }] }) := by
  intro l
  induction l with
  | nil => intro _ hf; cases hf
  | cons c cs ih =>
    intro hs hf hst
    rw [scanChildren_cons]
    have h1 : ¬ ((deref hp c).kind = nodeStatic ∧ chunk = (deref hp c).chunk) := by
      rintro ⟨hk, he⟩
      exact hst c (List.mem_cons_self _ _) hk he.symm
    rw [if_neg h1]
    by_cases h2 : (deref hp c).kind = nodeDynamic
    · have hk : kindOf hp c = nodeDynamic := h2
      rw [List.find?_cons_of_pos _ (by simpa using hk)] at hf
      simp only [Option.some.injEq] at hf
      subst hf
      rw [if_pos h2]
      unfold chunkOf at hch
      cases vars with
      | none =>
        simp only [Option.getD_none] at hroom ⊢
        rw [if_neg (by omega)]
        cases hc : (deref hp c).chunk with
        | nil => exact absurd hc hch
        | cons x key =>
          simp only [chunkOf, hc, List.drop_succ_cons, List.drop_zero]
      | some v =>
        simp only [Option.getD_some] at hroom ⊢
        rw [if_neg (by omega)]
        cases hc : (deref hp c).chunk with
        | nil => exact absurd hc hch
        | cons x key =>
          simp only [chunkOf, hc, List.drop_succ_cons, List.drop_zero]
    · have hk : ¬ kindOf hp c = nodeDynamic := h2
      rw [List.find?_cons_of_neg _ (by simpa using hk)] at hf
      rw [if_neg h2]
      have hmem : d ∈ cs := List.mem_of_find?_eq_some hf
      have hdk : kindOf hp d = nodeDynamic := by
        have := List.find?_some hf
        simpa using this
      have h3 : ¬ (deref hp c).kind = nodeWildcard := by
        intro h3
        have hle : kindOf hp c ≤ kindOf hp d := (List.pairwise_cons.mp hs).1 d hmem
        have hc3 : kindOf hp c = 3 := h3
        have hd2 : kindOf hp d = 2 := hdk
        omega
      rw [if_neg h3]
      exact ih (List.pairwise_cons.mp hs).2 hf
        (fun a ha => hst a (List.mem_cons_of_mem _ ha))

end DynamicFirst

/-- C23 (the claim as stated fails): after ten dynamic segments the node reached has a
dynamic child and a wildcard child; the eleventh segment of the request equals no static
child, and the lookup with the slice of testAlloc, of capacity ten, panics at the capture
instead of descending into the dynamic child. -/
theorem dynamic_capture_no_room :
    (insertAll sortSort (emptyTrie : Heap Nat) elevenDynamic).2 = none ∧
    (deref (insertAll sortSort (emptyTrie : Heap Nat) elevenDynamic).1 11).children
      = [12, 13] ∧
    kindOf (insertAll sortSort (emptyTrie : Heap Nat) elevenDynamic).1 12 = nodeDynamic ∧
    kindOf (insertAll sortSort (emptyTrie : Heap Nat) elevenDynamic).1 13 = nodeWildcard ∧
    (visit (insertAll sortSort (emptyTrie : Heap Nat) elevenDynamic).1 testAlloc 0 none
      ([] :: List.replicate 10 (bytes "v"))).map (fun r => lastNode 0 r.1) = some 11 ∧
    node.lookup (insertAll sortSort (emptyTrie : Heap Nat) elevenDynamic).1 0
      ([] :: List.replicate 11 (bytes "v")) testAlloc
      = .panic "slice bounds out of range" := by
  decide

/-- C23 (amended): dynamic beats wildcard, also for the empty segment, while the slice
of the variables has room.  In a trie built by inserts, at a node that has a dynamic
child, the scan of node.lookup for a segment that is the bytes of no static child of
the node (the empty segment included) enters the first dynamic child and appends the
pair of its name and the segment, provided the slice of the variables is below its
capacity; and with or without room the scan at such a node never enters a wildcard
child.  With `/` and `/:foo` both registered, in either order, the lookup of `/` returns
the node of `/:foo` with foo bound to the empty string, and the handler of `/` is
reached through the fallback, as for `/a/b`. -/
theorem dynamic_beats_wildcard {H : Type} (srt : (Nat → Nat) → List Nat → List Nat)
    (hsrt : SortsByKind srt) (hp : Heap H) (hr : Reachable srt hp) (alloc : Vars)
    (p d : Nat) (chunk : Bytes) (vars : Option Vars)
    (hd : (deref hp p).children.find? (fun c => decide (kindOf hp c = nodeDynamic)) = some d)
    (hst : ∀ c ∈ (deref hp p).children, kindOf hp c = nodeStatic → chunkOf hp c ≠ chunk)
    (hroom : (vars.getD alloc).elems.length < (vars.getD alloc).cap) :
    scanChildren hp alloc chunk vars (deref hp p).children
      = .next d (some { vars.getD alloc with
          elems := (vars.getD alloc).elems ++
            [{ Key := (chunkOf hp d).drop 1, Value := chunk }] }) ∧
    (∀ (seg : Bytes) (vs : Option Vars) (w : Nat) (vars1 : Option Vars),
      scanChildren hp alloc seg vs (deref hp p).children = .next w vars1 →
      kindOf hp w ≠ nodeWildcard) ∧
    node.lookup (insertAll sortSort (emptyTrie : Heap Nat) slashAndFoo).1 0
      (splitSlash (bytes "/")) testAlloc
      = .ret (some 3) (some { elems := [{ Key := (bytes "foo"), Value := [] }], cap := 10 }) ∧
    (deref (insertAll sortSort (emptyTrie : Heap Nat) slashAndFoo).1 3).handler = some 1 ∧
    node.lookup (insertAll sortSort (emptyTrie : Heap Nat) fooAndSlash).1 0
      (splitSlash (bytes "/")) testAlloc
      = .ret (some 2) (some { elems := [{ Key := (bytes "foo"), Value := [] }], cap := 10 }) ∧
    (deref (insertAll sortSort (emptyTrie : Heap Nat) fooAndSlash).1 2).handler = some 1 ∧
    node.lookup (insertAll sortSort (emptyTrie : Heap Nat) slashAndFoo).1 0
      (splitSlash (bytes "/a/b")) testAlloc
      = .ret (some 2)
          (some { elems := [{ Key := (bytes "foo"), Value := (bytes "a") }], cap := 10 }) ∧
    (deref (insertAll sortSort (emptyTrie : Heap Nat) slashAndFoo).1 2).handler = some 0 := by
  obtain ⟨hwf, -⟩ := reachable_inv srt hsrt hr
  have hmem : d ∈ (deref hp p).children := List.mem_of_find?_eq_some hd
  have hdk : kindOf hp d = nodeDynamic := by
    have := List.find?_some hd
    simpa using this
  have hch : chunkOf hp d ≠ [] := by
    intro e
    have hk := hwf.kind_eq p d hmem
    rw [e, hdk] at hk
    revert hk
    decide
  refine ⟨scan_first_dynamic hp alloc chunk vars d hch hroom _ (hwf.sorted p) hd hst,
    ?_, by decide, by decide, by decide, by decide, by decide, by decide⟩
  intro seg vs w vars1 h
  exact scan_not_wildcard hp alloc seg d hdk _ vs w vars1 (hwf.sorted p) hmem h

/-- C23 (witness): with `/` and `/:foo` registered, the scan at the node of the leading
empty segment for the empty segment enters the node of `:foo`. -/
theorem dynamic_beats_wildcard_witness :
    scanChildren (insertAll sortSort (emptyTrie : Heap Nat) slashAndFoo).1 testAlloc [] none
      (deref (insertAll sortSort (emptyTrie : Heap Nat) slashAndFoo).1 1).children
      = .next 3 (some { (none : Option Vars).getD testAlloc with
          elems := ((none : Option Vars).getD testAlloc).elems ++
            [{ Key := (chunkOf (insertAll sortSort (emptyTrie : Heap Nat) slashAndFoo).1
              3).drop 1, Value := [] }] }) :=
  (dynamic_beats_wildcard sortSort sortSort_sorts
    (insertAll sortSort (emptyTrie : Heap Nat) slashAndFoo).1
    (insertAll_reachable sortSort slashAndFoo emptyTrie _ Reachable.empty
      (pair_of_snd (by decide))) testAlloc 1 3 [] none (by decide) (by decide)
    (by decide)).1

/-! ### The order of the wrappers (C24) -/

/-- The wrappers of the test around a handler print their numbers in the order of the
list, then what the handler prints, then ten times their numbers in the reverse order. -/
theorem compose_wrappers (t : List Nat) :
    ∀ ns : List Nat, compose (ns.map newTestWrapper) (some t)
      = some (ns ++ t ++ ns.reverse.map (fun n => n * 10)) := by
  intro ns
  induction ns with
  | nil => simp [compose]
  | cons n rest ih =>
    have hstep : compose ((n :: rest).map newTestWrapper) (some t)
        = newTestWrapper n (compose (rest.map newTestWrapper) (some t)) := rfl
    rw [hstep, ih]
    simp [newTestWrapper]

/-- C24: wrap order at insertion.  A call of Group.handle on the root group with the
global list g1, ..., gm, the handler h and the assembled list p1, ..., pn that returns
stores, in the trie of the method and at the node of the joined route, the handler
g1(g2(...gm(p1(p2(...pn(h)))))).  With the wrappers of the test the composed handler
prints the numbers of the global list, then of the assembled list, then what h prints,
then ten times the numbers in the reverse order; the request of the Example prints
1, 2, 3, 0, 30, 20, 10. -/
theorem wrap_order {H : Type} (srt : (Nat → Nat) → List Nat → List Nat)
    (hsrt : SortsByKind srt) (pfx : Bytes) (gps ps : List (Plugin H))
    (trees trees1 : Trees H) (m route : Bytes) (h : Handler H)
    (hlen : trees.length = treesLen) (hwf : ∀ i : Nat, WF (bucketHeap trees i))
    (hres : Group.handle srt (.root pfx gps) trees m route h ps = (trees1, none)) :
    (∃ i e : Nat, hash m = some i ∧ i < treesLen ∧
      walk (bucketHeap trees1 i) 0
        (unsafeParse (pathJoin pfx (if route.length = 0 then [slash] else route)) [])
        = some e ∧
      (deref (bucketHeap trees1 i) e).handler
        = gps.foldr (fun p acc => p acc) (ps.foldr (fun p acc => p acc) h)) ∧
    (∀ (gs qs t : List Nat),
      (gs.map newTestWrapper).foldr (fun p acc => p acc)
        ((qs.map newTestWrapper).foldr (fun p acc => p acc) (some t))
        = some (gs ++ (qs ++ t ++ qs.reverse.map (fun n => n * 10))
            ++ gs.reverse.map (fun n => n * 10))) ∧
    Router.ServeHTTP
      { exampleRouter with
        trees := (Group.Handle sortSort exampleGroup exampleRouter.trees (bytes "GET")
          (bytes "/foo") (some [0]) [newTestWrapper 3]).1 }
      (getRequest "/r/g/foo") = .serve [1, 2, 3, 0, 30, 20, 10] none := by
  refine ⟨?_, ?_, by decide⟩
  · unfold Group.handle at hres
    cases hh : hash m with
    | none => rw [hh] at hres; simp at hres
    | some i =>
      rw [hh] at hres
      simp only at hres
      by_cases hi : treesLen ≤ i
      · rw [if_pos hi] at hres; simp at hres
      · rw [if_neg hi] at hres
        have hi1 : i < trees.length := by omega
        have h1 := congrArg Prod.fst hres
        have h2 := congrArg Prod.snd hres
        simp only at h1 h2
        have hins : insertFrom srt (bucketHeap trees i) 0
            (unsafeParse (pathJoin pfx (if route.length = 0 then [slash] else route)) [])
            (compose gps (compose ps h))
            = ((insertFrom srt (bucketHeap trees i) 0
                (unsafeParse (pathJoin pfx (if route.length = 0 then [slash] else route)) [])
                (compose gps (compose ps h))).1, none) := by
          apply pair_of_snd
          have h3 := h2
          unfold node.insert at h3
          rw [if_pos (Nat.zero_le _)] at h3
          exact h3
        have ok := (insertFrom_spec srt hsrt _ _ 0 _ _ none (hwf i) (hwf i).nonempty hins).2 rfl
        obtain ⟨e, he, hhe, -⟩ := ok.attached
        have hb : bucketHeap trees1 i = (insertFrom srt (bucketHeap trees i) 0
            (unsafeParse (pathJoin pfx (if route.length = 0 then [slash] else route)) [])
            (compose gps (compose ps h))).1 := by
          rw [← h1, bucketHeap_set_same trees hi1]
          unfold node.insert
          rw [if_pos (Nat.zero_le _)]
          rfl
        refine ⟨i, e, rfl, by omega, ?_, ?_⟩
        · rw [hb]; exact he
        · rw [hb]; exact hhe
  · intro gs qs t
    have h1 := compose_wrappers t qs
    have h2 := compose_wrappers (qs ++ t ++ qs.reverse.map (fun n => n * 10)) gs
    unfold compose at h1 h2
    rw [h1, h2]

/-- C24 (witness): the registration of the Example as it reaches the root group, with the
global wrapper 1 and the assembled wrappers 2 and 3. -/
theorem wrap_order_witness :
    ∃ i e : Nat, hash (bytes "GET") = some i ∧ i < treesLen ∧
      walk (bucketHeap (Group.handle sortSort (.root (bytes "/r") [newTestWrapper 1])
          exampleRouter.trees (bytes "GET") (bytes "/g/foo") (some [0])
          [newTestWrapper 2, newTestWrapper 3]).1 i) 0
        (unsafeParse (pathJoin (bytes "/r")
          (if (bytes "/g/foo").length = 0 then [slash] else bytes "/g/foo")) [])
        = some e ∧
      (deref (bucketHeap (Group.handle sortSort (.root (bytes "/r") [newTestWrapper 1])
          exampleRouter.trees (bytes "GET") (bytes "/g/foo") (some [0])
          [newTestWrapper 2, newTestWrapper 3]).1 i) e).handler
        = [newTestWrapper 1].foldr (fun p acc => p acc)
            ([newTestWrapper 2, newTestWrapper 3].foldr (fun p acc => p acc) (some [0])) :=
  (wrap_order sortSort sortSort_sorts (bytes "/r") [newTestWrapper 1]
    [newTestWrapper 2, newTestWrapper 3] exampleRouter.trees _ (bytes "GET")
    (bytes "/g/foo") (some [0]) (by decide)
    (fun i => ((@New_inv (List Nat) sortSort sortSort_sorts [] (bytes "/r")
      [newTestWrapper 1] [1, 10] rfl).2.built i).wf)
    (pair_of_snd (by decide))).1

/-! ### Where the trailing slash survives and where it does not (C27, C28) -/

section TrailingSlash

variable {H : Type}

/-- The chunks that Group.handle inserts never end in an empty chunk when the prefix or
the route has an element: no wildcard node is made for a trailing slash of the route. -/
theorem joined_route_last_chunk (pfx route : Bytes) (ha : NoDotDot pfx)
    (hb : NoDotDot route) (hes : pathElems pfx ++ pathElems route ≠ []) :
    (unsafeParse (pathJoin pfx (orSlash route)) []).getLast? ≠ some [] := by
  have hb1 : NoDotDot (orSlash route) := by
    unfold orSlash
    split
    · decide
    · exact hb
  have hel : pathElems (orSlash route) = pathElems route := by
    unfold orSlash
    split
    · rename_i h0
      have : route = [] := List.length_eq_zero.mp h0
      subst this
      decide
    · rfl
  have hne : pfx ++ orSlash route ≠ [] := by
    intro h
    have h2 := (List.append_eq_nil.mp h).2
    unfold orSlash at h2
    split at h2
    · cases h2
    · rename_i h0
      apply h0
      rw [h2]
      rfl
  rw [unsafeParse_eq, List.nil_append, pathJoin_eq_render pfx (orSlash route) hne ha hb1, hel]
  have hns : ∀ e ∈ pathElems pfx ++ pathElems route, slash ∉ e := by
    intro e he
    rcases List.mem_append.mp he with h | h
    · exact slash_not_mem_splitSlash pfx e (List.mem_of_mem_filter h)
    · exact slash_not_mem_splitSlash route e (List.mem_of_mem_filter h)
  have hnn : ∀ e ∈ pathElems pfx ++ pathElems route, e ≠ [] := by
    intro e he
    rcases List.mem_append.mp he with h | h
    · exact pathElems_ne_nil pfx e h
    · exact pathElems_ne_nil route e h
  have hsp := splitSlash_joinSlash (pathElems pfx ++ pathElems route) hes hns
  intro hlast
  have hmem : ([] : Bytes) ∈ pathElems pfx ++ pathElems route := by
    unfold renderPath at hlast
    split at hlast
    · rw [splitSlash_slash, hsp] at hlast
      cases hl : pathElems pfx ++ pathElems route with
      | nil => exact absurd hl hes
      | cons x xs =>
        rw [hl, List.getLast?_cons_cons] at hlast
        exact List.mem_of_getLast?_eq_some hlast
    · rw [hsp] at hlast
      exact List.mem_of_getLast?_eq_some hlast
  exact hnn [] hmem rfl

/-- On a router made by Default the handler that New registers for OPTIONS serves every
OPTIONS request whose path begins with a slash, when the global plugins around the
handler give a handler that is not nil. -/
theorem default_serves_options (nop : H) (gps : List (Plugin H)) (h : H)
    (hw : compose gps (some nop) = some h) (uri rest : Bytes) (proto : Bool)
    (huri : uri ≠ bytes "*") :
    Router.ServeHTTP (Default sortSort nop gps)
      { RequestURI := uri, Path := slash :: rest, Method := bytes "OPTIONS",
        protoAtLeast11 := proto } = .serve h none := by
  have ht : (Default sortSort nop gps).trees.getD 2 none
      = some [{ kind := nodeUnknown, chunk := [], children := [1], wildcard := some 1,
                handler := none },
              { kind := nodeWildcard, chunk := [], children := [2], wildcard := some 2,
                handler := none },
              { kind := nodeWildcard, chunk := [], children := [], wildcard := none,
                handler := some h }] := by
    have h1 : (Default sortSort nop gps).trees.getD 2 none
        = some (node.insert sortSort emptyTrie 0 [[], []] 0 (compose gps (some nop))).1 := rfl
    rw [h1, hw]
    rfl
  obtain ⟨c, cs, hsplit⟩ : ∃ c cs, splitSlash rest = c :: cs := by
    cases hs : splitSlash rest with
    | nil => exact absurd hs (splitSlash_ne_nil rest)
    | cons c cs => exact ⟨c, cs, rfl⟩
  unfold Router.ServeHTTP
  simp only
  rw [if_neg huri]
  have hhash : hash (bytes "OPTIONS") = some 2 := by decide
  have hpath : (if (slash :: rest).length = 0 then [slash] else slash :: rest)
      = slash :: rest := rfl
  rw [hhash, hpath]
  simp only
  rw [if_neg (by decide), ht]
  simp only
  rw [unsafeParse_eq, List.nil_append, splitSlash_slash, hsplit]
  cases cs <;> rfl

end TrailingSlash

/-! ### Trailing slashes at registration (C27) -/

/-- C27: the trailing slash of a pattern is lost at registration.  On a router made by
Default the route `/ping/pong/` is registered for GET: Group.handle inserts the segments
of path.Join of the prefix and the route, which has no trailing slash, so the handler is
stored on the static node of `pong` and no wildcard node is made; a request for
`/ping/pong/xyz` is answered with not found and a request for `/ping/pong` is served by
the handler.  Inserted into a trie directly, as in TestLookup_Static_Wildcard, the same
pattern puts its handler on a wildcard node under the node of `pong`, and the lookup of
`/ping/pong/xyz` returns that node. -/
theorem trailing_slash_lost_at_registration :
    (registerAll sortSort (Default sortSort 99 []) [getReg "/ping/pong/" 2]).2 = none ∧
    Reg.chunks (.root [] []) (getReg "/ping/pong/" 2) = [[], bytes "ping", bytes "pong"] ∧
    walk (bucketHeap trailingSlashRouter.trees 9) 0 [[], bytes "ping", bytes "pong"]
      = some 3 ∧
    (deref (bucketHeap trailingSlashRouter.trees 9) 3).handler = some 2 ∧
    kindOf (bucketHeap trailingSlashRouter.trees 9) 3 = nodeStatic ∧
    (deref (bucketHeap trailingSlashRouter.trees 9) 3).children = [] ∧
    Router.ServeHTTP trailingSlashRouter (getRequest "/ping/pong/xyz") = .notFound ∧
    Router.ServeHTTP trailingSlashRouter (getRequest "/ping/pong/") = .notFound ∧
    Router.ServeHTTP trailingSlashRouter (getRequest "/ping/pong") = .serve 2 none ∧
    walk (insertAll sortSort (emptyTrie : Heap Nat) [(splitSlash (bytes "/ping/pong/"), 2)]).1
      0 (splitSlash (bytes "/ping/pong/")) = some 4 ∧
    kindOf (insertAll sortSort (emptyTrie : Heap Nat) [(splitSlash (bytes "/ping/pong/"), 2)]).1
      4 = nodeWildcard ∧
    (deref (insertAll sortSort (emptyTrie : Heap Nat)
      [(splitSlash (bytes "/ping/pong/"), 2)]).1 4).handler = some 2 ∧
    node.lookup (insertAll sortSort (emptyTrie : Heap Nat)
      [(splitSlash (bytes "/ping/pong/"), 2)]).1 0 (splitSlash (bytes "/ping/pong/xyz"))
      testAlloc = .ret (some 4) none := by
  decide

/-! ### The handler for OPTIONS of a new router (C28) -/

/-- C28: the handler that New registers for OPTIONS on a router with a prefix.  New
registers the route `/` through Group.handle, which inserts the segments of path.Join of
the prefix and `/`: with the prefix `/r` these are the segments of `/r`, without a
wildcard, so an OPTIONS request for `/r/g/foo` or for `/r/` is answered with not found
and the global plugins do not run; only the request for `/r` is served.  With the empty
prefix of Default the handler sits on a wildcard node and the requests for `/g/foo` and
`/` are served. -/
theorem options_lost_under_router_pfx :
    pathJoin (bytes "/r") (bytes "/") = bytes "/r" ∧
    Router.ServeHTTP (New sortSort [] (bytes "/r") [newTestWrapper 1])
      (optionsRequest "/r/g/foo") = .notFound ∧
    Router.ServeHTTP (New sortSort [] (bytes "/r") [newTestWrapper 1])
      (optionsRequest "/r/") = .notFound ∧
    Router.ServeHTTP (New sortSort [] (bytes "/r") [newTestWrapper 1])
      (optionsRequest "/r") = .serve [1, 10] none ∧
    Router.ServeHTTP (Default sortSort [] [newTestWrapper 1])
      (optionsRequest "/g/foo") = .serve [1, 10] none ∧
    Router.ServeHTTP (Default sortSort [] [newTestWrapper 1])
      (optionsRequest "/") = .serve [1, 10] none := by
  decide

/-! ### Empty lists of values in bind (C29) -/

/-- C29: bind indexes an empty list of values.  For every type of the field A, with or
without a method Parse, every value of the field and every list of fields behind it, a
pointer to a struct whose first field A has the key a in the namespace q is bound from
the map that holds the key a with an empty list of values: bind panics with an index out
of range and returns neither success nor an error.  With the one value 1 in the list the
call on a field of the type int returns nil. -/
theorem bind_empty_values_panics (lib : Lib) (ty : Ty) (v : Val)
    (rest : List (Field × Val)) :
    (bind lib (.ptrStruct ((mkField "A" "q" "a" ty, v) :: rest))
      (mkValues [(bytes "a", [])]) (bytes "q")).2 = some (.panic "index out of range") ∧
    (bind testLib (.ptrStruct [(mkField "A" "q" "a" tyInt, .int 0)])
      (mkValues [(bytes "a", [bytes "1"])]) (bytes "q")).2 = none := by
  refine ⟨?_, by decide⟩
  have hv : ∀ f : Field, (bindValue lib f [] v).2 = some (.panic "index out of range") := by
    intro f
    unfold bindValue
    cases f.ty.parse with
    | some parse => rfl
    | none =>
      simp only
  have hf : bindField lib (mkValues [(bytes "a", [])]) (bytes "q") (mkField "A" "q" "a" ty) v
      = bindValue lib (mkField "A" "q" "a" ty) [] v := rfl
  have h2 := hv (mkField "A" "q" "a" ty)
  unfold bind
  simp only
  unfold bindFields
  rw [hf]
  rcases hb : bindValue lib (mkField "A" "q" "a" ty) [] v with ⟨v1, st⟩
  rw [hb] at h2
  simp only at h2
  subst h2
  rfl

end Hr
